import Mathlib

/-!
Virtual-memory core of the MOS kernel: `kernel/mm/paging/paging.c`.

A shallow embedding of the address-space manager (region list, free-range
search, mapping, replacing and cloning of pages) together with the properties
of its specification; and of the routines around it that the specification
speaks of: the memory loop of `kernel/tasks/fork.c`, the reference counting of
`kernel/io/io.c`, the parser of `kernel/cmdline.c` and the generic seek of
`kernel/filesystem/vfs.c`.

Machine words (`ptr_t`, `size_t`) are natural numbers; every sum the C code
computes on them is reduced modulo `2 ^ ptr_bits`.
-/

namespace MOS

/-! ## Platform constants -/

/-- Constants that `paging.c` takes from platform headers which are not part of
the sources at hand: the width of `ptr_t`, `MOS_PAGE_SIZE`, `PML1_SHIFT` and
`MOS_KERNEL_START_VADDR`. -/
structure Platform where
  ptr_bits : Nat
  MOS_PAGE_SIZE : Nat
  PML1_SHIFT : Nat
  MOS_KERNEL_START_VADDR : Nat
  page_size_pos : 0 < MOS_PAGE_SIZE
  kernel_start_lt : MOS_KERNEL_START_VADDR < 2 ^ ptr_bits

/-- Reduction of a sum to the width of `ptr_t`. -/
def Platform.wrap (pf : Platform) (x : Nat) : Nat := x % 2 ^ pf.ptr_bits

/-- The 32-bit x86 layout of `arch/x86`: 4 KiB pages, kernel in the upper gigabyte. -/
def x86_32 : Platform where
  ptr_bits := 32
  MOS_PAGE_SIZE := 4096
  PML1_SHIFT := 12
  MOS_KERNEL_START_VADDR := 0xC0000000
  page_size_pos := by decide
  kernel_start_lt := by decide

/-- A 64-bit layout with 4 KiB pages and the kernel in the upper half. -/
def x86_64 : Platform where
  ptr_bits := 64
  MOS_PAGE_SIZE := 4096
  PML1_SHIFT := 12
  MOS_KERNEL_START_VADDR := 0xFFFF800000000000
  page_size_pos := by decide
  kernel_start_lt := by decide

/-! ## Data model -/

/-- The fields of `vmap_t` that `paging.c` reads and writes. -/
structure vmap_t where
  vaddr : Nat
  npages : Nat
  vmflags : Nat
deriving DecidableEq

/-- The enum `valloc_flags` of `paging.h`. -/
inductive valloc_flags where
  | VALLOC_DEFAULT
  | VALLOC_EXACT
deriving DecidableEq

/-- A leaf entry of the page table: frame number and protection flags. -/
structure pte_t where
  pfn : Nat
  flags : Nat
deriving DecidableEq

/-- The page table of one address space, seen through its leaf entries:
virtual page number to leaf entry. -/
abbrev pgd_t := Nat → Option pte_t

/-- The fields of `mm_context_t` used by `paging.c`: the spinlock `mm_lock`,
the region list `mmaps` and the page-table root `pgd`. -/
structure mm_context_t where
  mm_lock : Bool
  mmaps : List vmap_t
  pgd : pgd_t

/-- Reference counts of the physical frames, by frame number. -/
structure pmm_t where
  refcount : Nat → Nat

/-- How a kernel routine ends: it returns, it stops in a failed `MOS_ASSERT`,
or it waits for ever on a spinlock that is already held. -/
inductive Run (α : Type) where
  | ret (a : α)
  | assert_fail
  | spin

/-! ## Region list -/

/-- The end address of a region without reduction to the word width. -/
def vmap_t.true_end (pf : Platform) (m : vmap_t) : Nat :=
  m.vaddr + m.npages * pf.MOS_PAGE_SIZE

/-- The value of `this_end_vaddr = vmap->vaddr + vmap->npages * MOS_PAGE_SIZE`. -/
def vmap_end (pf : Platform) (m : vmap_t) : Nat :=
  pf.wrap (m.vaddr + m.npages * pf.MOS_PAGE_SIZE)

/-- Position at which a region starting at `vaddr` enters the list: in front of
the first region that starts at a greater address. -/
def vmap_insert_pos (vaddr : Nat) : List vmap_t → Nat
  | [] => 0
  | m :: rest => if vaddr < m.vaddr then 0 else vmap_insert_pos vaddr rest + 1

/-- Insertion of a region in address order. -/
def vmap_insert (v : vmap_t) : List vmap_t → List vmap_t
  | [] => [v]
  | m :: rest => if v.vaddr < m.vaddr then v :: m :: rest else m :: vmap_insert v rest

/-- Modelled from the spec: `vmap_create` is called by `paging.c` but defined
outside the sources at hand. Following §3 and §4.2 it creates the region with
the given start address and page count and enters it into the region list,
which is kept in ascending address order. The result is the handle of the new
region (its position in the list) and the updated address space. -/
def vmap_create (mmctx : mm_context_t) (vaddr npages : Nat) : Nat × mm_context_t :=
  (vmap_insert_pos vaddr mmctx.mmaps,
   { mmctx with mmaps := vmap_insert ⟨vaddr, npages, 0⟩ mmctx.mmaps })

/-- Dereference of a region handle. -/
def vmap_at (l : List vmap_t) (i : Nat) : vmap_t := l.getD i ⟨0, 0, 0⟩

/-- The assignment `vmap->vmflags = flags` through a region handle. -/
def vmap_set_vmflags (flags : Nat) : Nat → List vmap_t → List vmap_t
  | _, [] => []
  | 0, m :: rest => { m with vmflags := flags } :: rest
  | i + 1, m :: rest => m :: vmap_set_vmflags flags i rest

/-! ## `mm_get_free_vaddr_locked` -/

/-- The `list_foreach` of the `VALLOC_EXACT` branch (lines 28-42): `false` when
some region makes the loop `return NULL`, `true` when "nothing seems to overlap". -/
def free_vaddr_exact_scan (pf : Platform) (base_vaddr end_vaddr : Nat) : List vmap_t → Bool
  | [] => true
  | vmap :: rest =>
    let this_vaddr := vmap.vaddr
    let this_end_vaddr := vmap_end pf vmap
    if this_vaddr < end_vaddr ∧ this_end_vaddr > base_vaddr then false
    else free_vaddr_exact_scan pf base_vaddr end_vaddr rest

/-- The `VALLOC_DEFAULT` branch (lines 49-78) up to the call of `vmap_create`:
the address handed to `vmap_create`, or `none` where the code returns `NULL`.
The first argument after `n_pages` is `retry_addr`. -/
def free_vaddr_default_scan (pf : Platform) (n_pages : Nat) : Nat → List vmap_t → Option Nat
  | retry_addr, [] =>
    if pf.wrap (retry_addr + n_pages * pf.MOS_PAGE_SIZE) ≤ pf.MOS_KERNEL_START_VADDR then
      some retry_addr
    else none
  | retry_addr, mmap :: rest =>
    if pf.wrap (retry_addr + n_pages * pf.MOS_PAGE_SIZE) > pf.MOS_KERNEL_START_VADDR then none
    else
      let this_vaddr := mmap.vaddr
      let this_end_vaddr := vmap_end pf mmap
      let target_vaddr_end := pf.wrap (retry_addr + n_pages * pf.MOS_PAGE_SIZE)
      let retry_addr2 :=
        if this_vaddr < target_vaddr_end ∧ this_end_vaddr > retry_addr then this_end_vaddr
        else retry_addr
      if pf.wrap (retry_addr2 + n_pages * pf.MOS_PAGE_SIZE) ≤ this_vaddr then some retry_addr2
      else free_vaddr_default_scan pf n_pages retry_addr2 rest

/-- The function `mm_get_free_vaddr_locked` of `paging.c`. The result is the
handle of the created region (`none` for `NULL`) and the address space after
the call. -/
def mm_get_free_vaddr_locked (pf : Platform) (mmctx : mm_context_t) (n_pages base_vaddr : Nat)
    (flags : valloc_flags) : Run (Option Nat × mm_context_t) :=
  if mmctx.mm_lock = false then Run.assert_fail
  else if ¬ base_vaddr < pf.MOS_KERNEL_START_VADDR then Run.assert_fail
  else
    match flags with
    | valloc_flags.VALLOC_EXACT =>
      let end_vaddr := pf.wrap (base_vaddr + n_pages * pf.MOS_PAGE_SIZE)
      if free_vaddr_exact_scan pf base_vaddr end_vaddr mmctx.mmaps then
        let r := vmap_create mmctx base_vaddr n_pages
        Run.ret (some r.1, r.2)
      else Run.ret (none, mmctx)
    | valloc_flags.VALLOC_DEFAULT =>
      match free_vaddr_default_scan pf n_pages base_vaddr mmctx.mmaps with
      | some retry_addr =>
        let r := vmap_create mmctx retry_addr n_pages
        Run.ret (some r.1, r.2)
      | none => Run.ret (none, mmctx)

/-! ## Page table, frame references and locks

These routines are called by `paging.c` and defined outside the sources at
hand. -/

/-- Sequencing of kernel routines: a failed assertion or an endless wait ends
the whole run. -/
def Run.bind {α β : Type} (x : Run α) (f : α → Run β) : Run β :=
  match x with
  | Run.ret a => f a
  | Run.assert_fail => Run.assert_fail
  | Run.spin => Run.spin

/-- Virtual page number of an address. -/
def Platform.vpn (pf : Platform) (vaddr : Nat) : Nat := pf.wrap vaddr / pf.MOS_PAGE_SIZE

/-- Writing (or clearing) one leaf entry. -/
def pgd_set (pgd : pgd_t) (page : Nat) (e : Option pte_t) : pgd_t :=
  fun p => if p = page then e else pgd p

/-- Modelled from the spec: `mm_do_map` (generic walker, §4.1 and §4.3) installs
a leaf entry for each page of the range and does not touch reference counts.
Page `k` of the range receives frame `pfn + k`, as in the loop of
`platform_mm_map_pages` (`x86_platform_api.c`): map, `vaddr += MOS_PAGE_SIZE`,
`pfn++`. -/
def mm_do_map (pf : Platform) (pgd : pgd_t) (vaddr pfn n_pages flags : Nat) : pgd_t :=
  match n_pages with
  | 0 => pgd
  | k + 1 =>
    mm_do_map pf (pgd_set pgd (pf.vpn vaddr) (some ⟨pfn, flags⟩))
      (pf.wrap (vaddr + pf.MOS_PAGE_SIZE)) (pfn + 1) k flags

/-- Modelled from the spec: `mm_do_get_pfn` reads the frame number of the leaf
entry of `vaddr`; it yields `0` when there is no leaf entry (the caller in
`paging.c` tests `old_pfn != 0`). -/
def mm_do_get_pfn (pf : Platform) (pgd : pgd_t) (vaddr : Nat) : Nat :=
  match pgd (pf.vpn vaddr) with
  | some e => e.pfn
  | none => 0

/-- Modelled from the spec: `pmm_ref_one`, the `increment_refcount(frame)` of §6. -/
def pmm_ref_one (pmm : pmm_t) (pfn : Nat) : pmm_t :=
  ⟨fun f => if f = pfn then pmm.refcount f + 1 else pmm.refcount f⟩

/-- Modelled from the spec: `pmm_unref_one`, the `decrement_refcount(frame)` of
§6. A reference count is a number of references; taking one from a count of zero
is the refcount underflow that §7 lists as `LogicError`, a fatal stop. -/
def pmm_unref_one (pmm : pmm_t) (pfn : Nat) : Run pmm_t :=
  if pmm.refcount pfn = 0 then Run.assert_fail
  else Run.ret ⟨fun f => if f = pfn then pmm.refcount f - 1 else pmm.refcount f⟩

/-- Modelled from the spec: `mm_do_unmap` clears the leaf entry of each page of
the range; with `do_unref` it takes one reference from the frame of each entry
it clears (§4.3, `unmap_pages`). -/
def mm_do_unmap (pf : Platform) (pgd : pgd_t) (pmm : pmm_t) (vaddr n_pages : Nat)
    (do_unref : Bool) : Run (pgd_t × pmm_t) :=
  match n_pages with
  | 0 => Run.ret (pgd, pmm)
  | k + 1 =>
    match pgd (pf.vpn vaddr) with
    | none => mm_do_unmap pf pgd pmm (pf.wrap (vaddr + pf.MOS_PAGE_SIZE)) k do_unref
    | some e =>
      if do_unref then
        match pmm_unref_one pmm e.pfn with
        | Run.ret pmm2 =>
          mm_do_unmap pf (pgd_set pgd (pf.vpn vaddr) none) pmm2
            (pf.wrap (vaddr + pf.MOS_PAGE_SIZE)) k do_unref
        | Run.assert_fail => Run.assert_fail
        | Run.spin => Run.spin
      else
        mm_do_unmap pf (pgd_set pgd (pf.vpn vaddr) none) pmm
          (pf.wrap (vaddr + pf.MOS_PAGE_SIZE)) k do_unref

/-- Modelled from the spec: `mm_do_copy` copies every leaf entry of the range
from the source root to the destination root (same frame, same flags) and adds
one reference to the frame for the new entry (§4.4, step 3). Pages of the range
without a source entry are left alone. -/
def mm_do_copy (pf : Platform) (src dst : pgd_t) (pmm : pmm_t) (vaddr n_pages : Nat) :
    pgd_t × pmm_t :=
  match n_pages with
  | 0 => (dst, pmm)
  | k + 1 =>
    match src (pf.vpn vaddr) with
    | none => mm_do_copy pf src dst pmm (pf.wrap (vaddr + pf.MOS_PAGE_SIZE)) k
    | some e =>
      mm_do_copy pf src (pgd_set dst (pf.vpn vaddr) (some e)) (pmm_ref_one pmm e.pfn)
        (pf.wrap (vaddr + pf.MOS_PAGE_SIZE)) k

/-- Modelled from the spec: `mm_do_flag` sets the protection flags of every leaf
entry of the range and leaves frames and reference counts alone (§4.3,
`flag_pages`). -/
def mm_do_flag (pf : Platform) (pgd : pgd_t) (vaddr n_pages flags : Nat) : pgd_t :=
  match n_pages with
  | 0 => pgd
  | k + 1 =>
    match pgd (pf.vpn vaddr) with
    | none => mm_do_flag pf pgd (pf.wrap (vaddr + pf.MOS_PAGE_SIZE)) k flags
    | some e =>
      mm_do_flag pf (pgd_set pgd (pf.vpn vaddr) (some ⟨e.pfn, flags⟩))
        (pf.wrap (vaddr + pf.MOS_PAGE_SIZE)) k flags

/-- Modelled from the spec: `spinlock_acquire` on the lock of an address space
(§5). A lock that is already held is never obtained: nothing in this sequential
setting releases it. -/
def spinlock_acquire (mmctx : mm_context_t) : Run mm_context_t :=
  if mmctx.mm_lock then Run.spin else Run.ret { mmctx with mm_lock := true }

/-- Modelled from the spec: `spinlock_release` leaves the lock free. -/
def spinlock_release (mmctx : mm_context_t) : mm_context_t :=
  { mmctx with mm_lock := false }

/-- Modelled from the spec: `mm_lock_ctx_pair` takes the locks of both address
spaces (§4.4 step 1, §5). -/
def mm_lock_ctx_pair (ctx1 ctx2 : mm_context_t) : Run (mm_context_t × mm_context_t) :=
  (spinlock_acquire ctx1).bind fun c1 =>
  (spinlock_acquire ctx2).bind fun c2 =>
  Run.ret (c1, c2)

/-- Modelled from the spec: `mm_unlock_ctx_pair` releases both locks. -/
def mm_unlock_ctx_pair (ctx1 ctx2 : mm_context_t) : mm_context_t × mm_context_t :=
  (spinlock_release ctx1, spinlock_release ctx2)

/-- The physical frame allocator, an external collaborator (§6):
`mm_get_free_pages(n)` yields the first frame number of `n` fresh frames or
fails (`NULL`), `mm_free_pages(frame, n)` gives them back. -/
structure frame_allocator where
  mm_get_free_pages : pmm_t → Nat → Option (Nat × pmm_t)
  mm_free_pages : pmm_t → Nat → Nat → pmm_t

/-! ## The operations of `paging.c` -/

/-- The function `mm_alloc_pages` (lines 82-113). The result is the region
handle (`none` for `NULL`), the address space and the frame state. -/
def mm_alloc_pages (pf : Platform) (fa : frame_allocator) (pmm : pmm_t) (mmctx : mm_context_t)
    (n_pages hint_vaddr : Nat) (vflags : valloc_flags) (flags : Nat) :
    Run (Option Nat × mm_context_t × pmm_t) :=
  if ¬ n_pages > 0 then Run.assert_fail
  else
    match fa.mm_get_free_pages pmm n_pages with
    | none => Run.ret (none, spinlock_release mmctx, pmm)
    | some (pfn, pmm1) =>
      (spinlock_acquire mmctx).bind fun c1 =>
      (mm_get_free_vaddr_locked pf c1 n_pages hint_vaddr vflags).bind fun r =>
      match r with
      | (none, c2) => Run.ret (none, spinlock_release c2, fa.mm_free_pages pmm1 pfn n_pages)
      | (some vmap, c2) =>
        let c3 : mm_context_t := { c2 with mmaps := vmap_set_vmflags flags vmap c2.mmaps }
        let c4 : mm_context_t :=
          { c3 with pgd := mm_do_map pf c3.pgd (vmap_at c3.mmaps vmap).vaddr pfn n_pages flags }
        Run.ret (some vmap, spinlock_release c4, pmm1)

/-- The function `mm_map_pages_locked` (lines 115-121). -/
def mm_map_pages_locked (pf : Platform) (ctx : mm_context_t) (vaddr pfn npages flags : Nat) :
    Run mm_context_t :=
  if ctx.mm_lock = false then Run.assert_fail
  else if ¬ npages > 0 then Run.assert_fail
  else Run.ret { ctx with pgd := mm_do_map pf ctx.pgd vaddr pfn npages flags }

/-- The function `mm_map_pages` (lines 123-128). -/
def mm_map_pages (pf : Platform) (mmctx : mm_context_t) (vaddr pfn npages flags : Nat) :
    Run mm_context_t :=
  (spinlock_acquire mmctx).bind fun c1 =>
  (mm_map_pages_locked pf c1 vaddr pfn npages flags).bind fun c2 =>
  Run.ret (spinlock_release c2)

/-- The function `mm_map_pages_to_user` (lines 130-146). -/
def mm_map_pages_to_user (pf : Platform) (mmctx : mm_context_t) (vaddr pfn npages flags : Nat) :
    Run (Option Nat × mm_context_t) :=
  (spinlock_acquire mmctx).bind fun c1 =>
  (mm_get_free_vaddr_locked pf c1 npages vaddr valloc_flags.VALLOC_EXACT).bind fun r =>
  match r with
  | (none, c2) => Run.ret (none, spinlock_release c2)
  | (some vmap, c2) =>
    let c3 : mm_context_t := { c2 with mmaps := vmap_set_vmflags flags vmap c2.mmaps }
    let c4 : mm_context_t :=
      { c3 with pgd := mm_do_map pf c3.pgd (vmap_at c3.mmaps vmap).vaddr pfn npages flags }
    Run.ret (some vmap, spinlock_release c4)

/-- The function `mm_unmap_pages` (lines 148-156). -/
def mm_unmap_pages (pf : Platform) (pmm : pmm_t) (ctx : mm_context_t) (vaddr npages : Nat) :
    Run (mm_context_t × pmm_t) :=
  if ¬ npages > 0 then Run.assert_fail
  else
    (spinlock_acquire ctx).bind fun c1 =>
    (mm_do_unmap pf c1.pgd pmm vaddr npages true).bind fun r =>
    Run.ret (spinlock_release { c1 with pgd := r.1 }, r.2)

/-- The function `mm_replace_page_locked` (lines 158-171). -/
def mm_replace_page_locked (pf : Platform) (pmm : pmm_t) (ctx : mm_context_t)
    (vaddr pfn flags : Nat) : Run (mm_context_t × pmm_t) :=
  let old_pfn := mm_do_get_pfn pf ctx.pgd vaddr
  (if old_pfn ≠ 0 then pmm_unref_one pmm old_pfn else Run.ret pmm).bind fun pmm1 =>
  if old_pfn = pfn then Run.ret (ctx, pmm1)
  else
    let pmm2 := pmm_ref_one pmm1 pfn
    Run.ret ({ ctx with pgd := mm_do_map pf ctx.pgd vaddr pfn 1 flags }, pmm2)

/-- The function `mm_clone_vmap_locked` (lines 173-187). `src_ctx` is
`src_vmap->mmctx`, a different address space than `dst_ctx`. The result is the
handle of the destination region (`none` for `NULL`), the destination address
space and the frame state. -/
def mm_clone_vmap_locked (pf : Platform) (pmm : pmm_t) (src_ctx : mm_context_t)
    (src_vmap : vmap_t) (dst_ctx : mm_context_t) : Run (Option Nat × mm_context_t × pmm_t) :=
  (mm_get_free_vaddr_locked pf dst_ctx src_vmap.npages src_vmap.vaddr
    valloc_flags.VALLOC_EXACT).bind fun r =>
  match r with
  | (none, c) => Run.ret (none, c, pmm)
  | (some dst_vmap, c) =>
    let cp := mm_do_copy pf src_ctx.pgd c.pgd pmm src_vmap.vaddr src_vmap.npages
    Run.ret (some dst_vmap, { c with pgd := cp.1 }, cp.2)

/-- The function `mm_clone_vmap` (lines 189-195). The result is the handle of
the destination region, then the source and the destination address space and
the frame state. -/
def mm_clone_vmap (pf : Platform) (pmm : pmm_t) (src_ctx : mm_context_t) (src_vmap : vmap_t)
    (dst_ctx : mm_context_t) : Run (Option Nat × mm_context_t × mm_context_t × pmm_t) :=
  (mm_lock_ctx_pair src_ctx dst_ctx).bind fun cs =>
  (mm_clone_vmap_locked pf pmm cs.1 src_vmap cs.2).bind fun r =>
  let u := mm_unlock_ctx_pair cs.1 r.2.1
  Run.ret (r.1, u.1, u.2, r.2.2)

/-- The loop of `mm_get_is_mapped_locked` (lines 200-206). -/
def is_mapped_scan (pf : Platform) (vaddr : Nat) : List vmap_t → Bool
  | [] => false
  | vmap :: rest =>
    if vmap.vaddr ≤ vaddr ∧ vaddr < vmap_end pf vmap then true
    else is_mapped_scan pf vaddr rest

/-- The function `mm_get_is_mapped_locked` (lines 197-207). -/
def mm_get_is_mapped_locked (pf : Platform) (mmctx : mm_context_t) (vaddr : Nat) : Run Bool :=
  if mmctx.mm_lock = false then Run.assert_fail
  else Run.ret (is_mapped_scan pf vaddr mmctx.mmaps)

/-- The function `mm_flag_pages_locked` (lines 209-215). -/
def mm_flag_pages_locked (pf : Platform) (ctx : mm_context_t) (vaddr npages flags : Nat) :
    Run mm_context_t :=
  if ¬ npages > 0 then Run.assert_fail
  else Run.ret { ctx with pgd := mm_do_flag pf ctx.pgd vaddr npages flags }

/-- The function `mm_get_phys_addr` (lines 217-221):
`pfn << PML1_SHIFT | (vaddr % MOS_PAGE_SIZE)` on words of `ptr_bits` bits. -/
def mm_get_phys_addr (pf : Platform) (ctx : mm_context_t) (vaddr : Nat) : Nat :=
  let pfn := mm_do_get_pfn pf ctx.pgd vaddr
  pf.wrap (pfn <<< pf.PML1_SHIFT) ||| (vaddr % pf.MOS_PAGE_SIZE)

/-- The function `platform_mm_get_phys_addr` of `arch/x86/x86_platform_api.c`
(lines 194-201). The page lookup `pg_get_mapped_paddr` is defined outside the
sources at hand and is a parameter; `~(MOS_PAGE_SIZE - 1)` is the complement on
words of `ptr_bits` bits. -/
def platform_mm_get_phys_addr (pf : Platform) (pg_get_mapped_paddr : Nat → Nat)
    (vaddr : Nat) : Nat :=
  let p := pg_get_mapped_paddr (vaddr &&& (2 ^ pf.ptr_bits - 1 - (pf.MOS_PAGE_SIZE - 1)))
  pf.wrap (p + (vaddr &&& (pf.MOS_PAGE_SIZE - 1)))

/-- One call of an operation of `paging.c` on the address space under
consideration. `clone_vmap_from` clones a region of another address space into
it, `clone_vmap_to` clones one of its regions into another address space. -/
inductive mm_op where
  | alloc_pages (n_pages hint_vaddr : Nat) (vflags : valloc_flags) (flags : Nat)
  | map_pages (vaddr pfn npages flags : Nat)
  | map_pages_to_user (vaddr pfn npages flags : Nat)
  | unmap_pages (vaddr npages : Nat)
  | replace_page (vaddr pfn flags : Nat)
  | clone_vmap_from (src_ctx : mm_context_t) (src_vmap : vmap_t)
  | clone_vmap_to (src_vmap : vmap_t) (dst_ctx : mm_context_t)

/-- The operations that create or look up a region for the pages they touch:
all but `mm_map_pages` and `mm_replace_page_locked`, which write leaf entries
at the address they are given. -/
def mm_op.region_backed : mm_op → Bool
  | mm_op.map_pages _ _ _ _ => false
  | mm_op.replace_page _ _ _ => false
  | _ => true

/-- One operation applied to the address space and the frame state. -/
def mm_apply (pf : Platform) (fa : frame_allocator) (s : mm_context_t × pmm_t) :
    mm_op → Run (mm_context_t × pmm_t)
  | mm_op.alloc_pages n_pages hint_vaddr vflags flags =>
    (mm_alloc_pages pf fa s.2 s.1 n_pages hint_vaddr vflags flags).bind fun r =>
    Run.ret (r.2.1, r.2.2)
  | mm_op.map_pages vaddr pfn npages flags =>
    (mm_map_pages pf s.1 vaddr pfn npages flags).bind fun c => Run.ret (c, s.2)
  | mm_op.map_pages_to_user vaddr pfn npages flags =>
    (mm_map_pages_to_user pf s.1 vaddr pfn npages flags).bind fun r => Run.ret (r.2, s.2)
  | mm_op.unmap_pages vaddr npages => mm_unmap_pages pf s.2 s.1 vaddr npages
  | mm_op.replace_page vaddr pfn flags => mm_replace_page_locked pf s.2 s.1 vaddr pfn flags
  | mm_op.clone_vmap_from src_ctx src_vmap =>
    (mm_clone_vmap pf s.2 src_ctx src_vmap s.1).bind fun r => Run.ret (r.2.2.1, r.2.2.2)
  | mm_op.clone_vmap_to src_vmap dst_ctx =>
    (mm_clone_vmap pf s.2 s.1 src_vmap dst_ctx).bind fun r => Run.ret (r.2.1, r.2.2.2)

/-- A sequence of operations, each applied to the state the previous one left. -/
def mm_run (pf : Platform) (fa : frame_allocator) :
    List mm_op → mm_context_t × pmm_t → Run (mm_context_t × pmm_t)
  | [], s => Run.ret s
  | op :: rest, s => (mm_apply pf fa s op).bind fun s2 => mm_run pf fa rest s2

/-! ## Reference counting of `io_t` (`kernel/io/io.c`) -/

/-- The fields of `io_t` that `io_ref`, `io_unref` and `io_close` use:
`refcount.atomic`, `closed`, whether `ops->close` is set; and, to observe the
calls, the number of calls of `ops->close` and of `mos_warn` made so far. -/
structure io_t where
  refcount : Nat
  closed : Bool
  ops_close : Bool
  close_calls : Nat
  warnings : Nat
  deriving DecidableEq

/-- The statement `io->refcount.atomic--` on an unsigned counter of
`atomic_bits` bits (the sources print the counter with `%llu`; its type is
declared outside the sources at hand, so the width is a parameter). -/
def refcount_dec (atomic_bits : Nat) (io : io_t) : io_t :=
  { io with refcount := (io.refcount + (2 ^ atomic_bits - 1)) % 2 ^ atomic_bits }

/-- The function `io_ref` (lines 14-18). -/
def io_ref (atomic_bits : Nat) (io : io_t) : io_t :=
  { io with refcount := (io.refcount + 1) % 2 ^ atomic_bits }

/-- The function `io_close` (lines 61-79). -/
def io_close (atomic_bits : Nat) (io : io_t) : io_t :=
  if io.closed then { io with warnings := io.warnings + 1 }
  else if ¬ io.ops_close then { io with warnings := io.warnings + 1 }
  else
    let io1 := refcount_dec atomic_bits io
    let io2 := if io1.refcount ≠ 0 then { io1 with warnings := io1.warnings + 1 } else io1
    { io2 with closed := true, close_calls := io2.close_calls + 1 }

/-- The function `io_unref` (lines 20-28). -/
def io_unref (atomic_bits : Nat) (io : io_t) : io_t :=
  let io1 := refcount_dec atomic_bits io
  if io1.refcount > 0 then io1 else io_close atomic_bits io1

/-- Repetition: `n` calls of an operation on the `io_t`. -/
def io_repeat (f : io_t → io_t) : Nat → io_t → io_t
  | 0, io => io
  | n + 1, io => io_repeat f n (f io)

/-! ## Seeking in a file (`kernel/filesystem/vfs.c`) -/

/-- The fields of `file_t` that `vfs_io_ops_seek` uses: `file->offset`, the
size of the inode `file->dentry->inode->size`, and `file->offset_lock`. -/
structure file_t where
  offset : Nat
  size : Nat
  offset_lock : Bool
  deriving DecidableEq

/-- The values of `io_seek_whence_t` that `vfs_io_ops_seek` distinguishes. -/
inductive io_seek_whence_t where
  | IO_SEEK_SET
  | IO_SEEK_CURRENT
  | IO_SEEK_END
  | IO_SEEK_DATA
  | IO_SEEK_HOLE
  deriving DecidableEq

/-- Conversion of an `off_t` value to `size_t`, both `w` bits wide. -/
def to_size_t (w : Nat) (x : Int) : Nat := (x % 2 ^ w).toNat

/-- Conversion of a `size_t` value to the signed `off_t`. -/
def to_off_t (w : Nat) (n : Nat) : Int :=
  if n % 2 ^ w < 2 ^ (w - 1) then (n % 2 ^ w : Nat) else ((n % 2 ^ w : Nat) : Int) - 2 ^ w

/-- The function `vfs_io_ops_seek` (lines 80-152) on `size_t` and `off_t` of `w`
bits. `fs_seek` is `file_get_ops(file)->seek`, the seek routine of the
filesystem, if it has one. The result is the returned position and the file. -/
def vfs_io_ops_seek (w : Nat)
    (fs_seek : Option (file_t → Int → io_seek_whence_t → Int × file_t))
    (file : file_t) (offset : Int) (whence : io_seek_whence_t) : Run (Int × file_t) :=
  match fs_seek with
  | some seek => Run.ret (seek file offset whence)
  | none =>
    if file.offset_lock then Run.spin
    else
      match whence with
      | io_seek_whence_t.IO_SEEK_SET =>
        if offset < 0 then Run.ret (0, file)
        else
          let ret : Int := if to_size_t w offset > file.size then to_off_t w file.size else offset
          Run.ret (ret, { file with offset := to_size_t w ret })
      | io_seek_whence_t.IO_SEEK_CURRENT =>
        let ret : Int :=
          if offset < 0 then
            if file.offset < to_size_t w (-offset) then 0
            else to_off_t w (file.offset + to_size_t w offset)
          else
            if (file.offset + to_size_t w offset) % 2 ^ w > file.size then to_off_t w file.size
            else to_off_t w (file.offset + to_size_t w offset)
        Run.ret (ret, { file with offset := to_size_t w ret })
      | io_seek_whence_t.IO_SEEK_END =>
        let ret : Int :=
          if offset < 0 then
            if file.size < to_size_t w (-offset) then 0
            else to_off_t w (file.size + to_size_t w offset)
          else 0
        Run.ret (ret, { file with offset := to_size_t w ret })
      | io_seek_whence_t.IO_SEEK_DATA => Run.ret (0, file)
      | io_seek_whence_t.IO_SEEK_HOLE => Run.ret (0, file)

/-- The position `x` clamped to `[0, size]`. -/
def clamp_to_size (size : Nat) (x : Int) : Int := max 0 (min x size)

/-! ## The kernel command line (`kernel/cmdline.c`)

A command line is the list of the characters in front of its terminating NUL;
the cursor `cmdline` is the rest of the list, `*cmdline` its first character,
NUL at the end of the list. -/

/-- A parameter of an argument: a boolean or a string. -/
inductive cmdline_param_t where
  | boolean (val : Bool)
  | string (val : List Char)
  deriving DecidableEq

/-- An argument: its name and its parameters. -/
structure cmdline_arg_t where
  arg_name : List Char
  params : List cmdline_param_t
  deriving DecidableEq

/-- The loop of lines 27-28: the characters up to the first `' '` or `'='`, and
the rest. -/
def scan_arg_name : List Char → List Char × List Char
  | [] => ([], [])
  | c :: rest =>
    if c = ' ' ∨ c = '=' then ([], c :: rest)
    else ((scan_arg_name rest).1.cons c, (scan_arg_name rest).2)

/-- The loop of lines 57-58: the characters up to the first `' '` or `','`, and
the rest. -/
def scan_param_string : List Char → List Char × List Char
  | [] => ([], [])
  | c :: rest =>
    if c = ' ' ∨ c = ',' then ([], c :: rest)
    else ((scan_param_string rest).1.cons c, (scan_param_string rest).2)

/-- Lines 41-62: one parameter read at the cursor, and the cursor behind it.
`strncmp(cmdline, "true", 4) == 0` holds when the first four characters are
`true`, whatever follows. -/
def read_param (s : List Char) : cmdline_param_t × List Char :=
  if s.take 4 = ['t', 'r', 'u', 'e'] then (cmdline_param_t.boolean true, s.drop 4)
  else if s.take 5 = ['f', 'a', 'l', 's', 'e'] then (cmdline_param_t.boolean false, s.drop 5)
  else (cmdline_param_t.string (scan_param_string s).1, (scan_param_string s).2)

/-- The parameter loop (lines 36-76). The first argument bounds the number of
passes; `none` means that the bound was reached. The result is the parameters
read and the cursor behind them. -/
def parse_params : Nat → List Char → List cmdline_param_t →
    Option (Run (List cmdline_param_t × List Char))
  | 0, _, _ => none
  | fuel + 1, s, acc =>
    match s with
    | [] => some (Run.ret (acc, []))
    | c :: _ =>
      if c = ' ' then some (Run.ret (acc, s))
      else
        let r := read_param s
        match r.2 with
        | [] => some (Run.ret (acc ++ [r.1], []))
        | d :: rest =>
          if ¬ (d = ' ' ∨ d = ',') then some Run.assert_fail
          else
            let s2 := if d = ',' then rest else d :: rest
            match s2 with
            | [] => some (Run.ret (acc ++ [r.1], []))
            | e :: rest2 =>
              if e = ' ' then some (Run.ret (acc ++ [r.1], rest2))
              else parse_params fuel (e :: rest2) (acc ++ [r.1])

/-- The argument loop (lines 18-77), with the same bound on the passes. -/
def parse_args : Nat → List Char → List cmdline_arg_t → Option (Run (List cmdline_arg_t))
  | 0, _, _ => none
  | fuel + 1, s, acc =>
    match s with
    | [] => some (Run.ret acc)
    | _ :: _ =>
      let n := scan_arg_name s
      match n.2 with
      | [] => some (Run.ret (acc ++ [⟨n.1, []⟩]))
      | d :: rest =>
        if d ≠ '=' then parse_args fuel rest (acc ++ [⟨n.1, []⟩])
        else
          match parse_params (rest.length + 1) rest [] with
          | none => none
          | some Run.assert_fail => some Run.assert_fail
          | some Run.spin => some Run.spin
          | some (Run.ret (ps, s2)) => parse_args fuel s2 (acc ++ [⟨n.1, ps⟩])

/-- The function `mos_cmdline_parse` (lines 13-80): the arguments in the order
of the command line, or the failed assertion of line 64. Every pass of either
loop moves the cursor forward, so the bounds `length + 1` are never reached. -/
def mos_cmdline_parse (cmdline : List Char) : Option (Run (List cmdline_arg_t)) :=
  parse_args (cmdline.length + 1) cmdline []

/-- The position that `IO_SEEK_CURRENT` aims at, as the code bounds it: below
by 0 for a negative offset, above by the size otherwise. -/
def seek_current_target (file : file_t) (offset : Int) : Int :=
  if offset < 0 then max 0 (file.offset + offset) else min (file.offset + offset) file.size

/-! ## Predicates of the specification -/

/-- The range `[a, a + n_pages * MOS_PAGE_SIZE)` and the region `m` overlap,
both taken as ranges of natural numbers (no reduction to the word width). -/
abbrev range_overlaps (pf : Platform) (a n_pages : Nat) (m : vmap_t) : Prop :=
  m.vaddr < a + n_pages * pf.MOS_PAGE_SIZE ∧ a < m.true_end pf

/-- The range `[a, a + n_pages * MOS_PAGE_SIZE)` lies fully inside the region `m`. -/
abbrev range_inside (pf : Platform) (a n_pages : Nat) (m : vmap_t) : Prop :=
  m.vaddr ≤ a ∧ a + n_pages * pf.MOS_PAGE_SIZE ≤ m.true_end pf

/-- Two regions overlap. -/
abbrev vmap_overlap (pf : Platform) (m1 m2 : vmap_t) : Prop :=
  m1.vaddr < m2.true_end pf ∧ m2.vaddr < m1.true_end pf

/-- The region list is in ascending address order. -/
abbrev sorted_by_vaddr (l : List vmap_t) : Prop :=
  l.Pairwise (fun m1 m2 => m1.vaddr ≤ m2.vaddr)

/-- No two regions of the list overlap. -/
abbrev non_overlapping (pf : Platform) (l : List vmap_t) : Prop :=
  l.Pairwise (fun m1 m2 => ¬ vmap_overlap pf m1 m2)

/-- No address computed by a search for `n_pages` pages from `hint` wraps
around: the request end and, for every region, its end and the end of a request
placed right behind it are below `2 ^ ptr_bits`. -/
abbrev no_wrap (pf : Platform) (l : List vmap_t) (n_pages hint : Nat) : Prop :=
  hint + n_pages * pf.MOS_PAGE_SIZE < 2 ^ pf.ptr_bits ∧
  ∀ m ∈ l, m.true_end pf + n_pages * pf.MOS_PAGE_SIZE < 2 ^ pf.ptr_bits

/-- The virtual page `p` is one of the `n_pages` pages of the range that
starts at `vaddr`. -/
abbrev in_range_pages (pf : Platform) (vaddr n_pages p : Nat) : Prop :=
  ∃ k, k < n_pages ∧ pf.vpn (vaddr + k * pf.MOS_PAGE_SIZE) = p

/-- The page `p` is a page of some region of the address space. -/
abbrev covered_by_region (pf : Platform) (ctx : mm_context_t) (p : Nat) : Prop :=
  ∃ r ∈ ctx.mmaps, in_range_pages pf r.vaddr r.npages p

/-- Coverage invariant of §3: every page with a leaf entry is a page of some
region of the address space. -/
abbrev coverage (pf : Platform) (ctx : mm_context_t) : Prop :=
  ∀ p, ctx.pgd p ≠ none → covered_by_region pf ctx p

/-- The pages an operation writes at a caller-given address are pages of
regions the address space already has (no condition for the operations that
bring their own region). -/
def op_target_covered (pf : Platform) (ctx : mm_context_t) : mm_op → Prop
  | mm_op.map_pages vaddr _ npages _ =>
    ∀ p, in_range_pages pf vaddr npages p → covered_by_region pf ctx p
  | mm_op.replace_page vaddr _ _ => covered_by_region pf ctx (pf.vpn vaddr)
  | _ => True

/-- An empty page table. -/
def pgd_empty : pgd_t := fun _ => none

/-- The address space of the scenario in §8: one region `[0x1000, 0x5000)` of
four pages; the lock is held. -/
def ctx_one_region : mm_context_t := ⟨true, [⟨0x1000, 4, 3⟩], pgd_empty⟩

/-- An address space whose single region reaches the top of the 32-bit address
space: `[0xBFFFF000, 2^32)`; the lock is held. -/
def ctx_top_region : mm_context_t := ⟨true, [⟨0xBFFFF000, 0x40001, 3⟩], pgd_empty⟩

/-- The scenario address space after two pages were placed behind its region. -/
def ctx_one_region_grown : mm_context_t :=
  ⟨true, [⟨0x1000, 4, 3⟩, ⟨0x5000, 2, 0⟩], pgd_empty⟩

/-- The address space with the region `[0xBFFFF000, 2^32)`, its lock free. -/
def ctx_top_region_free : mm_context_t := ⟨false, [⟨0xBFFFF000, 0x40001, 3⟩], pgd_empty⟩

/-- The scenario address space with its lock free. -/
def ctx_one_region_free : mm_context_t := ⟨false, [⟨0x1000, 4, 3⟩], pgd_empty⟩

/-- An address space with the one-page region `[0x2000, 0x3000)` whose page is
mapped to frame 5 with flags 3; the lock is held. -/
def ctx_page_mapped : mm_context_t :=
  ⟨true, [⟨0x2000, 1, 3⟩], pgd_set pgd_empty 2 (some ⟨5, 3⟩)⟩

/-- Frame state in which frame 5 has two references and no other frame any. -/
def pmm_frame5_twice : pmm_t := ⟨fun f => if f = 5 then 2 else 0⟩

/-- A frame allocator that always hands out the frames from number 16 on. -/
def fa_from_16 : frame_allocator := ⟨fun pmm _ => some (16, pmm), fun pmm _ _ => pmm⟩

/-- A source address space for cloning: the one-page region `[0xBFFFF000,
0xC0000000)` mapped to frame 5; the lock is free. -/
def ctx_clone_source : mm_context_t :=
  ⟨false, [⟨0xBFFFF000, 1, 3⟩], pgd_set pgd_empty 0xBFFFF (some ⟨5, 3⟩)⟩

/-- A destination address space whose region `[0xBFFFE000, 0xC0000000)` covers
the region of `ctx_clone_source`; the lock is free. -/
def ctx_clone_busy : mm_context_t := ⟨false, [⟨0xBFFFE000, 2, 3⟩], pgd_empty⟩

/-- A frame allocator that has no frames left. -/
def fa_exhausted : frame_allocator := ⟨fun _ _ => none, fun pmm _ _ => pmm⟩

/-- The address space of `ctx_page_mapped` with its lock free: the one-page
region `[0x2000, 0x3000)` mapped writable (flags 3) to frame 5. -/
def ctx_page_mapped_free : mm_context_t :=
  ⟨false, [⟨0x2000, 1, 3⟩], pgd_set pgd_empty 2 (some ⟨5, 3⟩)⟩

/-- An empty address space: no region, no leaf entry, the lock free. -/
def ctx_empty : mm_context_t := ⟨false, [], pgd_empty⟩

/-- Frame state in which frame 5 has one reference and no other frame any. -/
def pmm_frame5_once : pmm_t := ⟨fun f => if f = 5 then 1 else 0⟩

/-- The address space that results from mapping one page at `0x2000` (frame 5),
allocating two pages (frames 16 and 17, placed at `0x3000`) and unmapping the
page at `0x2000` again. -/
def ctx_after_three_ops : mm_context_t :=
  ⟨false, [⟨0x2000, 1, 3⟩, ⟨0x3000, 2, 3⟩],
    pgd_set (pgd_set (pgd_set (pgd_set pgd_empty 2 (some ⟨5, 3⟩)) 3 (some ⟨16, 3⟩)) 4
      (some ⟨17, 3⟩)) 2 none⟩

/-- Two regions that do not overlap, listed in descending address order:
`[0x5000, 0x6000)` before `[0x1000, 0x5000)`; the lock is held. -/
def ctx_unsorted : mm_context_t := ⟨true, [⟨0x5000, 1, 3⟩, ⟨0x1000, 4, 3⟩], pgd_empty⟩

/-- The regions of `ctx_unsorted` in ascending address order; the lock is held. -/
def ctx_sorted : mm_context_t := ⟨true, [⟨0x1000, 4, 3⟩, ⟨0x5000, 1, 3⟩], pgd_empty⟩

/-- One region of zero pages at `0x2000`; the lock is held. -/
def ctx_empty_region : mm_context_t := ⟨true, [⟨0x2000, 0, 3⟩], pgd_empty⟩

/-- A fresh `io_t` as `io_init` leaves it: no reference, open, with a close
routine, nothing called yet. -/
def io_fresh : io_t := ⟨0, false, true, 0, 0⟩

/-- An open `io_t` holding one reference. -/
def io_one_ref : io_t := ⟨1, false, true, 0, 0⟩

/-- A file of 100 bytes at position 40, its offset lock free. -/
def file_sample : file_t := ⟨40, 100, false⟩

/-- An address space without regions; the lock is held. -/
def ctx_no_region : mm_context_t := ⟨true, [], pgd_empty⟩

/-! ## Theorems -/

/-! ### Word arithmetic -/

theorem wrap_le (pf : Platform) (x : Nat) : pf.wrap x ≤ x := Nat.mod_le _ _

theorem wrap_eq_of_lt (pf : Platform) {x : Nat} (h : x < 2 ^ pf.ptr_bits) : pf.wrap x = x :=
  Nat.mod_eq_of_lt h

theorem vmap_end_le (pf : Platform) (m : vmap_t) : vmap_end pf m ≤ m.true_end pf :=
  Nat.mod_le _ _

theorem vmap_end_eq_of_lt (pf : Platform) {m : vmap_t} (h : m.true_end pf < 2 ^ pf.ptr_bits) :
    vmap_end pf m = m.true_end pf :=
  Nat.mod_eq_of_lt h

/-! ### Region handles -/

theorem vmap_at_insert (v : vmap_t) (l : List vmap_t) :
    vmap_at (vmap_insert v l) (vmap_insert_pos v.vaddr l) = v := by
  induction l with
  | nil => rfl
  | cons m rest ih =>
    by_cases h : v.vaddr < m.vaddr
    · simp [vmap_insert, vmap_insert_pos, h, vmap_at]
    · simpa [vmap_insert, vmap_insert_pos, h, vmap_at] using ih

theorem mem_vmap_insert (v x : vmap_t) (l : List vmap_t) :
    x ∈ vmap_insert v l ↔ x = v ∨ x ∈ l := by
  induction l with
  | nil => simp [vmap_insert]
  | cons m rest ih =>
    by_cases h : v.vaddr < m.vaddr
    · simp [vmap_insert, h]
    · simp only [vmap_insert, h, if_false, List.mem_cons, ih]
      tauto

/-! ### Overlap of ranges -/

/-- For a request of at least one page and a region of at least one page, the
overlap test says that the two ranges share an address. -/
theorem range_overlaps_iff_common_address (pf : Platform) (a n_pages : Nat) (m : vmap_t)
    (hn : 1 ≤ n_pages) (hm : 1 ≤ m.npages) :
    range_overlaps pf a n_pages m ↔
      ∃ x, a ≤ x ∧ x < a + n_pages * pf.MOS_PAGE_SIZE ∧ m.vaddr ≤ x ∧ x < m.true_end pf := by
  have hP := pf.page_size_pos
  have h1 : 0 < n_pages * pf.MOS_PAGE_SIZE := Nat.mul_pos hn hP
  have h2 : 0 < m.npages * pf.MOS_PAGE_SIZE := Nat.mul_pos hm hP
  have h3 : m.true_end pf = m.vaddr + m.npages * pf.MOS_PAGE_SIZE := rfl
  constructor
  · rintro ⟨hlt1, hlt2⟩
    refine ⟨max a m.vaddr, le_max_left _ _, ?_, le_max_right _ _, ?_⟩
    · rcases max_cases a m.vaddr with ⟨h, -⟩ | ⟨h, -⟩ <;> omega
    · rcases max_cases a m.vaddr with ⟨h, -⟩ | ⟨h, -⟩ <;> omega
  · rintro ⟨x, hx1, hx2, hx3, hx4⟩
    exact ⟨by omega, by omega⟩

/-! ### The exact search -/

theorem exact_scan_eq_false_iff (pf : Platform) (base_vaddr end_vaddr : Nat) (l : List vmap_t) :
    free_vaddr_exact_scan pf base_vaddr end_vaddr l = false ↔
      ∃ m ∈ l, m.vaddr < end_vaddr ∧ vmap_end pf m > base_vaddr := by
  induction l with
  | nil => simp [free_vaddr_exact_scan]
  | cons m rest ih =>
    by_cases h : m.vaddr < end_vaddr ∧ vmap_end pf m > base_vaddr
    · simp only [free_vaddr_exact_scan, h, and_self, if_true, true_iff]
      exact ⟨m, List.mem_cons_self _ _, h⟩
    · simp only [free_vaddr_exact_scan, h, if_false, ih, List.mem_cons]
      constructor
      · rintro ⟨x, hx, hx2⟩
        exact ⟨x, Or.inr hx, hx2⟩
      · rintro ⟨x, hx | hx, hx2⟩
        · subst hx
          exact absurd hx2 h
        · exact ⟨x, hx, hx2⟩

theorem exact_scan_eq_true_iff (pf : Platform) (base_vaddr end_vaddr : Nat) (l : List vmap_t) :
    free_vaddr_exact_scan pf base_vaddr end_vaddr l = true ↔
      ∀ m ∈ l, ¬ (m.vaddr < end_vaddr ∧ vmap_end pf m > base_vaddr) := by
  rw [← Bool.not_eq_false, exact_scan_eq_false_iff]
  push_neg
  rfl

/-- A range inside a region whose end does not wrap makes the exact scan fail. -/
theorem exact_scan_inside (pf : Platform) (base_vaddr n_pages : Nat) (l : List vmap_t)
    (hn : 1 ≤ n_pages) (m : vmap_t) (hm : m ∈ l) (hend : m.true_end pf < 2 ^ pf.ptr_bits)
    (hin : range_inside pf base_vaddr n_pages m) :
    free_vaddr_exact_scan pf base_vaddr
      (pf.wrap (base_vaddr + n_pages * pf.MOS_PAGE_SIZE)) l = false := by
  rw [exact_scan_eq_false_iff]
  have hP := pf.page_size_pos
  have hpos : 0 < n_pages * pf.MOS_PAGE_SIZE := Nat.mul_pos hn hP
  obtain ⟨h1, h2⟩ := hin
  refine ⟨m, hm, ?_, ?_⟩
  · rw [wrap_eq_of_lt pf (lt_of_le_of_lt h2 hend)]
    omega
  · rw [vmap_end_eq_of_lt pf hend]
    omega

/-- A range that overlaps no region passes the exact scan, wrap or no wrap. -/
theorem exact_scan_disjoint (pf : Platform) (base_vaddr n_pages : Nat) (l : List vmap_t)
    (hdis : ∀ m ∈ l, ¬ range_overlaps pf base_vaddr n_pages m) :
    free_vaddr_exact_scan pf base_vaddr
      (pf.wrap (base_vaddr + n_pages * pf.MOS_PAGE_SIZE)) l = true := by
  rw [exact_scan_eq_true_iff]
  intro m hm hov
  have h1 := wrap_le pf (base_vaddr + n_pages * pf.MOS_PAGE_SIZE)
  have h2 := vmap_end_le pf m
  exact hdis m hm ⟨by omega, by omega⟩

theorem get_free_vaddr_exact_eq (pf : Platform) (mmctx : mm_context_t) (n_pages base_vaddr : Nat)
    (hlock : mmctx.mm_lock = true) (hbase : base_vaddr < pf.MOS_KERNEL_START_VADDR) :
    mm_get_free_vaddr_locked pf mmctx n_pages base_vaddr valloc_flags.VALLOC_EXACT =
      if free_vaddr_exact_scan pf base_vaddr
          (pf.wrap (base_vaddr + n_pages * pf.MOS_PAGE_SIZE)) mmctx.mmaps then
        Run.ret (some (vmap_create mmctx base_vaddr n_pages).1,
          (vmap_create mmctx base_vaddr n_pages).2)
      else Run.ret (none, mmctx) := by
  simp [mm_get_free_vaddr_locked, hlock, hbase]

/-! ### C1 -/

/-- C1, as the code has it: for every region list (in any order) and every
request of `n_pages >= 1` pages at `base_vaddr < MOS_KERNEL_START_VADDR`: if
the requested range lies fully inside an existing region whose end address does
not wrap around the word width, the `VALLOC_EXACT` scan finds the overlap and
`mm_get_free_vaddr_locked`, called with the lock held as it asserts, returns
`NULL` and leaves the address space as it was; if the range overlaps no region,
the scan passes and the call succeeds, and the created region has
`vaddr = base_vaddr` and `npages = n_pages`. -/
theorem exact_inside_fails_disjoint_succeeds (pf : Platform) (mmctx : mm_context_t)
    (n_pages base_vaddr : Nat) (hn : 1 ≤ n_pages)
    (hbase : base_vaddr < pf.MOS_KERNEL_START_VADDR) :
    ((∃ m ∈ mmctx.mmaps, m.true_end pf < 2 ^ pf.ptr_bits ∧
        range_inside pf base_vaddr n_pages m) →
      free_vaddr_exact_scan pf base_vaddr
        (pf.wrap (base_vaddr + n_pages * pf.MOS_PAGE_SIZE)) mmctx.mmaps = false ∧
      (mmctx.mm_lock = true →
        mm_get_free_vaddr_locked pf mmctx n_pages base_vaddr valloc_flags.VALLOC_EXACT =
          Run.ret (none, mmctx))) ∧
    ((∀ m ∈ mmctx.mmaps, ¬ range_overlaps pf base_vaddr n_pages m) →
      free_vaddr_exact_scan pf base_vaddr
        (pf.wrap (base_vaddr + n_pages * pf.MOS_PAGE_SIZE)) mmctx.mmaps = true ∧
      (mmctx.mm_lock = true →
        ∃ i ctx2, mm_get_free_vaddr_locked pf mmctx n_pages base_vaddr
            valloc_flags.VALLOC_EXACT = Run.ret (some i, ctx2) ∧
          vmap_at ctx2.mmaps i = ⟨base_vaddr, n_pages, 0⟩ ∧
          (vmap_at ctx2.mmaps i).vaddr = base_vaddr ∧
          (vmap_at ctx2.mmaps i).npages = n_pages)) := by
  constructor
  · rintro ⟨m, hm, hend, hin⟩
    have hscan := exact_scan_inside pf base_vaddr n_pages mmctx.mmaps hn m hm hend hin
    refine ⟨hscan, fun hlock => ?_⟩
    rw [get_free_vaddr_exact_eq pf mmctx n_pages base_vaddr hlock hbase, hscan]
    rfl
  · intro hdis
    have hscan := exact_scan_disjoint pf base_vaddr n_pages mmctx.mmaps hdis
    refine ⟨hscan, fun hlock => ?_⟩
    refine ⟨(vmap_create mmctx base_vaddr n_pages).1, (vmap_create mmctx base_vaddr n_pages).2,
      ?_, ?_⟩
    · rw [get_free_vaddr_exact_eq pf mmctx n_pages base_vaddr hlock hbase, hscan]
      rfl
    · have h := vmap_at_insert ⟨base_vaddr, n_pages, 0⟩ mmctx.mmaps
      simp only [vmap_create]
      rw [h]
      exact ⟨rfl, rfl, rfl⟩

/-- Witness of C1 on the one-region address space `[0x1000, 0x5000)`: a request
for one page at `0x2000` is refused, a request for two pages at `0x8000` is
granted at that address. -/
theorem exact_inside_fails_disjoint_succeeds_witness :
    mm_get_free_vaddr_locked x86_32 ctx_one_region 1 0x2000 valloc_flags.VALLOC_EXACT =
        Run.ret (none, ctx_one_region) ∧
    ∃ i ctx2, mm_get_free_vaddr_locked x86_32 ctx_one_region 2 0x8000
          valloc_flags.VALLOC_EXACT = Run.ret (some i, ctx2) ∧
        vmap_at ctx2.mmaps i = ⟨0x8000, 2, 0⟩ ∧
        (vmap_at ctx2.mmaps i).vaddr = 0x8000 ∧
        (vmap_at ctx2.mmaps i).npages = 2 :=
  ⟨((exact_inside_fails_disjoint_succeeds x86_32 ctx_one_region 1 0x2000 (by decide)
      (by decide)).1 ⟨⟨0x1000, 4, 3⟩, by decide, by decide, by decide⟩).2 rfl,
   ((exact_inside_fails_disjoint_succeeds x86_32 ctx_one_region 2 0x8000 (by decide)
      (by decide)).2 (by decide)).2 rfl⟩

/-- C1 fails as stated: on the 32-bit layout the region `[0xBFFFF000, 2^32)` of
`0x40001` pages reaches the top of the address space, so its end address wraps
to `0`. The one-page request at `0xBFFFF000 < MOS_KERNEL_START_VADDR` lies fully
inside that region, yet the exact search does not see an overlap
(`this_end_vaddr > base_vaddr` is `0 > 0xBFFFF000`) and creates a second region
at `0xBFFFF000`. -/
theorem exact_inside_top_region_succeeds :
    (∃ m ∈ ctx_top_region.mmaps, 1 ≤ m.npages ∧ range_inside x86_32 0xBFFFF000 1 m) ∧
    0xBFFFF000 < x86_32.MOS_KERNEL_START_VADDR ∧
    mm_get_free_vaddr_locked x86_32 ctx_top_region 1 0xBFFFF000 valloc_flags.VALLOC_EXACT =
      Run.ret (some 1,
        ⟨true, [⟨0xBFFFF000, 0x40001, 3⟩, ⟨0xBFFFF000, 1, 0⟩], pgd_empty⟩) :=
  ⟨⟨⟨0xBFFFF000, 0x40001, 3⟩, by decide, by decide, by decide⟩, by decide, rfl⟩

/-! ### The default (first-fit) search -/

/-- One step of the default scan when no computed address wraps. -/
theorem default_scan_cons_of_no_wrap (pf : Platform) (n_pages retry_addr : Nat) (m : vmap_t)
    (rest : List vmap_t)
    (hr : retry_addr + n_pages * pf.MOS_PAGE_SIZE < 2 ^ pf.ptr_bits)
    (hm : m.true_end pf + n_pages * pf.MOS_PAGE_SIZE < 2 ^ pf.ptr_bits) :
    free_vaddr_default_scan pf n_pages retry_addr (m :: rest) =
      if retry_addr + n_pages * pf.MOS_PAGE_SIZE > pf.MOS_KERNEL_START_VADDR then none
      else if m.vaddr < retry_addr + n_pages * pf.MOS_PAGE_SIZE ∧ m.true_end pf > retry_addr then
        (if m.true_end pf + n_pages * pf.MOS_PAGE_SIZE ≤ m.vaddr then some (m.true_end pf)
         else free_vaddr_default_scan pf n_pages (m.true_end pf) rest)
      else
        (if retry_addr + n_pages * pf.MOS_PAGE_SIZE ≤ m.vaddr then some retry_addr
         else free_vaddr_default_scan pf n_pages retry_addr rest) := by
  have h1 : pf.wrap (retry_addr + n_pages * pf.MOS_PAGE_SIZE) =
      retry_addr + n_pages * pf.MOS_PAGE_SIZE := wrap_eq_of_lt pf hr
  have h2 : vmap_end pf m = m.true_end pf :=
    vmap_end_eq_of_lt pf (lt_of_le_of_lt (Nat.le_add_right _ _) hm)
  have h3 : pf.wrap (m.true_end pf + n_pages * pf.MOS_PAGE_SIZE) =
      m.true_end pf + n_pages * pf.MOS_PAGE_SIZE := wrap_eq_of_lt pf hm
  simp only [free_vaddr_default_scan, h1, h2]
  by_cases hk : retry_addr + n_pages * pf.MOS_PAGE_SIZE > pf.MOS_KERNEL_START_VADDR
  · simp [hk]
  · by_cases hov : m.vaddr < retry_addr + n_pages * pf.MOS_PAGE_SIZE ∧ m.true_end pf > retry_addr
    · simp only [hk, hov, and_self, if_true, if_false, h3]
    · simp only [hk, hov, if_false, h1]

/-- What a successful default scan returns when no address wraps: an address
not below `retry_addr`, ending at or below the kernel start, free of every
region still to be scanned (for a list in address order), and the lowest such. -/
theorem default_scan_some (pf : Platform) (n_pages : Nat) :
    ∀ (l : List vmap_t) (retry_addr a : Nat),
      retry_addr + n_pages * pf.MOS_PAGE_SIZE < 2 ^ pf.ptr_bits →
      (∀ m ∈ l, m.true_end pf + n_pages * pf.MOS_PAGE_SIZE < 2 ^ pf.ptr_bits) →
      free_vaddr_default_scan pf n_pages retry_addr l = some a →
      retry_addr ≤ a ∧ a + n_pages * pf.MOS_PAGE_SIZE ≤ pf.MOS_KERNEL_START_VADDR ∧
      (sorted_by_vaddr l → ∀ m ∈ l, ¬ range_overlaps pf a n_pages m) ∧
      (∀ b, retry_addr ≤ b → b < a → ∃ m ∈ l, range_overlaps pf b n_pages m) := by
  intro l
  induction l with
  | nil =>
    intro retry_addr a hr _ h
    rw [free_vaddr_default_scan, wrap_eq_of_lt pf hr] at h
    split at h
    · rename_i hk
      cases h
      exact ⟨le_refl _, hk, fun _ m hm => absurd hm (List.not_mem_nil m),
        fun b h1 h2 => absurd h2 (not_lt.mpr h1)⟩
    · cases h
  | cons m rest ih =>
    intro retry_addr a hr hl h
    have hm := hl m (List.mem_cons_self _ _)
    have hrest : ∀ x ∈ rest, x.true_end pf + n_pages * pf.MOS_PAGE_SIZE < 2 ^ pf.ptr_bits :=
      fun x hx => hl x (List.mem_cons_of_mem _ hx)
    rw [default_scan_cons_of_no_wrap pf n_pages retry_addr m rest hr hm] at h
    split at h
    · cases h
    · rename_i hk
      split at h
      · rename_i hov
        split at h
        · rename_i hgap
          cases h
          refine ⟨by omega, by omega, ?_, ?_⟩
          · intro hs x hx
            rcases List.mem_cons.mp hx with rfl | hx
            · intro hc
              have := hc.1
              omega
            · have := List.rel_of_pairwise_cons hs hx
              intro hc
              have := hc.1
              omega
          · intro b hb1 hb2
            exact ⟨m, List.mem_cons_self _ _, by omega, hb2⟩
        · obtain ⟨h1, h2, h3, h4⟩ := ih (m.true_end pf) a hm hrest h
          refine ⟨by omega, h2, ?_, ?_⟩
          · intro hs x hx
            rcases List.mem_cons.mp hx with rfl | hx
            · intro hc
              have := hc.2
              omega
            · exact h3 (List.Pairwise.of_cons hs) x hx
          · intro b hb1 hb2
            by_cases hb : m.true_end pf ≤ b
            · obtain ⟨x, hx, hx2⟩ := h4 b hb hb2
              exact ⟨x, List.mem_cons_of_mem _ hx, hx2⟩
            · exact ⟨m, List.mem_cons_self _ _, by omega, by omega⟩
      · rename_i hov
        split at h
        · rename_i hgap
          cases h
          refine ⟨le_refl _, by omega, ?_, ?_⟩
          · intro hs x hx
            rcases List.mem_cons.mp hx with rfl | hx
            · intro hc
              have := hc.1
              omega
            · have := List.rel_of_pairwise_cons hs hx
              intro hc
              have := hc.1
              omega
          · intro b hb1 hb2
            omega
        · rename_i hgap
          obtain ⟨h1, h2, h3, h4⟩ := ih retry_addr a hr hrest h
          refine ⟨h1, h2, ?_, ?_⟩
          · intro hs x hx
            rcases List.mem_cons.mp hx with rfl | hx
            · intro hc
              have := hc.2
              omega
            · exact h3 (List.Pairwise.of_cons hs) x hx
          · intro b hb1 hb2
            obtain ⟨x, hx, hx2⟩ := h4 b hb1 hb2
            exact ⟨x, List.mem_cons_of_mem _ hx, hx2⟩

/-- A default scan that fails leaves no admissible address: every candidate at
or above `retry_addr` that ends at or below the kernel start overlaps a region. -/
theorem default_scan_none (pf : Platform) (n_pages : Nat) :
    ∀ (l : List vmap_t) (retry_addr : Nat),
      retry_addr + n_pages * pf.MOS_PAGE_SIZE < 2 ^ pf.ptr_bits →
      (∀ m ∈ l, m.true_end pf + n_pages * pf.MOS_PAGE_SIZE < 2 ^ pf.ptr_bits) →
      free_vaddr_default_scan pf n_pages retry_addr l = none →
      ∀ b, retry_addr ≤ b → b + n_pages * pf.MOS_PAGE_SIZE ≤ pf.MOS_KERNEL_START_VADDR →
        ∃ m ∈ l, range_overlaps pf b n_pages m := by
  intro l
  induction l with
  | nil =>
    intro retry_addr hr _ h b hb hbk
    rw [free_vaddr_default_scan, wrap_eq_of_lt pf hr] at h
    split at h
    · cases h
    · omega
  | cons m rest ih =>
    intro retry_addr hr hl h b hb hbk
    have hm := hl m (List.mem_cons_self _ _)
    have hrest : ∀ x ∈ rest, x.true_end pf + n_pages * pf.MOS_PAGE_SIZE < 2 ^ pf.ptr_bits :=
      fun x hx => hl x (List.mem_cons_of_mem _ hx)
    rw [default_scan_cons_of_no_wrap pf n_pages retry_addr m rest hr hm] at h
    split at h
    · omega
    · split at h
      · rename_i hov
        split at h
        · cases h
        · by_cases hb2 : m.true_end pf ≤ b
          · obtain ⟨x, hx, hx2⟩ := ih (m.true_end pf) hm hrest h b hb2 hbk
            exact ⟨x, List.mem_cons_of_mem _ hx, hx2⟩
          · exact ⟨m, List.mem_cons_self _ _, by omega, by omega⟩
      · split at h
        · cases h
        · obtain ⟨x, hx, hx2⟩ := ih retry_addr hr hrest h b hb hbk
          exact ⟨x, List.mem_cons_of_mem _ hx, hx2⟩

/-- The kernel-boundary test as the code evaluates it holds for the address of
every successful default scan, for every region list. -/
theorem default_scan_wrapped_end_le (pf : Platform) (n_pages : Nat) :
    ∀ (l : List vmap_t) (retry_addr a : Nat),
      free_vaddr_default_scan pf n_pages retry_addr l = some a →
      pf.wrap (a + n_pages * pf.MOS_PAGE_SIZE) ≤ pf.MOS_KERNEL_START_VADDR := by
  intro l
  induction l with
  | nil =>
    intro retry_addr a h
    rw [free_vaddr_default_scan] at h
    split at h
    · rename_i hk
      cases h
      exact hk
    · cases h
  | cons m rest ih =>
    intro retry_addr a h
    rw [free_vaddr_default_scan] at h
    split at h
    · cases h
    · rename_i hk
      by_cases hov : m.vaddr < pf.wrap (retry_addr + n_pages * pf.MOS_PAGE_SIZE) ∧
          vmap_end pf m > retry_addr
      · simp only [hov, and_self, if_true] at h
        split at h
        · rename_i hgap
          cases h
          omega
        · exact ih _ a h
      · simp only [hov, if_false] at h
        split at h
        · cases h
          omega
        · exact ih _ a h

/-- A successful default-mode call: the scan found an address and
`vmap_create` entered the region there. -/
theorem get_free_vaddr_default_some (pf : Platform) (mmctx ctx2 : mm_context_t)
    (n_pages hint i : Nat)
    (h : mm_get_free_vaddr_locked pf mmctx n_pages hint valloc_flags.VALLOC_DEFAULT =
      Run.ret (some i, ctx2)) :
    ∃ a, free_vaddr_default_scan pf n_pages hint mmctx.mmaps = some a ∧
      vmap_at ctx2.mmaps i = ⟨a, n_pages, 0⟩ ∧
      ctx2.mmaps = vmap_insert ⟨a, n_pages, 0⟩ mmctx.mmaps ∧
      mmctx.mm_lock = true ∧ hint < pf.MOS_KERNEL_START_VADDR := by
  unfold mm_get_free_vaddr_locked at h
  split at h
  · cases h
  · rename_i hlock
    split at h
    · cases h
    · rename_i hk
      simp only at h
      cases hscan : free_vaddr_default_scan pf n_pages hint mmctx.mmaps with
      | none =>
        rw [hscan] at h
        simp at h
      | some a =>
        rw [hscan] at h
        simp only [Run.ret.injEq, Prod.mk.injEq, Option.some.injEq] at h
        obtain ⟨h1, h2⟩ := h
        subst h1 h2
        refine ⟨a, rfl, ?_, rfl, by simpa using hlock, by simpa using hk⟩
        exact vmap_at_insert ⟨a, n_pages, 0⟩ mmctx.mmaps

theorem get_free_vaddr_default_eq (pf : Platform) (mmctx : mm_context_t) (n_pages hint : Nat)
    (hlock : mmctx.mm_lock = true) (hbase : hint < pf.MOS_KERNEL_START_VADDR) :
    mm_get_free_vaddr_locked pf mmctx n_pages hint valloc_flags.VALLOC_DEFAULT =
      match free_vaddr_default_scan pf n_pages hint mmctx.mmaps with
      | some a => Run.ret (some (vmap_create mmctx a n_pages).1, (vmap_create mmctx a n_pages).2)
      | none => Run.ret (none, mmctx) := by
  simp [mm_get_free_vaddr_locked, hlock, hbase]

/-- The lowest free address and its properties, for a successful default-mode
call on a list in address order without wrap-around. -/
theorem get_free_vaddr_default_lowest (pf : Platform) (mmctx ctx2 : mm_context_t)
    (n_pages hint i : Nat) (hsorted : sorted_by_vaddr mmctx.mmaps)
    (hnw : no_wrap pf mmctx.mmaps n_pages hint)
    (h : mm_get_free_vaddr_locked pf mmctx n_pages hint valloc_flags.VALLOC_DEFAULT =
      Run.ret (some i, ctx2)) :
    free_vaddr_default_scan pf n_pages hint mmctx.mmaps = some (vmap_at ctx2.mmaps i).vaddr ∧
    (vmap_at ctx2.mmaps i).npages = n_pages ∧
    hint ≤ (vmap_at ctx2.mmaps i).vaddr ∧
    (vmap_at ctx2.mmaps i).vaddr + n_pages * pf.MOS_PAGE_SIZE ≤ pf.MOS_KERNEL_START_VADDR ∧
    (∀ m ∈ mmctx.mmaps, ¬ range_overlaps pf (vmap_at ctx2.mmaps i).vaddr n_pages m) ∧
    (∀ b, hint ≤ b → (∀ m ∈ mmctx.mmaps, ¬ range_overlaps pf b n_pages m) →
      (vmap_at ctx2.mmaps i).vaddr ≤ b) := by
  obtain ⟨a, hscan, hat, -, -, -⟩ := get_free_vaddr_default_some pf mmctx ctx2 n_pages hint i h
  obtain ⟨h1, h2, h3, h4⟩ := default_scan_some pf n_pages mmctx.mmaps hint a hnw.1 hnw.2 hscan
  rw [hat]
  refine ⟨hscan, rfl, h1, h2, h3 hsorted, ?_⟩
  intro b hb hfree
  by_contra hlt
  obtain ⟨m, hm, hov⟩ := h4 b hb (not_le.mp hlt)
  exact hfree m hm hov

/-! ### C2 -/

/-- C2: for every region list sorted by ascending address and pairwise
non-overlapping, every `n_pages >= 1` and hint, without address wrap-around, a
successful `VALLOC_DEFAULT` call of `mm_get_free_vaddr_locked` creates its
region at the smallest address `a >= hint` such that
`[a, a + n_pages * MOS_PAGE_SIZE)` overlaps no region of the list; and a second
call on the same region list, hint and `n_pages` (whatever the rest of the
address space) returns the same address. -/
theorem default_search_lowest_deterministic (pf : Platform) (mmctx ctx2 : mm_context_t)
    (n_pages hint i : Nat) (hsorted : sorted_by_vaddr mmctx.mmaps)
    (_hdisj : non_overlapping pf mmctx.mmaps) (_hn : 1 ≤ n_pages)
    (hnw : no_wrap pf mmctx.mmaps n_pages hint)
    (h : mm_get_free_vaddr_locked pf mmctx n_pages hint valloc_flags.VALLOC_DEFAULT =
      Run.ret (some i, ctx2)) :
    hint ≤ (vmap_at ctx2.mmaps i).vaddr ∧
    (∀ m ∈ mmctx.mmaps, ¬ range_overlaps pf (vmap_at ctx2.mmaps i).vaddr n_pages m) ∧
    (∀ b, hint ≤ b → (∀ m ∈ mmctx.mmaps, ¬ range_overlaps pf b n_pages m) →
      (vmap_at ctx2.mmaps i).vaddr ≤ b) ∧
    (∀ (ctx3 ctx4 : mm_context_t) (j : Nat), ctx3.mmaps = mmctx.mmaps →
      mm_get_free_vaddr_locked pf ctx3 n_pages hint valloc_flags.VALLOC_DEFAULT =
        Run.ret (some j, ctx4) →
      (vmap_at ctx4.mmaps j).vaddr = (vmap_at ctx2.mmaps i).vaddr) := by
  obtain ⟨h0, -, h1, -, h2, h3⟩ :=
    get_free_vaddr_default_lowest pf mmctx ctx2 n_pages hint i hsorted hnw h
  refine ⟨h1, h2, h3, ?_⟩
  intro ctx3 ctx4 j hsame h5
  obtain ⟨a, hscan, hat, -, -, -⟩ := get_free_vaddr_default_some pf ctx3 ctx4 n_pages hint j h5
  rw [hsame, h0] at hscan
  rw [hat]
  exact (Option.some.inj hscan).symm

/-- Witness of C2: two pages from hint `0x1000` in the address space with the
region `[0x1000, 0x5000)` are placed at `0x5000`. -/
theorem default_search_lowest_deterministic_witness :
    sorted_by_vaddr ctx_one_region.mmaps ∧ non_overlapping x86_32 ctx_one_region.mmaps ∧
    no_wrap x86_32 ctx_one_region.mmaps 2 0x1000 ∧
    (0x1000 ≤ (vmap_at ctx_one_region_grown.mmaps 1).vaddr ∧
     (∀ m ∈ ctx_one_region.mmaps,
        ¬ range_overlaps x86_32 (vmap_at ctx_one_region_grown.mmaps 1).vaddr 2 m) ∧
     (∀ b, 0x1000 ≤ b → (∀ m ∈ ctx_one_region.mmaps, ¬ range_overlaps x86_32 b 2 m) →
        (vmap_at ctx_one_region_grown.mmaps 1).vaddr ≤ b) ∧
     (∀ (ctx3 ctx4 : mm_context_t) (j : Nat), ctx3.mmaps = ctx_one_region.mmaps →
        mm_get_free_vaddr_locked x86_32 ctx3 2 0x1000 valloc_flags.VALLOC_DEFAULT =
          Run.ret (some j, ctx4) →
        (vmap_at ctx4.mmaps j).vaddr = (vmap_at ctx_one_region_grown.mmaps 1).vaddr)) :=
  ⟨by decide, by decide, by decide,
   default_search_lowest_deterministic x86_32 ctx_one_region ctx_one_region_grown 2 0x1000 1
     (by decide) (by decide) (by decide) (by decide) rfl⟩

/-! ### C3 -/

/-- C3: for every region list sorted by ascending address and pairwise
non-overlapping, every `hint < MOS_KERNEL_START_VADDR` and every
`n_pages >= 1`, without address wrap-around: when the `VALLOC_DEFAULT` search of
`mm_get_free_vaddr_locked` succeeds with address `a`, then `a >= hint` and no
region of the list overlaps `[a, a + n_pages * MOS_PAGE_SIZE)`. -/
theorem default_search_result_free (pf : Platform) (mmctx ctx2 : mm_context_t)
    (n_pages hint i : Nat) (hsorted : sorted_by_vaddr mmctx.mmaps)
    (_hdisj : non_overlapping pf mmctx.mmaps)
    (_hhint : hint < pf.MOS_KERNEL_START_VADDR) (_hn : 1 ≤ n_pages)
    (hnw : no_wrap pf mmctx.mmaps n_pages hint)
    (h : mm_get_free_vaddr_locked pf mmctx n_pages hint valloc_flags.VALLOC_DEFAULT =
      Run.ret (some i, ctx2)) :
    hint ≤ (vmap_at ctx2.mmaps i).vaddr ∧
    ∀ m ∈ mmctx.mmaps, ¬ range_overlaps pf (vmap_at ctx2.mmaps i).vaddr n_pages m := by
  obtain ⟨-, -, h1, -, h2, -⟩ :=
    get_free_vaddr_default_lowest pf mmctx ctx2 n_pages hint i hsorted hnw h
  exact ⟨h1, h2⟩

/-- Witness of C3 on the scenario address space: the two pages placed at
`0x5000` lie at or above the hint `0x1000` and meet no region. -/
theorem default_search_result_free_witness :
    sorted_by_vaddr ctx_one_region.mmaps ∧ non_overlapping x86_32 ctx_one_region.mmaps ∧
    0x1000 < x86_32.MOS_KERNEL_START_VADDR ∧ no_wrap x86_32 ctx_one_region.mmaps 2 0x1000 ∧
    (0x1000 ≤ (vmap_at ctx_one_region_grown.mmaps 1).vaddr ∧
     ∀ m ∈ ctx_one_region.mmaps,
       ¬ range_overlaps x86_32 (vmap_at ctx_one_region_grown.mmaps 1).vaddr 2 m) :=
  ⟨by decide, by decide, by decide, by decide,
   default_search_result_free x86_32 ctx_one_region ctx_one_region_grown 2 0x1000 1
     (by decide) (by decide) (by decide) (by decide) (by decide) rfl⟩

/-! ### C4 -/

/-- The default scan fails exactly when no admissible address exists. -/
theorem default_scan_none_iff (pf : Platform) (l : List vmap_t) (n_pages hint : Nat)
    (hsorted : sorted_by_vaddr l) (hnw : no_wrap pf l n_pages hint) :
    free_vaddr_default_scan pf n_pages hint l = none ↔
      ¬ ∃ a, hint ≤ a ∧ a + n_pages * pf.MOS_PAGE_SIZE ≤ pf.MOS_KERNEL_START_VADDR ∧
        ∀ m ∈ l, ¬ range_overlaps pf a n_pages m := by
  constructor
  · rintro h ⟨a, ha1, ha2, ha3⟩
    obtain ⟨m, hm, hov⟩ := default_scan_none pf n_pages l hint hnw.1 hnw.2 h a ha1 ha2
    exact ha3 m hm hov
  · intro hno
    cases hscan : free_vaddr_default_scan pf n_pages hint l with
    | none => rfl
    | some a =>
      obtain ⟨h1, h2, h3, -⟩ := default_scan_some pf n_pages l hint a hnw.1 hnw.2 hscan
      exact absurd ⟨a, h1, h2, h3 hsorted⟩ hno

/-- C4: for every sorted, non-overlapping region list, hint and `n_pages >= 1`,
without address wrap-around, the `VALLOC_DEFAULT` search (lines 49-79) fails
exactly when no address `a >= hint` exists with
`a + n_pages * MOS_PAGE_SIZE <= MOS_KERNEL_START_VADDR` and
`[a, a + n_pages * MOS_PAGE_SIZE)` free of every region. Through
`mm_get_free_vaddr_locked`, entered with the lock held and
`hint < MOS_KERNEL_START_VADDR` as its assertions demand: the call returns
`NULL`, leaving the address space as it was, exactly in that case, and it
returns a region whenever such an address exists. -/
theorem default_search_fails_iff_exhausted (pf : Platform) (mmctx : mm_context_t)
    (n_pages hint : Nat) (hsorted : sorted_by_vaddr mmctx.mmaps)
    (_hdisj : non_overlapping pf mmctx.mmaps) (_hn : 1 ≤ n_pages)
    (hnw : no_wrap pf mmctx.mmaps n_pages hint) :
    (free_vaddr_default_scan pf n_pages hint mmctx.mmaps = none ↔
      ¬ ∃ a, hint ≤ a ∧ a + n_pages * pf.MOS_PAGE_SIZE ≤ pf.MOS_KERNEL_START_VADDR ∧
        ∀ m ∈ mmctx.mmaps, ¬ range_overlaps pf a n_pages m) ∧
    (mmctx.mm_lock = true → hint < pf.MOS_KERNEL_START_VADDR →
      (mm_get_free_vaddr_locked pf mmctx n_pages hint valloc_flags.VALLOC_DEFAULT =
          Run.ret (none, mmctx) ↔
        ¬ ∃ a, hint ≤ a ∧ a + n_pages * pf.MOS_PAGE_SIZE ≤ pf.MOS_KERNEL_START_VADDR ∧
          ∀ m ∈ mmctx.mmaps, ¬ range_overlaps pf a n_pages m) ∧
      ((∃ a, hint ≤ a ∧ a + n_pages * pf.MOS_PAGE_SIZE ≤ pf.MOS_KERNEL_START_VADDR ∧
          ∀ m ∈ mmctx.mmaps, ¬ range_overlaps pf a n_pages m) →
        ∃ i ctx2, mm_get_free_vaddr_locked pf mmctx n_pages hint
          valloc_flags.VALLOC_DEFAULT = Run.ret (some i, ctx2))) := by
  have hiff := default_scan_none_iff pf mmctx.mmaps n_pages hint hsorted hnw
  refine ⟨hiff, ?_⟩
  intro hlock hhint
  rw [get_free_vaddr_default_eq pf mmctx n_pages hint hlock hhint]
  cases hscan : free_vaddr_default_scan pf n_pages hint mmctx.mmaps with
  | none =>
    refine ⟨⟨fun _ => hiff.mp hscan, fun _ => rfl⟩, ?_⟩
    intro hex
    exact absurd hex (hiff.mp hscan)
  | some a =>
    have hne : ¬ ¬ ∃ a, hint ≤ a ∧
        a + n_pages * pf.MOS_PAGE_SIZE ≤ pf.MOS_KERNEL_START_VADDR ∧
        ∀ m ∈ mmctx.mmaps, ¬ range_overlaps pf a n_pages m := by
      intro hno
      have := hiff.mpr hno
      rw [hscan] at this
      cases this
    refine ⟨⟨fun h => ?_, fun h => absurd h hne⟩, fun _ => ⟨_, _, rfl⟩⟩
    simp only [Run.ret.injEq, Prod.mk.injEq] at h
    exact absurd h.1 (by simp)

/-- Witness of C4 on the scenario address space: a request of two pages from
hint `0x1000` has the admissible address `0x5000`, so the search does not fail;
a request of two pages from hint `0xBFFFF000` has no admissible address below
the kernel start `0xC0000000`, and the call returns `NULL`. -/
theorem default_search_fails_iff_exhausted_witness :
    sorted_by_vaddr ctx_one_region.mmaps ∧ non_overlapping x86_32 ctx_one_region.mmaps ∧
    no_wrap x86_32 ctx_one_region.mmaps 2 0x1000 ∧
    no_wrap x86_32 ctx_one_region.mmaps 2 0xBFFFF000 ∧
    free_vaddr_default_scan x86_32 2 0x1000 ctx_one_region.mmaps ≠ none ∧
    (∃ i ctx2, mm_get_free_vaddr_locked x86_32 ctx_one_region 2 0x1000
      valloc_flags.VALLOC_DEFAULT = Run.ret (some i, ctx2)) ∧
    mm_get_free_vaddr_locked x86_32 ctx_one_region 2 0xBFFFF000
      valloc_flags.VALLOC_DEFAULT = Run.ret (none, ctx_one_region) := by
  have key1 := default_search_fails_iff_exhausted x86_32 ctx_one_region 2 0x1000
    (by decide) (by decide) (by decide) (by decide)
  have key2 := default_search_fails_iff_exhausted x86_32 ctx_one_region 2 0xBFFFF000
    (by decide) (by decide) (by decide) (by decide)
  refine ⟨by decide, by decide, by decide, by decide, ?_, ?_, ?_⟩
  · intro h
    exact key1.1.mp h ⟨0x5000, by decide, by decide, by decide⟩
  · exact (key1.2 rfl (by decide)).2 ⟨0x5000, by decide, by decide, by decide⟩
  · refine (key2.2 rfl (by decide)).1.mpr ?_
    rintro ⟨a, h1, h2, -⟩
    change a + 2 * 4096 ≤ 0xC0000000 at h2
    omega

/-! ### C5 -/

/-- C5, as the code has it: every successful `VALLOC_DEFAULT` search of
`mm_get_free_vaddr_locked`, for every region list, hint and `n_pages`, creates a
region of `n_pages` pages at an address `a` whose end, as the code computes it,
is at most `MOS_KERNEL_START_VADDR`; and when `a + n_pages * MOS_PAGE_SIZE` does
not wrap around the word width, the range does not cross into kernel space:
`a + n_pages * MOS_PAGE_SIZE <= MOS_KERNEL_START_VADDR`. This covers the in-loop
return and the end-of-list return. -/
theorem default_search_below_kernel (pf : Platform) (mmctx ctx2 : mm_context_t)
    (n_pages hint i : Nat)
    (h : mm_get_free_vaddr_locked pf mmctx n_pages hint valloc_flags.VALLOC_DEFAULT =
      Run.ret (some i, ctx2))
    (hend : (vmap_at ctx2.mmaps i).vaddr + n_pages * pf.MOS_PAGE_SIZE < 2 ^ pf.ptr_bits) :
    (vmap_at ctx2.mmaps i).npages = n_pages ∧
    pf.wrap ((vmap_at ctx2.mmaps i).vaddr + n_pages * pf.MOS_PAGE_SIZE) ≤
      pf.MOS_KERNEL_START_VADDR ∧
    (vmap_at ctx2.mmaps i).vaddr + n_pages * pf.MOS_PAGE_SIZE ≤ pf.MOS_KERNEL_START_VADDR := by
  obtain ⟨a, hscan, hat, -, -, -⟩ := get_free_vaddr_default_some pf mmctx ctx2 n_pages hint i h
  have hw := default_scan_wrapped_end_le pf n_pages mmctx.mmaps hint a hscan
  rw [hat] at hend ⊢
  refine ⟨rfl, hw, ?_⟩
  rw [wrap_eq_of_lt pf hend] at hw
  exact hw

/-- Witness of C5 on the scenario address space: the two pages placed at
`0x5000` end at `0x7000`, below the kernel start. -/
theorem default_search_below_kernel_witness :
    (vmap_at ctx_one_region_grown.mmaps 1).vaddr + 2 * x86_32.MOS_PAGE_SIZE
      < 2 ^ x86_32.ptr_bits ∧
    ((vmap_at ctx_one_region_grown.mmaps 1).npages = 2 ∧
     x86_32.wrap ((vmap_at ctx_one_region_grown.mmaps 1).vaddr + 2 * x86_32.MOS_PAGE_SIZE) ≤
       x86_32.MOS_KERNEL_START_VADDR ∧
     (vmap_at ctx_one_region_grown.mmaps 1).vaddr + 2 * x86_32.MOS_PAGE_SIZE ≤
       x86_32.MOS_KERNEL_START_VADDR) :=
  ⟨by decide,
   default_search_below_kernel x86_32 ctx_one_region ctx_one_region_grown 2 0x1000 1 rfl
     (by decide)⟩

/-- C5 fails as stated: on the 32-bit layout a request of `0xFFFFF` pages from
hint `0x1000` in an empty address space has `n_pages * MOS_PAGE_SIZE =
0xFFFFF000`, which does not overflow, but `hint + n_pages * MOS_PAGE_SIZE =
2^32` wraps to `0`. The end-of-list test `0 <= MOS_KERNEL_START_VADDR` passes
and the region `[0x1000, 2^32)` is created, which covers the whole kernel
space. -/
theorem default_search_crosses_kernel_on_wrap :
    1 ≤ 0xFFFFF ∧ 0xFFFFF * x86_32.MOS_PAGE_SIZE < 2 ^ x86_32.ptr_bits ∧
    mm_get_free_vaddr_locked x86_32 ctx_no_region 0xFFFFF 0x1000 valloc_flags.VALLOC_DEFAULT =
      Run.ret (some 0, ⟨true, [⟨0x1000, 0xFFFFF, 0⟩], pgd_empty⟩) ∧
    ¬ (0x1000 + 0xFFFFF * x86_32.MOS_PAGE_SIZE ≤ x86_32.MOS_KERNEL_START_VADDR) :=
  ⟨by decide, by decide, rfl, by decide⟩

/-! ### C7 -/

/-- C7: in an address space holding exactly one region `R`, a `VALLOC_DEFAULT`
request whose candidate range `[hint, hint + n_pages * MOS_PAGE_SIZE)` overlaps
`R` is placed at the end address of `R`, `R.vaddr + R.npages * MOS_PAGE_SIZE`,
whenever that end plus the requested size stays at or below
`MOS_KERNEL_START_VADDR`: the search of lines 49-79 yields that address, and
`mm_get_free_vaddr_locked`, called with the lock held as it asserts, returns
the region created there. -/
theorem default_search_single_region (pf : Platform) (mmctx : mm_context_t) (R : vmap_t)
    (n_pages hint : Nat) (hone : mmctx.mmaps = [R])
    (hov : range_overlaps pf hint n_pages R)
    (hfit : R.true_end pf + n_pages * pf.MOS_PAGE_SIZE ≤ pf.MOS_KERNEL_START_VADDR) :
    free_vaddr_default_scan pf n_pages hint mmctx.mmaps =
      some (R.vaddr + R.npages * pf.MOS_PAGE_SIZE) ∧
    (mmctx.mm_lock = true →
      mm_get_free_vaddr_locked pf mmctx n_pages hint valloc_flags.VALLOC_DEFAULT =
        Run.ret (some 1, { mmctx with mmaps := [R, ⟨R.true_end pf, n_pages, 0⟩] }) ∧
      vmap_at [R, ⟨R.true_end pf, n_pages, 0⟩] 1 = ⟨R.vaddr + R.npages * pf.MOS_PAGE_SIZE,
        n_pages, 0⟩) := by
  have hK := pf.kernel_start_lt
  obtain ⟨h1, h2⟩ := hov
  have hte : R.true_end pf = R.vaddr + R.npages * pf.MOS_PAGE_SIZE := rfl
  have hhint : hint < pf.MOS_KERNEL_START_VADDR := by omega
  have hr : hint + n_pages * pf.MOS_PAGE_SIZE < 2 ^ pf.ptr_bits := by omega
  have hm : R.true_end pf + n_pages * pf.MOS_PAGE_SIZE < 2 ^ pf.ptr_bits := by omega
  have hscan : free_vaddr_default_scan pf n_pages hint [R] = some (R.true_end pf) := by
    rw [default_scan_cons_of_no_wrap pf n_pages hint R [] hr hm]
    have c1 : ¬ hint + n_pages * pf.MOS_PAGE_SIZE > pf.MOS_KERNEL_START_VADDR := by omega
    have c2 : R.vaddr < hint + n_pages * pf.MOS_PAGE_SIZE ∧ R.true_end pf > hint := ⟨h1, h2⟩
    have c3 : ¬ R.true_end pf + n_pages * pf.MOS_PAGE_SIZE ≤ R.vaddr := by omega
    simp only [c1, c2, c3, and_self, if_true, if_false]
    simp only [free_vaddr_default_scan, wrap_eq_of_lt pf hm, hfit, if_true]
  have hpos : ¬ R.true_end pf < R.vaddr := by omega
  refine ⟨by rw [hone, hscan, hte], fun hlock => ⟨?_, rfl⟩⟩
  rw [get_free_vaddr_default_eq pf mmctx n_pages hint hlock hhint, hone, hscan]
  simp only [vmap_create, hone, vmap_insert_pos, vmap_insert, hpos, if_false]

/-- Witness of C7, the scenario of §8: `R = [0x1000, 0x5000)`, two pages, hint
`0x1000`, page size 4096: the search yields `0x5000` and the region is created
there. -/
theorem default_search_single_region_witness :
    range_overlaps x86_32 0x1000 2 ⟨0x1000, 4, 3⟩ ∧
    free_vaddr_default_scan x86_32 2 0x1000 ctx_one_region.mmaps = some 0x5000 ∧
    mm_get_free_vaddr_locked x86_32 ctx_one_region 2 0x1000 valloc_flags.VALLOC_DEFAULT =
      Run.ret (some 1, ctx_one_region_grown) ∧
    vmap_at ctx_one_region_grown.mmaps 1 = ⟨0x5000, 2, 0⟩ :=
  ⟨by decide,
   (default_search_single_region x86_32 ctx_one_region ⟨0x1000, 4, 3⟩ 2 0x1000 rfl
      (by decide) (by decide)).1,
   (default_search_single_region x86_32 ctx_one_region ⟨0x1000, 4, 3⟩ 2 0x1000 rfl
      (by decide) (by decide)).2 rfl⟩

/-! ### Sequencing -/

theorem Run.bind_eq_ret {α β : Type} (x : Run α) (f : α → Run β) (b : β) :
    x.bind f = Run.ret b ↔ ∃ a, x = Run.ret a ∧ f a = Run.ret b := by
  cases x with
  | ret a => simp [Run.bind]
  | assert_fail => simp [Run.bind]
  | spin => simp [Run.bind]

theorem spinlock_acquire_eq_ret (mmctx c1 : mm_context_t) :
    spinlock_acquire mmctx = Run.ret c1 ↔
      mmctx.mm_lock = false ∧ c1 = { mmctx with mm_lock := true } := by
  unfold spinlock_acquire
  cases h : mmctx.mm_lock with
  | true => simp
  | false =>
    simp only [Bool.false_eq_true, if_false, Run.ret.injEq, true_and]
    exact eq_comm

/-! ### The region-list invariant -/

theorem sorted_vmap_insert (v : vmap_t) (l : List vmap_t) (h : sorted_by_vaddr l) :
    sorted_by_vaddr (vmap_insert v l) := by
  induction l with
  | nil => simp [vmap_insert, sorted_by_vaddr]
  | cons m rest ih =>
    by_cases hlt : v.vaddr < m.vaddr
    · simp only [vmap_insert, hlt, if_true]
      refine List.Pairwise.cons ?_ h
      intro x hx
      rcases List.mem_cons.mp hx with rfl | hx
      · exact le_of_lt hlt
      · exact le_trans (le_of_lt hlt) (List.rel_of_pairwise_cons h hx)
    · simp only [vmap_insert, hlt, if_false]
      refine List.Pairwise.cons ?_ (ih (List.Pairwise.of_cons h))
      intro x hx
      rcases (mem_vmap_insert v x rest).mp hx with rfl | hx
      · exact not_lt.mp hlt
      · exact List.rel_of_pairwise_cons h hx

theorem non_overlapping_vmap_insert (pf : Platform) (v : vmap_t) (l : List vmap_t)
    (h : non_overlapping pf l) (hv : ∀ m ∈ l, ¬ vmap_overlap pf v m) :
    non_overlapping pf (vmap_insert v l) := by
  induction l with
  | nil => simp [vmap_insert, non_overlapping]
  | cons m rest ih =>
    by_cases hlt : v.vaddr < m.vaddr
    · simp only [vmap_insert, hlt, if_true]
      exact List.Pairwise.cons hv h
    · simp only [vmap_insert, hlt, if_false]
      refine List.Pairwise.cons ?_
        (ih (List.Pairwise.of_cons h) (fun x hx => hv x (List.mem_cons_of_mem _ hx)))
      intro x hx
      rcases (mem_vmap_insert v x rest).mp hx with rfl | hx
      · intro hc
        exact hv m (List.mem_cons_self _ _) ⟨hc.2, hc.1⟩
      · exact List.rel_of_pairwise_cons h hx

theorem mem_vmap_set_vmflags (flags : Nat) :
    ∀ (l : List vmap_t) (i : Nat) (x : vmap_t), x ∈ vmap_set_vmflags flags i l →
      ∃ y ∈ l, x.vaddr = y.vaddr ∧ x.npages = y.npages := by
  intro l
  induction l with
  | nil =>
    intro i x hx
    simp [vmap_set_vmflags] at hx
  | cons m rest ih =>
    intro i x hx
    cases i with
    | zero =>
      simp only [vmap_set_vmflags, List.mem_cons] at hx
      rcases hx with rfl | hx
      · exact ⟨m, List.mem_cons_self _ _, rfl, rfl⟩
      · exact ⟨x, List.mem_cons_of_mem _ hx, rfl, rfl⟩
    | succ k =>
      simp only [vmap_set_vmflags, List.mem_cons] at hx
      rcases hx with rfl | hx
      · exact ⟨x, List.mem_cons_self _ _, rfl, rfl⟩
      · obtain ⟨y, hy, hy2⟩ := ih k x hx
        exact ⟨y, List.mem_cons_of_mem _ hy, hy2⟩

/-- Setting the flags of a region keeps every pairwise relation that looks only
at start addresses and page counts. -/
theorem pairwise_vmap_set_vmflags (R : vmap_t → vmap_t → Prop)
    (hR : ∀ a b c d : vmap_t, c.vaddr = a.vaddr → c.npages = a.npages → d.vaddr = b.vaddr →
      d.npages = b.npages → R a b → R c d) (flags : Nat) :
    ∀ (l : List vmap_t) (i : Nat), l.Pairwise R → (vmap_set_vmflags flags i l).Pairwise R := by
  intro l
  induction l with
  | nil =>
    intro i _
    simp [vmap_set_vmflags]
  | cons m rest ih =>
    intro i h
    cases i with
    | zero =>
      simp only [vmap_set_vmflags]
      refine List.Pairwise.cons ?_ (List.Pairwise.of_cons h)
      intro x hx
      exact hR m x _ x rfl rfl rfl rfl (List.rel_of_pairwise_cons h hx)
    | succ k =>
      simp only [vmap_set_vmflags]
      refine List.Pairwise.cons ?_ (ih k (List.Pairwise.of_cons h))
      intro x hx
      obtain ⟨y, hy, hy1, hy2⟩ := mem_vmap_set_vmflags flags rest k x hx
      exact hR m y m x rfl rfl hy1 hy2 (List.rel_of_pairwise_cons h hy)

theorem sorted_vmap_set_vmflags (flags i : Nat) (l : List vmap_t) (h : sorted_by_vaddr l) :
    sorted_by_vaddr (vmap_set_vmflags flags i l) := by
  refine pairwise_vmap_set_vmflags _ ?_ flags l i h
  intro a b c d h1 _ h3 _ hab
  rw [h1, h3]
  exact hab

theorem non_overlapping_vmap_set_vmflags (pf : Platform) (flags i : Nat) (l : List vmap_t)
    (h : non_overlapping pf l) : non_overlapping pf (vmap_set_vmflags flags i l) := by
  refine pairwise_vmap_set_vmflags _ ?_ flags l i h
  intro a b c d h1 h2 h3 h4 hab
  simp only [vmap_overlap, vmap_t.true_end] at hab ⊢
  rw [h1, h2, h3, h4]
  exact hab

/-- A successful call of `mm_get_free_vaddr_locked`, in either mode, keeps a
region list sorted and free of overlaps when no address wraps around. -/
theorem get_free_vaddr_keeps_regions (pf : Platform) (mmctx ctx2 : mm_context_t)
    (n_pages base_vaddr : Nat) (vflags : valloc_flags) (r : Option Nat)
    (hs : sorted_by_vaddr mmctx.mmaps) (hd : non_overlapping pf mmctx.mmaps)
    (hnw : no_wrap pf mmctx.mmaps n_pages base_vaddr)
    (h : mm_get_free_vaddr_locked pf mmctx n_pages base_vaddr vflags = Run.ret (r, ctx2)) :
    sorted_by_vaddr ctx2.mmaps ∧ non_overlapping pf ctx2.mmaps := by
  unfold mm_get_free_vaddr_locked at h
  split at h
  · cases h
  · split at h
    · cases h
    · cases vflags with
      | VALLOC_EXACT =>
        simp only at h
        split at h
        · rename_i hscan
          simp only [Run.ret.injEq, Prod.mk.injEq] at h
          obtain ⟨-, rfl⟩ := h
          rw [exact_scan_eq_true_iff] at hscan
          refine ⟨sorted_vmap_insert _ _ hs, non_overlapping_vmap_insert pf _ _ hd ?_⟩
          intro m hm hov
          apply hscan m hm
          have hm2 := hnw.2 m hm
          rw [wrap_eq_of_lt pf hnw.1,
            vmap_end_eq_of_lt pf (lt_of_le_of_lt (Nat.le_add_right _ _) hm2)]
          simp only [vmap_overlap, vmap_t.true_end] at hov
          simp only [vmap_t.true_end]
          omega
        · simp only [Run.ret.injEq, Prod.mk.injEq] at h
          obtain ⟨-, rfl⟩ := h
          exact ⟨hs, hd⟩
      | VALLOC_DEFAULT =>
        simp only at h
        cases hscan : free_vaddr_default_scan pf n_pages base_vaddr mmctx.mmaps with
        | none =>
          rw [hscan] at h
          simp only [Run.ret.injEq, Prod.mk.injEq] at h
          obtain ⟨-, rfl⟩ := h
          exact ⟨hs, hd⟩
        | some a =>
          rw [hscan] at h
          simp only [Run.ret.injEq, Prod.mk.injEq] at h
          obtain ⟨-, rfl⟩ := h
          obtain ⟨-, -, h3, -⟩ :=
            default_scan_some pf n_pages mmctx.mmaps base_vaddr a hnw.1 hnw.2 hscan
          refine ⟨sorted_vmap_insert _ _ hs, non_overlapping_vmap_insert pf _ _ hd ?_⟩
          intro m hm hov
          apply h3 hs m hm
          simp only [vmap_overlap, vmap_t.true_end] at hov
          simp only [range_overlaps, vmap_t.true_end]
          omega

theorem mm_alloc_pages_keeps_regions (pf : Platform) (fa : frame_allocator) (pmm pmm2 : pmm_t)
    (mmctx ctx2 : mm_context_t) (n_pages hint_vaddr : Nat) (vflags : valloc_flags)
    (flags : Nat) (r : Option Nat)
    (hs : sorted_by_vaddr mmctx.mmaps) (hd : non_overlapping pf mmctx.mmaps)
    (hnw : no_wrap pf mmctx.mmaps n_pages hint_vaddr)
    (h : mm_alloc_pages pf fa pmm mmctx n_pages hint_vaddr vflags flags =
      Run.ret (r, ctx2, pmm2)) :
    sorted_by_vaddr ctx2.mmaps ∧ non_overlapping pf ctx2.mmaps := by
  unfold mm_alloc_pages at h
  split at h
  · cases h
  · split at h
    · simp only [Run.ret.injEq, Prod.mk.injEq] at h
      obtain ⟨-, rfl, -⟩ := h
      exact ⟨hs, hd⟩
    · rw [Run.bind_eq_ret] at h
      obtain ⟨c1, hc1, h⟩ := h
      rw [spinlock_acquire_eq_ret] at hc1
      obtain ⟨-, rfl⟩ := hc1
      rw [Run.bind_eq_ret] at h
      obtain ⟨⟨r2, c2⟩, hg, h⟩ := h
      obtain ⟨hs2, hd2⟩ := get_free_vaddr_keeps_regions pf
        { mmctx with mm_lock := true } c2 n_pages hint_vaddr vflags r2 hs hd hnw hg
      cases r2 with
      | none =>
        simp only [Run.ret.injEq, Prod.mk.injEq] at h
        obtain ⟨-, rfl, -⟩ := h
        exact ⟨hs2, hd2⟩
      | some v =>
        simp only [Run.ret.injEq, Prod.mk.injEq] at h
        obtain ⟨-, rfl, -⟩ := h
        exact ⟨sorted_vmap_set_vmflags flags v _ hs2,
          non_overlapping_vmap_set_vmflags pf flags v _ hd2⟩

theorem mm_map_pages_to_user_keeps_regions (pf : Platform) (mmctx ctx2 : mm_context_t)
    (vaddr pfn npages flags : Nat) (r : Option Nat)
    (hs : sorted_by_vaddr mmctx.mmaps) (hd : non_overlapping pf mmctx.mmaps)
    (hnw : no_wrap pf mmctx.mmaps npages vaddr)
    (h : mm_map_pages_to_user pf mmctx vaddr pfn npages flags = Run.ret (r, ctx2)) :
    sorted_by_vaddr ctx2.mmaps ∧ non_overlapping pf ctx2.mmaps := by
  unfold mm_map_pages_to_user at h
  rw [Run.bind_eq_ret] at h
  obtain ⟨c1, hc1, h⟩ := h
  rw [spinlock_acquire_eq_ret] at hc1
  obtain ⟨-, rfl⟩ := hc1
  rw [Run.bind_eq_ret] at h
  obtain ⟨⟨r2, c2⟩, hg, h⟩ := h
  obtain ⟨hs2, hd2⟩ := get_free_vaddr_keeps_regions pf
    { mmctx with mm_lock := true } c2 npages vaddr valloc_flags.VALLOC_EXACT r2 hs hd hnw hg
  cases r2 with
  | none =>
    simp only [Run.ret.injEq, Prod.mk.injEq] at h
    obtain ⟨-, rfl⟩ := h
    exact ⟨hs2, hd2⟩
  | some v =>
    simp only [Run.ret.injEq, Prod.mk.injEq] at h
    obtain ⟨-, rfl⟩ := h
    exact ⟨sorted_vmap_set_vmflags flags v _ hs2,
      non_overlapping_vmap_set_vmflags pf flags v _ hd2⟩

/-- What a returning `mm_clone_vmap` did: both locks were free, the exact search
ran on the destination, and on success the copy ran on its result. -/
theorem mm_clone_vmap_eq_ret (pf : Platform) (pmm pmm2 : pmm_t)
    (src_ctx dst_ctx src2 dst2 : mm_context_t) (src_vmap : vmap_t) (r : Option Nat)
    (h : mm_clone_vmap pf pmm src_ctx src_vmap dst_ctx = Run.ret (r, src2, dst2, pmm2)) :
    src_ctx.mm_lock = false ∧ dst_ctx.mm_lock = false ∧ src2 = src_ctx ∧
    ∃ c : mm_context_t,
      mm_get_free_vaddr_locked pf { dst_ctx with mm_lock := true } src_vmap.npages
        src_vmap.vaddr valloc_flags.VALLOC_EXACT = Run.ret (r, c) ∧
      ((r = none ∧ dst2 = { c with mm_lock := false } ∧ pmm2 = pmm) ∨
       (∃ i, r = some i ∧
          dst2 = ⟨false, c.mmaps,
            (mm_do_copy pf src_ctx.pgd c.pgd pmm src_vmap.vaddr src_vmap.npages).1⟩ ∧
          pmm2 = (mm_do_copy pf src_ctx.pgd c.pgd pmm src_vmap.vaddr src_vmap.npages).2)) := by
  unfold mm_clone_vmap mm_lock_ctx_pair at h
  rw [Run.bind_eq_ret] at h
  obtain ⟨⟨s1, d1⟩, hl, h⟩ := h
  rw [Run.bind_eq_ret] at hl
  obtain ⟨s1b, hs1, hl⟩ := hl
  rw [Run.bind_eq_ret] at hl
  obtain ⟨d1b, hd1, hl⟩ := hl
  rw [spinlock_acquire_eq_ret] at hs1 hd1
  obtain ⟨hsl, rfl⟩ := hs1
  obtain ⟨hdl, rfl⟩ := hd1
  simp only [Run.ret.injEq, Prod.mk.injEq] at hl
  obtain ⟨rfl, rfl⟩ := hl
  rw [Run.bind_eq_ret] at h
  obtain ⟨⟨r2, c2, p2⟩, hc, h⟩ := h
  unfold mm_clone_vmap_locked at hc
  rw [Run.bind_eq_ret] at hc
  obtain ⟨⟨r3, c3⟩, hg, hc⟩ := hc
  simp only [mm_unlock_ctx_pair, spinlock_release, Run.ret.injEq, Prod.mk.injEq] at h
  obtain ⟨rfl, rfl, rfl, rfl⟩ := h
  have hsrc : ({ mm_lock := false, mmaps := src_ctx.mmaps, pgd := src_ctx.pgd } : mm_context_t)
      = src_ctx := by
    cases src_ctx
    simp only at hsl
    subst hsl
    rfl
  refine ⟨hsl, hdl, hsrc, c3, ?_⟩
  cases r3 with
  | none =>
    simp only [Run.ret.injEq, Prod.mk.injEq] at hc
    obtain ⟨rfl, rfl, rfl⟩ := hc
    exact ⟨hg, Or.inl ⟨rfl, rfl, rfl⟩⟩
  | some i =>
    simp only [Run.ret.injEq, Prod.mk.injEq] at hc
    obtain ⟨rfl, rfl, rfl⟩ := hc
    exact ⟨hg, Or.inr ⟨i, rfl, rfl, rfl⟩⟩

theorem mm_clone_vmap_keeps_regions (pf : Platform) (pmm pmm2 : pmm_t)
    (src_ctx dst_ctx src2 dst2 : mm_context_t) (src_vmap : vmap_t) (r : Option Nat)
    (hs : sorted_by_vaddr dst_ctx.mmaps) (hd : non_overlapping pf dst_ctx.mmaps)
    (hnw : no_wrap pf dst_ctx.mmaps src_vmap.npages src_vmap.vaddr)
    (h : mm_clone_vmap pf pmm src_ctx src_vmap dst_ctx = Run.ret (r, src2, dst2, pmm2)) :
    (sorted_by_vaddr dst2.mmaps ∧ non_overlapping pf dst2.mmaps) ∧
    src2.mmaps = src_ctx.mmaps := by
  obtain ⟨-, -, rfl, c, hg, hcase⟩ := mm_clone_vmap_eq_ret pf pmm pmm2 src_ctx dst_ctx src2 dst2
    src_vmap r h
  have hk := get_free_vaddr_keeps_regions pf { dst_ctx with mm_lock := true } c
    src_vmap.npages src_vmap.vaddr valloc_flags.VALLOC_EXACT r hs hd hnw hg
  rcases hcase with ⟨-, rfl, -⟩ | ⟨i, -, rfl, -⟩
  · exact ⟨hk, rfl⟩
  · exact ⟨hk, rfl⟩

theorem mm_map_pages_eq_ret (pf : Platform) (mmctx ctx2 : mm_context_t)
    (vaddr pfn npages flags : Nat) :
    mm_map_pages pf mmctx vaddr pfn npages flags = Run.ret ctx2 ↔
      mmctx.mm_lock = false ∧ 0 < npages ∧
      ctx2 = ⟨false, mmctx.mmaps, mm_do_map pf mmctx.pgd vaddr pfn npages flags⟩ := by
  unfold mm_map_pages mm_map_pages_locked
  cases hl : mmctx.mm_lock with
  | true => simp [spinlock_acquire, hl, Run.bind]
  | false =>
    by_cases hn : 0 < npages
    · simp only [spinlock_acquire, hl, Run.bind, hn, spinlock_release]
      simp only [Bool.false_eq_true, if_false, Bool.true_eq_false, not_true_eq_false,
        Run.ret.injEq, true_and]
      exact eq_comm
    · simp [spinlock_acquire, hl, Run.bind, hn]

theorem mm_unmap_pages_regions (pf : Platform) (pmm pmm2 : pmm_t) (ctx ctx2 : mm_context_t)
    (vaddr npages : Nat)
    (h : mm_unmap_pages pf pmm ctx vaddr npages = Run.ret (ctx2, pmm2)) :
    ctx2.mmaps = ctx.mmaps := by
  unfold mm_unmap_pages at h
  split at h
  · cases h
  · rw [Run.bind_eq_ret] at h
    obtain ⟨c1, hc1, h⟩ := h
    rw [spinlock_acquire_eq_ret] at hc1
    obtain ⟨-, rfl⟩ := hc1
    rw [Run.bind_eq_ret] at h
    obtain ⟨r, -, h⟩ := h
    simp only [Run.ret.injEq, Prod.mk.injEq] at h
    obtain ⟨rfl, -⟩ := h
    rfl

/-! ### C6 -/

/-- C6, as the code has it: starting from a region list that is sorted ascending
and pairwise non-overlapping, and with no address wrap-around in the request
(the request end, every region end and every region end plus the request size
stay below `2 ^ ptr_bits`), the region list is again sorted and pairwise
non-overlapping after every returning `mm_alloc_pages`, `mm_map_pages_to_user`
and `mm_clone_vmap` (destination list; the source list is unchanged); and
`mm_map_pages` and `mm_unmap_pages` leave the region list as it is. -/
theorem region_list_stays_non_overlapping (pf : Platform) (fa : frame_allocator) (pmm : pmm_t)
    (mmctx : mm_context_t) (hs : sorted_by_vaddr mmctx.mmaps)
    (hd : non_overlapping pf mmctx.mmaps) :
    (∀ (n_pages hint : Nat) (vflags : valloc_flags) (flags : Nat) (r : Option Nat)
        (ctx2 : mm_context_t) (pmm2 : pmm_t), no_wrap pf mmctx.mmaps n_pages hint →
      mm_alloc_pages pf fa pmm mmctx n_pages hint vflags flags = Run.ret (r, ctx2, pmm2) →
      sorted_by_vaddr ctx2.mmaps ∧ non_overlapping pf ctx2.mmaps) ∧
    (∀ (vaddr pfn npages flags : Nat) (r : Option Nat) (ctx2 : mm_context_t),
      no_wrap pf mmctx.mmaps npages vaddr →
      mm_map_pages_to_user pf mmctx vaddr pfn npages flags = Run.ret (r, ctx2) →
      sorted_by_vaddr ctx2.mmaps ∧ non_overlapping pf ctx2.mmaps) ∧
    (∀ (src_ctx : mm_context_t) (src_vmap : vmap_t) (r : Option Nat)
        (src2 dst2 : mm_context_t) (pmm2 : pmm_t),
      no_wrap pf mmctx.mmaps src_vmap.npages src_vmap.vaddr →
      mm_clone_vmap pf pmm src_ctx src_vmap mmctx = Run.ret (r, src2, dst2, pmm2) →
      (sorted_by_vaddr dst2.mmaps ∧ non_overlapping pf dst2.mmaps) ∧
        src2.mmaps = src_ctx.mmaps) ∧
    (∀ (vaddr pfn npages flags : Nat) (ctx2 : mm_context_t),
      mm_map_pages pf mmctx vaddr pfn npages flags = Run.ret ctx2 →
      ctx2.mmaps = mmctx.mmaps ∧ sorted_by_vaddr ctx2.mmaps ∧ non_overlapping pf ctx2.mmaps) ∧
    (∀ (vaddr npages : Nat) (ctx2 : mm_context_t) (pmm2 : pmm_t),
      mm_unmap_pages pf pmm mmctx vaddr npages = Run.ret (ctx2, pmm2) →
      ctx2.mmaps = mmctx.mmaps ∧ sorted_by_vaddr ctx2.mmaps ∧
        non_overlapping pf ctx2.mmaps) := by
  refine ⟨?_, ?_, ?_, ?_, ?_⟩
  · intro n_pages hint vflags flags r ctx2 pmm2 hnw h
    exact mm_alloc_pages_keeps_regions pf fa pmm pmm2 mmctx ctx2 n_pages hint vflags flags r
      hs hd hnw h
  · intro vaddr pfn npages flags r ctx2 hnw h
    exact mm_map_pages_to_user_keeps_regions pf mmctx ctx2 vaddr pfn npages flags r hs hd hnw h
  · intro src_ctx src_vmap r src2 dst2 pmm2 hnw h
    exact mm_clone_vmap_keeps_regions pf pmm pmm2 src_ctx mmctx src2 dst2 src_vmap r hs hd hnw h
  · intro vaddr pfn npages flags ctx2 h
    obtain ⟨-, -, rfl⟩ := (mm_map_pages_eq_ret pf mmctx ctx2 vaddr pfn npages flags).mp h
    exact ⟨rfl, hs, hd⟩
  · intro vaddr npages ctx2 pmm2 h
    have he := mm_unmap_pages_regions pf pmm pmm2 mmctx ctx2 vaddr npages h
    rw [he]
    exact ⟨rfl, hs, hd⟩

/-- Witness of C6 on the scenario address space `[0x1000, 0x5000)`:
`mm_map_pages_to_user` of two pages at `0x8000`, `mm_alloc_pages` of two pages
from hint `0x1000`, and `mm_map_pages` of one page return, and the lists
`[0x1000, 0x5000), [0x8000, 0xA000)` and `[0x1000, 0x5000), [0x5000, 0x7000)`
are sorted and free of overlaps. -/
theorem region_list_stays_non_overlapping_witness :
    sorted_by_vaddr ctx_one_region_free.mmaps ∧
    non_overlapping x86_32 ctx_one_region_free.mmaps ∧
    (sorted_by_vaddr [⟨0x1000, 4, 3⟩, ⟨0x5000, 2, 1⟩] ∧
      non_overlapping x86_32 [⟨0x1000, 4, 3⟩, ⟨0x5000, 2, 1⟩]) ∧
    (sorted_by_vaddr [⟨0x1000, 4, 3⟩, ⟨0x8000, 2, 1⟩] ∧
      non_overlapping x86_32 [⟨0x1000, 4, 3⟩, ⟨0x8000, 2, 1⟩]) ∧
    (∃ ctx2, mm_map_pages x86_32 ctx_one_region_free 0x1000 7 1 3 = Run.ret ctx2 ∧
      ctx2.mmaps = ctx_one_region_free.mmaps) :=
  ⟨by decide, by decide,
   (region_list_stays_non_overlapping x86_32 fa_from_16 pmm_frame5_twice ctx_one_region_free
      (by decide) (by decide)).1 2 0x1000 valloc_flags.VALLOC_DEFAULT 1 (some 1)
      ⟨false, [⟨0x1000, 4, 3⟩, ⟨0x5000, 2, 1⟩], mm_do_map x86_32 pgd_empty 0x5000 16 2 1⟩
      pmm_frame5_twice (by decide) rfl,
   (region_list_stays_non_overlapping x86_32 fa_from_16 pmm_frame5_twice ctx_one_region_free
      (by decide) (by decide)).2.1 0x8000 7 2 1 (some 1)
      ⟨false, [⟨0x1000, 4, 3⟩, ⟨0x8000, 2, 1⟩], mm_do_map x86_32 pgd_empty 0x8000 7 2 1⟩
      (by decide) rfl,
   ⟨⟨false, [⟨0x1000, 4, 3⟩], mm_do_map x86_32 pgd_empty 0x1000 7 1 3⟩, rfl,
    ((region_list_stays_non_overlapping x86_32 fa_from_16 pmm_frame5_twice
      ctx_one_region_free (by decide) (by decide)).2.2.2.1 0x1000 7 1 3
      ⟨false, [⟨0x1000, 4, 3⟩], mm_do_map x86_32 pgd_empty 0x1000 7 1 3⟩ rfl).1⟩⟩

/-- C6 fails as stated: on the 32-bit layout the one-region list
`[0xBFFFF000, 2^32)` is sorted and free of overlaps. `mm_map_pages_to_user` of
one page at `0xBFFFF000` succeeds, because the end of the existing region wraps
to `0` in the exact search, and the region list then holds the overlapping
regions `[0xBFFFF000, 2^32)` and `[0xBFFFF000, 0xC0000000)`. -/
theorem map_to_user_overlaps_top_region :
    sorted_by_vaddr ctx_top_region_free.mmaps ∧
    non_overlapping x86_32 ctx_top_region_free.mmaps ∧
    mm_map_pages_to_user x86_32 ctx_top_region_free 0xBFFFF000 7 1 3 =
      Run.ret (some 1, ⟨false, [⟨0xBFFFF000, 0x40001, 3⟩, ⟨0xBFFFF000, 1, 3⟩],
        mm_do_map x86_32 pgd_empty 0xBFFFF000 7 1 3⟩) ∧
    ¬ non_overlapping x86_32 [⟨0xBFFFF000, 0x40001, 3⟩, ⟨0xBFFFF000, 1, 3⟩] :=
  ⟨by decide, by decide, rfl, by decide⟩

/-! ### Replacing the frame of a page -/

theorem mm_do_map_one (pf : Platform) (pgd : pgd_t) (vaddr pfn flags : Nat) :
    mm_do_map pf pgd vaddr pfn 1 flags = pgd_set pgd (pf.vpn vaddr) (some ⟨pfn, flags⟩) := by
  simp [mm_do_map]

theorem pmm_unref_one_eq_ret (pmm pmm1 : pmm_t) (pfn : Nat) :
    pmm_unref_one pmm pfn = Run.ret pmm1 ↔
      0 < pmm.refcount pfn ∧
      pmm1 = ⟨fun f => if f = pfn then pmm.refcount f - 1 else pmm.refcount f⟩ := by
  unfold pmm_unref_one
  by_cases h : pmm.refcount pfn = 0
  · simp [h]
  · simp only [h, if_false, Run.ret.injEq]
    constructor
    · intro he
      exact ⟨Nat.pos_of_ne_zero h, he.symm⟩
    · intro he
      exact he.2.symm

/-- The state after a returning `mm_replace_page_locked` whose new frame differs
from the looked-up old frame. -/
theorem mm_replace_page_locked_eq_ret (pf : Platform) (pmm pmm2 : pmm_t) (ctx ctx2 : mm_context_t)
    (vaddr pfn flags : Nat) (hne : pfn ≠ mm_do_get_pfn pf ctx.pgd vaddr) :
    mm_replace_page_locked pf pmm ctx vaddr pfn flags = Run.ret (ctx2, pmm2) ↔
      (mm_do_get_pfn pf ctx.pgd vaddr ≠ 0 → 0 < pmm.refcount (mm_do_get_pfn pf ctx.pgd vaddr)) ∧
      ctx2 = { ctx with pgd := pgd_set ctx.pgd (pf.vpn vaddr) (some ⟨pfn, flags⟩) } ∧
      pmm2 = pmm_ref_one
        (if mm_do_get_pfn pf ctx.pgd vaddr ≠ 0 then
          ⟨fun f => if f = mm_do_get_pfn pf ctx.pgd vaddr then pmm.refcount f - 1
            else pmm.refcount f⟩
         else pmm) pfn := by
  unfold mm_replace_page_locked
  simp only [Run.bind_eq_ret, mm_do_map_one]
  have hne2 : ¬ mm_do_get_pfn pf ctx.pgd vaddr = pfn := fun h => hne h.symm
  by_cases hz : mm_do_get_pfn pf ctx.pgd vaddr = 0
  · simp only [hz, ne_eq, not_true_eq_false, if_false, Run.ret.injEq, exists_eq_left',
      false_implies, true_and]
    rw [hz] at hne2
    simp only [hne2, if_false, Run.ret.injEq, Prod.mk.injEq]
    constructor
    · rintro ⟨h1, h2⟩
      exact ⟨h1.symm, h2.symm⟩
    · rintro ⟨h1, h2⟩
      exact ⟨h1.symm, h2.symm⟩
  · simp only [ne_eq, hz, not_false_eq_true, if_true, forall_const, pmm_unref_one_eq_ret,
      hne2, if_false, Run.ret.injEq, Prod.mk.injEq]
    constructor
    · rintro ⟨a, ⟨h0, rfl⟩, h1, h2⟩
      exact ⟨h0, h1.symm, h2.symm⟩
    · rintro ⟨h0, h1, h2⟩
      exact ⟨_, ⟨h0, rfl⟩, h1.symm, h2.symm⟩

/-! ### C8 -/

/-- C8: `mm_replace_page_locked` with a new frame `pfn` different from the frame
that the lookup `mm_do_get_pfn` yields for `vaddr` (`0` standing for "not
mapped"). The call returns whenever the old frame, if there is one, holds at
least one reference; and after every returning call `vaddr` maps to the new
frame with the given flags, the old frame's reference count is lower by exactly
one (only if the page was previously mapped), the new frame's count is higher by
exactly one, no other frame's count changed, no other page's leaf entry changed,
and region list and lock are as before. -/
theorem replace_page_new_frame (pf : Platform) (pmm : pmm_t) (ctx : mm_context_t)
    (vaddr pfn flags : Nat) (hne : pfn ≠ mm_do_get_pfn pf ctx.pgd vaddr) :
    ((mm_do_get_pfn pf ctx.pgd vaddr ≠ 0 →
        0 < pmm.refcount (mm_do_get_pfn pf ctx.pgd vaddr)) →
      ∃ ctx2 pmm2, mm_replace_page_locked pf pmm ctx vaddr pfn flags = Run.ret (ctx2, pmm2)) ∧
    ∀ (ctx2 : mm_context_t) (pmm2 : pmm_t),
      mm_replace_page_locked pf pmm ctx vaddr pfn flags = Run.ret (ctx2, pmm2) →
      ctx2.pgd (pf.vpn vaddr) = some ⟨pfn, flags⟩ ∧
      mm_do_get_pfn pf ctx2.pgd vaddr = pfn ∧
      (mm_do_get_pfn pf ctx.pgd vaddr ≠ 0 →
        pmm2.refcount (mm_do_get_pfn pf ctx.pgd vaddr) + 1 =
          pmm.refcount (mm_do_get_pfn pf ctx.pgd vaddr)) ∧
      pmm2.refcount pfn = pmm.refcount pfn + 1 ∧
      (∀ f, f ≠ pfn → (mm_do_get_pfn pf ctx.pgd vaddr ≠ 0 → f ≠ mm_do_get_pfn pf ctx.pgd vaddr) →
        pmm2.refcount f = pmm.refcount f) ∧
      (∀ p, p ≠ pf.vpn vaddr → ctx2.pgd p = ctx.pgd p) ∧
      ctx2.mmaps = ctx.mmaps ∧ ctx2.mm_lock = ctx.mm_lock := by
  constructor
  · intro hrc
    exact ⟨_, _, (mm_replace_page_locked_eq_ret pf pmm _ ctx _ vaddr pfn flags hne).mpr
      ⟨hrc, rfl, rfl⟩⟩
  · intro ctx2 pmm2 h
    obtain ⟨hrc, rfl, rfl⟩ :=
      (mm_replace_page_locked_eq_ret pf pmm pmm2 ctx ctx2 vaddr pfn flags hne).mp h
    have hne2 : ¬ mm_do_get_pfn pf ctx.pgd vaddr = pfn := fun h => hne h.symm
    refine ⟨by simp [pgd_set], by simp [mm_do_get_pfn, pgd_set], ?_, ?_, ?_, ?_, rfl, rfl⟩
    · intro hz
      have := hrc hz
      simp only [pmm_ref_one, hz, ne_eq, not_false_eq_true, if_true, hne2, if_false]
      omega
    · by_cases hz : mm_do_get_pfn pf ctx.pgd vaddr = 0
      · simp [pmm_ref_one, hz]
      · simp [pmm_ref_one, hz, hne]
    · intro f hf hfo
      by_cases hz : mm_do_get_pfn pf ctx.pgd vaddr = 0
      · simp [pmm_ref_one, hz, hf]
      · simp [pmm_ref_one, hz, hf, hfo hz]
    · intro p hp
      simp [pgd_set, hp]

/-- Witness of C8: the page at `0x2000`, mapped to frame 5 (two references), is
given frame 7 with flags 1. Afterwards it maps to frame 7 with flags 1, frame 5
has one reference and frame 7 has one. -/
theorem replace_page_new_frame_witness :
    7 ≠ mm_do_get_pfn x86_32 ctx_page_mapped.pgd 0x2000 ∧
    ∃ ctx2 pmm2,
      mm_replace_page_locked x86_32 pmm_frame5_twice ctx_page_mapped 0x2000 7 1 =
        Run.ret (ctx2, pmm2) ∧
      ctx2.pgd 2 = some ⟨7, 1⟩ ∧ pmm2.refcount 5 + 1 = 2 ∧ pmm2.refcount 7 = 0 + 1 := by
  have key := replace_page_new_frame x86_32 pmm_frame5_twice ctx_page_mapped 0x2000 7 1
    (by decide)
  obtain ⟨ctx2, pmm2, h⟩ := key.1 (by decide)
  obtain ⟨h1, -, h3, h4, -⟩ := key.2 ctx2 pmm2 h
  exact ⟨by decide, ctx2, pmm2, h, h1, h3 (by decide), h4⟩

/-! ### C9 -/

/-- What `mm_replace_page_locked` does when the new frame is the frame already
mapped (and not frame 0): it takes one reference from that frame and returns
without giving it back; the page table is untouched. -/
theorem mm_replace_page_locked_same_frame (pf : Platform) (pmm : pmm_t) (ctx : mm_context_t)
    (vaddr pfn flags : Nat) (hsame : mm_do_get_pfn pf ctx.pgd vaddr = pfn) (hnz : pfn ≠ 0)
    (hrc : 0 < pmm.refcount pfn) :
    mm_replace_page_locked pf pmm ctx vaddr pfn flags =
      Run.ret (ctx, ⟨fun f => if f = pfn then pmm.refcount f - 1 else pmm.refcount f⟩) := by
  unfold mm_replace_page_locked
  have hrc2 : ¬ pmm.refcount pfn = 0 := by omega
  simp [hsame, hnz, pmm_unref_one, hrc2, Run.bind]

/-- C9 fails on the code: the page at `0x2000` is mapped to frame 5, which has
two references. `mm_replace_page_locked` with `pfn = 5` leaves the mapping and
its flags as they are but returns with frame 5 at one reference: `pmm_unref_one`
runs before the test `old_pfn == pfn`. -/
theorem replace_page_same_frame_drops_reference :
    ctx_page_mapped.pgd (x86_32.vpn 0x2000) = some ⟨5, 3⟩ ∧
    pmm_frame5_twice.refcount 5 = 2 ∧
    ∃ pmm2, mm_replace_page_locked x86_32 pmm_frame5_twice ctx_page_mapped 0x2000 5 3 =
        Run.ret (ctx_page_mapped, pmm2) ∧
      pmm2.refcount 5 = 1 :=
  ⟨by decide, by decide, _,
    mm_replace_page_locked_same_frame x86_32 pmm_frame5_twice ctx_page_mapped 0x2000 5 3
      (by decide) (by decide) (by decide), by decide⟩

/-! ### Cloning a region -/

theorem vpn_wrap_step (pf : Platform) (vaddr k : Nat) :
    pf.vpn (pf.wrap (vaddr + pf.MOS_PAGE_SIZE) + k * pf.MOS_PAGE_SIZE) =
      pf.vpn (vaddr + (k + 1) * pf.MOS_PAGE_SIZE) := by
  unfold Platform.vpn Platform.wrap
  rw [Nat.mod_add_mod]
  congr 2
  ring

theorem in_range_pages_succ (pf : Platform) (vaddr n p : Nat) :
    in_range_pages pf vaddr (n + 1) p ↔
      pf.vpn vaddr = p ∨ in_range_pages pf (pf.wrap (vaddr + pf.MOS_PAGE_SIZE)) n p := by
  constructor
  · rintro ⟨k, hk, hp⟩
    cases k with
    | zero =>
      left
      simpa using hp
    | succ j =>
      right
      exact ⟨j, by omega, by rw [vpn_wrap_step]; exact hp⟩
  · rintro (hp | ⟨j, hj, hp⟩)
    · exact ⟨0, by omega, by simpa using hp⟩
    · exact ⟨j + 1, by omega, by rw [← vpn_wrap_step]; exact hp⟩

/-- The destination page table after `mm_do_copy`: source entries of the range
are copied, every other entry is the old one. -/
theorem mm_do_copy_pgd (pf : Platform) (src : pgd_t) :
    ∀ (n : Nat) (dst : pgd_t) (pmm : pmm_t) (vaddr : Nat),
      (∀ p e, in_range_pages pf vaddr n p → src p = some e →
        (mm_do_copy pf src dst pmm vaddr n).1 p = some e) ∧
      (∀ p, (¬ in_range_pages pf vaddr n p ∨ src p = none) →
        (mm_do_copy pf src dst pmm vaddr n).1 p = dst p) := by
  intro n
  induction n with
  | zero =>
    intro dst pmm vaddr
    refine ⟨?_, fun p _ => rfl⟩
    rintro p e ⟨k, hk, -⟩
    omega
  | succ n ih =>
    intro dst pmm vaddr
    cases hq : src (pf.vpn vaddr) with
    | none =>
      have hstep : mm_do_copy pf src dst pmm vaddr (n + 1) =
          mm_do_copy pf src dst pmm (pf.wrap (vaddr + pf.MOS_PAGE_SIZE)) n := by
        rw [mm_do_copy]
        simp only [hq]
      rw [hstep]
      obtain ⟨ihA, ihB⟩ := ih dst pmm (pf.wrap (vaddr + pf.MOS_PAGE_SIZE))
      constructor
      · intro p e hin he
        rcases (in_range_pages_succ pf vaddr n p).mp hin with hp | hin2
        · rw [← hp, hq] at he
          cases he
        · exact ihA p e hin2 he
      · intro p hp
        apply ihB p
        rcases hp with hp | hp
        · left
          intro hin2
          exact hp ((in_range_pages_succ pf vaddr n p).mpr (Or.inr hin2))
        · exact Or.inr hp
    | some e0 =>
      have hstep : mm_do_copy pf src dst pmm vaddr (n + 1) =
          mm_do_copy pf src (pgd_set dst (pf.vpn vaddr) (some e0)) (pmm_ref_one pmm e0.pfn)
            (pf.wrap (vaddr + pf.MOS_PAGE_SIZE)) n := by
        rw [mm_do_copy]
        simp only [hq]
      rw [hstep]
      obtain ⟨ihA, ihB⟩ := ih (pgd_set dst (pf.vpn vaddr) (some e0)) (pmm_ref_one pmm e0.pfn)
        (pf.wrap (vaddr + pf.MOS_PAGE_SIZE))
      constructor
      · intro p e hin he
        by_cases hin2 : in_range_pages pf (pf.wrap (vaddr + pf.MOS_PAGE_SIZE)) n p
        · exact ihA p e hin2 he
        · rw [ihB p (Or.inl hin2)]
          rcases (in_range_pages_succ pf vaddr n p).mp hin with hp | hin3
          · subst hp
            rw [hq] at he
            simp [pgd_set, he]
          · exact absurd hin3 hin2
      · intro p hp
        have hpq : p ≠ pf.vpn vaddr := by
          rintro rfl
          rcases hp with hp | hp
          · exact hp ((in_range_pages_succ pf vaddr n _).mpr (Or.inl rfl))
          · rw [hq] at hp
            cases hp
        have hB : (mm_do_copy pf src (pgd_set dst (pf.vpn vaddr) (some e0))
            (pmm_ref_one pmm e0.pfn) (pf.wrap (vaddr + pf.MOS_PAGE_SIZE)) n).1 p =
            pgd_set dst (pf.vpn vaddr) (some e0) p := by
          apply ihB p
          rcases hp with hp | hp
          · left
            intro hin2
            exact hp ((in_range_pages_succ pf vaddr n p).mpr (Or.inr hin2))
          · exact Or.inr hp
        rw [hB]
        simp [pgd_set, hpq]

/-- Without wrap-around of the ends, the exact scan passes exactly when no
region overlaps the requested range. -/
theorem exact_scan_iff_no_overlap (pf : Platform) (base_vaddr n_pages : Nat) (l : List vmap_t)
    (hreq : base_vaddr + n_pages * pf.MOS_PAGE_SIZE < 2 ^ pf.ptr_bits)
    (hl : ∀ m ∈ l, m.true_end pf < 2 ^ pf.ptr_bits) :
    free_vaddr_exact_scan pf base_vaddr (pf.wrap (base_vaddr + n_pages * pf.MOS_PAGE_SIZE)) l
      = true ↔ ∀ m ∈ l, ¬ range_overlaps pf base_vaddr n_pages m := by
  rw [exact_scan_eq_true_iff, wrap_eq_of_lt pf hreq]
  constructor
  · intro h m hm hov
    apply h m hm
    rw [vmap_end_eq_of_lt pf (hl m hm)]
    exact ⟨hov.1, hov.2⟩
  · intro h m hm hov
    apply h m hm
    rw [vmap_end_eq_of_lt pf (hl m hm)] at hov
    exact ⟨hov.1, hov.2⟩

/-- The result of `mm_clone_vmap` when both locks are free and the source region
starts below the kernel. -/
theorem mm_clone_vmap_eq (pf : Platform) (pmm : pmm_t) (src_ctx dst_ctx : mm_context_t)
    (src_vmap : vmap_t) (hsl : src_ctx.mm_lock = false) (hdl : dst_ctx.mm_lock = false)
    (hk : src_vmap.vaddr < pf.MOS_KERNEL_START_VADDR) :
    mm_clone_vmap pf pmm src_ctx src_vmap dst_ctx =
      if free_vaddr_exact_scan pf src_vmap.vaddr
          (pf.wrap (src_vmap.vaddr + src_vmap.npages * pf.MOS_PAGE_SIZE)) dst_ctx.mmaps then
        Run.ret (some (vmap_insert_pos src_vmap.vaddr dst_ctx.mmaps), src_ctx,
          ⟨false, vmap_insert ⟨src_vmap.vaddr, src_vmap.npages, 0⟩ dst_ctx.mmaps,
            (mm_do_copy pf src_ctx.pgd dst_ctx.pgd pmm src_vmap.vaddr src_vmap.npages).1⟩,
          (mm_do_copy pf src_ctx.pgd dst_ctx.pgd pmm src_vmap.vaddr src_vmap.npages).2)
      else Run.ret (none, src_ctx, dst_ctx, pmm) := by
  obtain ⟨sl, sm, sp⟩ := src_ctx
  obtain ⟨dl, dm, dp⟩ := dst_ctx
  simp only at hsl hdl
  subst hsl hdl
  unfold mm_clone_vmap mm_lock_ctx_pair mm_clone_vmap_locked
  simp only [spinlock_acquire, Bool.false_eq_true, if_false, Run.bind]
  rw [get_free_vaddr_exact_eq pf _ _ _ rfl hk]
  by_cases hscan : free_vaddr_exact_scan pf src_vmap.vaddr
      (pf.wrap (src_vmap.vaddr + src_vmap.npages * pf.MOS_PAGE_SIZE)) dm = true
  · simp only [hscan, if_true, vmap_create, mm_unlock_ctx_pair, spinlock_release]
  · simp only [hscan, Bool.false_eq_true, if_false, mm_unlock_ctx_pair, spinlock_release]

/-! ### C10 -/

/-- C10, as the code has it: `mm_clone_vmap(src_vmap, dst_ctx)`, entered with
both locks free and a source region that starts below
`MOS_KERNEL_START_VADDR`, and with no region end wrapping around the word
width. It returns a region exactly when the destination has no region
overlapping `[src.vaddr, src.vaddr + src.npages * MOS_PAGE_SIZE)`. On success
the destination region has the source's `vaddr` and `npages`, and for the pages
of exactly that range the leaf entries of the source root are copied to the
destination root, every other destination entry staying as it was. On failure
it returns `NULL` and leaves the destination (region list, page table, lock),
the source and the frame state unchanged. -/
theorem clone_vmap_region_or_null (pf : Platform) (pmm : pmm_t) (src_ctx dst_ctx : mm_context_t)
    (src_vmap : vmap_t) (hsl : src_ctx.mm_lock = false) (hdl : dst_ctx.mm_lock = false)
    (hk : src_vmap.vaddr < pf.MOS_KERNEL_START_VADDR)
    (hsrc : src_vmap.true_end pf < 2 ^ pf.ptr_bits)
    (hdst : ∀ m ∈ dst_ctx.mmaps, m.true_end pf < 2 ^ pf.ptr_bits) :
    ((∃ i src2 dst2 pmm2, mm_clone_vmap pf pmm src_ctx src_vmap dst_ctx =
        Run.ret (some i, src2, dst2, pmm2)) ↔
      ∀ m ∈ dst_ctx.mmaps, ¬ range_overlaps pf src_vmap.vaddr src_vmap.npages m) ∧
    ((∀ m ∈ dst_ctx.mmaps, ¬ range_overlaps pf src_vmap.vaddr src_vmap.npages m) →
      ∃ i dst2 pmm2, mm_clone_vmap pf pmm src_ctx src_vmap dst_ctx =
          Run.ret (some i, src_ctx, dst2, pmm2) ∧
        (vmap_at dst2.mmaps i).vaddr = src_vmap.vaddr ∧
        (vmap_at dst2.mmaps i).npages = src_vmap.npages ∧
        dst2.mmaps = vmap_insert ⟨src_vmap.vaddr, src_vmap.npages, 0⟩ dst_ctx.mmaps ∧
        dst2.mm_lock = false ∧
        (∀ p e, in_range_pages pf src_vmap.vaddr src_vmap.npages p → src_ctx.pgd p = some e →
          dst2.pgd p = some e) ∧
        (∀ p, ¬ in_range_pages pf src_vmap.vaddr src_vmap.npages p →
          dst2.pgd p = dst_ctx.pgd p) ∧
        (∀ p, src_ctx.pgd p = none → dst2.pgd p = dst_ctx.pgd p)) ∧
    ((∃ m ∈ dst_ctx.mmaps, range_overlaps pf src_vmap.vaddr src_vmap.npages m) →
      mm_clone_vmap pf pmm src_ctx src_vmap dst_ctx = Run.ret (none, src_ctx, dst_ctx, pmm)) := by
  have heq := mm_clone_vmap_eq pf pmm src_ctx dst_ctx src_vmap hsl hdl hk
  have hiff := exact_scan_iff_no_overlap pf src_vmap.vaddr src_vmap.npages dst_ctx.mmaps
    hsrc hdst
  have hcopy := mm_do_copy_pgd pf src_ctx.pgd src_vmap.npages dst_ctx.pgd pmm src_vmap.vaddr
  by_cases hfree : ∀ m ∈ dst_ctx.mmaps, ¬ range_overlaps pf src_vmap.vaddr src_vmap.npages m
  · rw [if_pos (hiff.mpr hfree)] at heq
    have hsucc : ∃ i dst2 pmm2, mm_clone_vmap pf pmm src_ctx src_vmap dst_ctx =
          Run.ret (some i, src_ctx, dst2, pmm2) ∧
        (vmap_at dst2.mmaps i).vaddr = src_vmap.vaddr ∧
        (vmap_at dst2.mmaps i).npages = src_vmap.npages ∧
        dst2.mmaps = vmap_insert ⟨src_vmap.vaddr, src_vmap.npages, 0⟩ dst_ctx.mmaps ∧
        dst2.mm_lock = false ∧
        (∀ p e, in_range_pages pf src_vmap.vaddr src_vmap.npages p → src_ctx.pgd p = some e →
          dst2.pgd p = some e) ∧
        (∀ p, ¬ in_range_pages pf src_vmap.vaddr src_vmap.npages p →
          dst2.pgd p = dst_ctx.pgd p) ∧
        (∀ p, src_ctx.pgd p = none → dst2.pgd p = dst_ctx.pgd p) := by
      refine ⟨_, _, _, heq, ?_, ?_, rfl, rfl, hcopy.1, fun p hp => hcopy.2 p (Or.inl hp),
        fun p hp => hcopy.2 p (Or.inr hp)⟩
      · have h := vmap_at_insert ⟨src_vmap.vaddr, src_vmap.npages, 0⟩ dst_ctx.mmaps
        simp only at h ⊢
        rw [h]
      · have h := vmap_at_insert ⟨src_vmap.vaddr, src_vmap.npages, 0⟩ dst_ctx.mmaps
        simp only at h ⊢
        rw [h]
    refine ⟨⟨fun _ => hfree, fun _ => ?_⟩, fun _ => hsucc, fun hex => ?_⟩
    · obtain ⟨i, dst2, pmm2, h, -⟩ := hsucc
      exact ⟨i, src_ctx, dst2, pmm2, h⟩
    · obtain ⟨m, hm, hov⟩ := hex
      exact absurd hov (hfree m hm)
  · have hscan : ¬ free_vaddr_exact_scan pf src_vmap.vaddr
        (pf.wrap (src_vmap.vaddr + src_vmap.npages * pf.MOS_PAGE_SIZE)) dst_ctx.mmaps = true :=
      fun h => hfree (hiff.mp h)
    rw [if_neg hscan] at heq
    refine ⟨⟨fun hex => ?_, fun h => absurd h hfree⟩, fun h => absurd h hfree, fun _ => heq⟩
    obtain ⟨i, src2, dst2, pmm2, h⟩ := hex
    rw [heq] at h
    simp only [Run.ret.injEq, Prod.mk.injEq] at h
    exact absurd h.1 (by simp)

/-- Witness of C10: the region `[0xBFFFF000, 0xC0000000)` of `ctx_clone_source`
is cloned into the scenario address space, where the range is free, and the
clone is refused by `ctx_clone_busy`, whose region `[0xBFFFE000, 0xC0000000)`
overlaps it. -/
theorem clone_vmap_region_or_null_witness :
    (∃ i dst2 pmm2,
      mm_clone_vmap x86_32 pmm_frame5_twice ctx_clone_source ⟨0xBFFFF000, 1, 3⟩
          ctx_one_region_free = Run.ret (some i, ctx_clone_source, dst2, pmm2) ∧
        (vmap_at dst2.mmaps i).vaddr = 0xBFFFF000 ∧ (vmap_at dst2.mmaps i).npages = 1 ∧
        dst2.pgd 0xBFFFF = some ⟨5, 3⟩) ∧
    mm_clone_vmap x86_32 pmm_frame5_twice ctx_clone_source ⟨0xBFFFF000, 1, 3⟩ ctx_clone_busy =
      Run.ret (none, ctx_clone_source, ctx_clone_busy, pmm_frame5_twice) := by
  have key1 := clone_vmap_region_or_null x86_32 pmm_frame5_twice ctx_clone_source
    ctx_one_region_free ⟨0xBFFFF000, 1, 3⟩ rfl rfl (by decide) (by decide) (by decide)
  have key2 := clone_vmap_region_or_null x86_32 pmm_frame5_twice ctx_clone_source
    ctx_clone_busy ⟨0xBFFFF000, 1, 3⟩ rfl rfl (by decide) (by decide) (by decide)
  obtain ⟨i, dst2, pmm2, h, h1, h2, -, -, h5, -⟩ := key1.2.1 (by decide)
  refine ⟨⟨i, dst2, pmm2, h, h1, h2, ?_⟩, key2.2.2 ⟨⟨0xBFFFE000, 2, 3⟩, by decide, by decide⟩⟩
  exact h5 0xBFFFF ⟨5, 3⟩ ⟨0, by decide, by decide⟩ (by decide)

/-- C10 fails as stated: on the 32-bit layout the destination holds the region
`[0xBFFFF000, 2^32)`, which overlaps the source range
`[0xBFFFF000, 0xC0000000)`; both locks are free and the source region starts
below the kernel. The end of the destination region wraps to `0` in the exact
search, so `mm_clone_vmap` returns a region all the same. -/
theorem clone_vmap_into_top_region :
    (∃ m ∈ ctx_top_region_free.mmaps, range_overlaps x86_32 0xBFFFF000 1 m) ∧
    ctx_clone_source.mm_lock = false ∧ ctx_top_region_free.mm_lock = false ∧
    0xBFFFF000 < x86_32.MOS_KERNEL_START_VADDR ∧
    ∃ dst2 pmm2,
      mm_clone_vmap x86_32 pmm_frame5_twice ctx_clone_source ⟨0xBFFFF000, 1, 3⟩
        ctx_top_region_free = Run.ret (some 1, ctx_clone_source, dst2, pmm2) ∧
      dst2.mmaps = [⟨0xBFFFF000, 0x40001, 3⟩, ⟨0xBFFFF000, 1, 0⟩] :=
  ⟨⟨⟨0xBFFFF000, 0x40001, 3⟩, by decide, by decide⟩, rfl, rfl, by decide, _, _, rfl, rfl⟩

/-! ### Physical addresses -/

theorem and_page_mask (x s w : Nat) (hx : x < 2 ^ w) (hs : s ≤ w) :
    x &&& (2 ^ w - 1 - (2 ^ s - 1)) = x - x % 2 ^ s := by
  have hspos : 0 < 2 ^ s := Nat.two_pow_pos s
  have hm : 2 ^ w - 1 - (2 ^ s - 1) = 2 ^ s * (2 ^ (w - s) - 1) := by
    have h1 : 2 ^ w = 2 ^ s * 2 ^ (w - s) := by
      rw [← Nat.pow_add]
      congr 1
      omega
    rw [Nat.mul_sub, ← h1]
    omega
  have hr : x - x % 2 ^ s = 2 ^ s * (x / 2 ^ s) := by
    have := Nat.div_add_mod x (2 ^ s)
    omega
  rw [hm, hr]
  apply Nat.eq_of_testBit_eq
  intro i
  rw [Nat.testBit_and, Nat.testBit_mul_pow_two, Nat.testBit_mul_pow_two,
    Nat.testBit_two_pow_sub_one, ← Nat.shiftRight_eq_div_pow, Nat.testBit_shiftRight]
  by_cases his : i ≥ s
  · have e : s + (i - s) = i := by omega
    rw [e]
    by_cases hiw : i < w
    · have : i - s < w - s := by omega
      simp [his, this]
    · have hxi : x.testBit i = false :=
        Nat.testBit_lt_two_pow (lt_of_lt_of_le hx (Nat.pow_le_pow_right (by decide) (by omega)))
      simp [hxi]
  · simp [his]

theorem shiftLeft_or_mod (pfn s x : Nat) :
    pfn <<< s ||| (x % 2 ^ s) = pfn * 2 ^ s + x % 2 ^ s := by
  rw [Nat.shiftLeft_eq, Nat.mul_comm, ← Nat.mul_add_lt_is_or (Nat.mod_lt _ (Nat.two_pow_pos s))]

/-- The value of `mm_get_phys_addr` in terms of the frame lookup. -/
theorem mm_get_phys_addr_eq (pf : Platform) (ctx : mm_context_t) (vaddr : Nat)
    (hP : pf.MOS_PAGE_SIZE = 2 ^ pf.PML1_SHIFT)
    (hfit : mm_do_get_pfn pf ctx.pgd vaddr * pf.MOS_PAGE_SIZE < 2 ^ pf.ptr_bits) :
    mm_get_phys_addr pf ctx vaddr =
      mm_do_get_pfn pf ctx.pgd vaddr * pf.MOS_PAGE_SIZE + vaddr % pf.MOS_PAGE_SIZE := by
  unfold mm_get_phys_addr
  simp only
  rw [hP] at hfit ⊢
  have hw : pf.wrap (mm_do_get_pfn pf ctx.pgd vaddr <<< pf.PML1_SHIFT) =
      mm_do_get_pfn pf ctx.pgd vaddr <<< pf.PML1_SHIFT := by
    apply wrap_eq_of_lt
    rw [Nat.shiftLeft_eq]
    exact hfit
  rw [hw, shiftLeft_or_mod]

/-! ### C17 -/

/-- C17: for every `vaddr` whose page is mapped to frame number `pfn`, with
`MOS_PAGE_SIZE = 2 ^ PML1_SHIFT` and the frame's address `pfn * MOS_PAGE_SIZE`
fitting a `ptr_t` (as every frame number a leaf entry can hold does),
`mm_get_phys_addr` returns `pfn * MOS_PAGE_SIZE + (vaddr mod MOS_PAGE_SIZE)`: the
part below `PML1_SHIFT` is the offset of `vaddr` in its page, the part above is
the frame number. The x86 `platform_mm_get_phys_addr` looks up the page-aligned
address `vaddr - vaddr mod MOS_PAGE_SIZE` and adds the same offset, so it gives
the same value when that lookup yields the frame's address. -/
theorem get_phys_addr_decomposition (pf : Platform) (ctx : mm_context_t) (vaddr pfn flags : Nat)
    (hP : pf.MOS_PAGE_SIZE = 2 ^ pf.PML1_SHIFT)
    (hmap : ctx.pgd (pf.vpn vaddr) = some ⟨pfn, flags⟩)
    (hfit : pfn * pf.MOS_PAGE_SIZE < 2 ^ pf.ptr_bits) :
    mm_get_phys_addr pf ctx vaddr = pfn * pf.MOS_PAGE_SIZE + vaddr % pf.MOS_PAGE_SIZE ∧
    mm_get_phys_addr pf ctx vaddr % pf.MOS_PAGE_SIZE = vaddr % pf.MOS_PAGE_SIZE ∧
    mm_get_phys_addr pf ctx vaddr / pf.MOS_PAGE_SIZE = pfn ∧
    (∀ pg_get_mapped_paddr : Nat → Nat, vaddr < 2 ^ pf.ptr_bits →
      pf.PML1_SHIFT ≤ pf.ptr_bits →
      platform_mm_get_phys_addr pf pg_get_mapped_paddr vaddr =
        pf.wrap (pg_get_mapped_paddr (vaddr - vaddr % pf.MOS_PAGE_SIZE) +
          vaddr % pf.MOS_PAGE_SIZE) ∧
      (pg_get_mapped_paddr (vaddr - vaddr % pf.MOS_PAGE_SIZE) = pfn * pf.MOS_PAGE_SIZE →
        platform_mm_get_phys_addr pf pg_get_mapped_paddr vaddr =
          mm_get_phys_addr pf ctx vaddr)) := by
  have hpfn : mm_do_get_pfn pf ctx.pgd vaddr = pfn := by
    simp [mm_do_get_pfn, hmap]
  have hval : mm_get_phys_addr pf ctx vaddr =
      pfn * pf.MOS_PAGE_SIZE + vaddr % pf.MOS_PAGE_SIZE := by
    have h := mm_get_phys_addr_eq pf ctx vaddr hP (by rw [hpfn]; exact hfit)
    rw [hpfn] at h
    exact h
  have hPpos := pf.page_size_pos
  have hoff : vaddr % pf.MOS_PAGE_SIZE < pf.MOS_PAGE_SIZE := Nat.mod_lt _ hPpos
  refine ⟨hval, ?_, ?_, ?_⟩
  · rw [hval, Nat.mul_add_mod_of_lt hoff]
  · rw [hval, Nat.add_comm, Nat.add_mul_div_right _ _ hPpos, Nat.div_eq_of_lt hoff,
      Nat.zero_add]
  · intro paddr_of hv hsw
    have hmask : vaddr &&& (2 ^ pf.ptr_bits - 1 - (pf.MOS_PAGE_SIZE - 1)) =
        vaddr - vaddr % pf.MOS_PAGE_SIZE := by
      rw [hP]
      exact and_page_mask vaddr pf.PML1_SHIFT pf.ptr_bits hv hsw
    have hlow : vaddr &&& (pf.MOS_PAGE_SIZE - 1) = vaddr % pf.MOS_PAGE_SIZE := by
      rw [hP]
      exact Nat.and_pow_two_sub_one_eq_mod vaddr pf.PML1_SHIFT
    have heq : platform_mm_get_phys_addr pf paddr_of vaddr =
        pf.wrap (paddr_of (vaddr - vaddr % pf.MOS_PAGE_SIZE) + vaddr % pf.MOS_PAGE_SIZE) := by
      unfold platform_mm_get_phys_addr
      simp only [hmask, hlow]
    refine ⟨heq, fun hpa => ?_⟩
    rw [heq, hpa, hval]
    apply wrap_eq_of_lt
    have h1 : 2 ^ pf.ptr_bits = 2 ^ pf.PML1_SHIFT * 2 ^ (pf.ptr_bits - pf.PML1_SHIFT) := by
      rw [← Nat.pow_add]
      congr 1
      omega
    rw [hP] at hfit hoff ⊢
    rw [h1] at hfit ⊢
    have h2 : pfn < 2 ^ (pf.ptr_bits - pf.PML1_SHIFT) := by
      rw [Nat.mul_comm] at hfit
      exact Nat.lt_of_mul_lt_mul_left hfit
    calc pfn * 2 ^ pf.PML1_SHIFT + vaddr % 2 ^ pf.PML1_SHIFT
        < pfn * 2 ^ pf.PML1_SHIFT + 2 ^ pf.PML1_SHIFT := by omega
      _ = 2 ^ pf.PML1_SHIFT * (pfn + 1) := by ring
      _ ≤ 2 ^ pf.PML1_SHIFT * 2 ^ (pf.ptr_bits - pf.PML1_SHIFT) :=
          Nat.mul_le_mul_left _ h2

/-- Witness of C17: the page at `0x2000` is mapped to frame 5, so the address
`0x2ABC` translates to `0x5ABC`. -/
theorem get_phys_addr_decomposition_witness :
    x86_32.MOS_PAGE_SIZE = 2 ^ x86_32.PML1_SHIFT ∧
    ctx_page_mapped.pgd (x86_32.vpn 0x2ABC) = some ⟨5, 3⟩ ∧
    mm_get_phys_addr x86_32 ctx_page_mapped 0x2ABC = 0x5ABC ∧
    platform_mm_get_phys_addr x86_32 (fun a => if a = 0x2000 then 0x5000 else 0) 0x2ABC =
      mm_get_phys_addr x86_32 ctx_page_mapped 0x2ABC :=
  ⟨by decide, by decide,
   (get_phys_addr_decomposition x86_32 ctx_page_mapped 0x2ABC 5 3 (by decide) (by decide)
      (by decide)).1,
   ((get_phys_addr_decomposition x86_32 ctx_page_mapped 0x2ABC 5 3 (by decide) (by decide)
      (by decide)).2.2.2 (fun a => if a = 0x2000 then 0x5000 else 0) (by decide)
      (by decide)).2 (by decide)⟩

/-! ### C18 -/

/-- C18, as the code has it: for every `vaddr` whose frame lookup yields `0` (no
leaf entry), `mm_get_phys_addr` returns the offset of `vaddr` within its page,
`vaddr mod MOS_PAGE_SIZE` (with `MOS_PAGE_SIZE = 2 ^ PML1_SHIFT`); the result is
`0` exactly when `vaddr` is page-aligned. -/
theorem get_phys_addr_unmapped (pf : Platform) (ctx : mm_context_t) (vaddr : Nat)
    (hP : pf.MOS_PAGE_SIZE = 2 ^ pf.PML1_SHIFT)
    (hun : mm_do_get_pfn pf ctx.pgd vaddr = 0) :
    mm_get_phys_addr pf ctx vaddr = vaddr % pf.MOS_PAGE_SIZE ∧
    (mm_get_phys_addr pf ctx vaddr = 0 ↔ vaddr % pf.MOS_PAGE_SIZE = 0) := by
  have h := mm_get_phys_addr_eq pf ctx vaddr hP (by rw [hun, Nat.zero_mul]; exact Nat.two_pow_pos _)
  rw [hun, Nat.zero_mul, Nat.zero_add] at h
  exact ⟨h, by rw [h]⟩

/-- Witness of C18: in an address space without mappings the page-aligned
address `0x2000` translates to `0` and the address `0x2ABC` to `0xABC`. -/
theorem get_phys_addr_unmapped_witness :
    x86_32.MOS_PAGE_SIZE = 2 ^ x86_32.PML1_SHIFT ∧
    mm_do_get_pfn x86_32 ctx_no_region.pgd 0x2ABC = 0 ∧
    mm_get_phys_addr x86_32 ctx_no_region 0x2ABC = 0x2ABC % x86_32.MOS_PAGE_SIZE ∧
    (mm_get_phys_addr x86_32 ctx_no_region 0x2000 = 0 ↔ 0x2000 % x86_32.MOS_PAGE_SIZE = 0) :=
  ⟨by decide, by decide,
   (get_phys_addr_unmapped x86_32 ctx_no_region 0x2ABC (by decide) (by decide)).1,
   (get_phys_addr_unmapped x86_32 ctx_no_region 0x2000 (by decide) (by decide)).2⟩

/-- C18 fails as stated: no page of `ctx_no_region` has a leaf entry, the frame
lookup for `0x2ABC` yields `0`, and `mm_get_phys_addr` returns `0xABC`, the
offset within the page, not `0`. -/
theorem get_phys_addr_unmapped_returns_offset :
    ctx_no_region.pgd (x86_32.vpn 0x2ABC) = none ∧
    mm_do_get_pfn x86_32 ctx_no_region.pgd 0x2ABC = 0 ∧
    mm_get_phys_addr x86_32 ctx_no_region 0x2ABC = 0xABC ∧
    mm_get_phys_addr x86_32 ctx_no_region 0x2ABC ≠ 0 :=
  ⟨by decide, by decide, by decide, by decide⟩

/-! ### C20 -/

/-- C20, as the code has it: a zero-length range is refused. With `npages = 0`
each of `mm_map_pages_locked`, `mm_unmap_pages` and `mm_flag_pages_locked` stops
in its assertion `npages > 0` (`mm_map_pages_locked` in its lock assertion when
the lock is not held), whatever the address space and the other arguments; no
state results from the call, so page table, region map and reference counts are
not changed. The walker routines themselves do nothing on zero pages. -/
theorem zero_length_range_asserts (pf : Platform) (pmm : pmm_t) (ctx : mm_context_t)
    (vaddr pfn flags : Nat) :
    mm_map_pages_locked pf ctx vaddr pfn 0 flags = Run.assert_fail ∧
    mm_unmap_pages pf pmm ctx vaddr 0 = Run.assert_fail ∧
    mm_flag_pages_locked pf ctx vaddr 0 flags = Run.assert_fail ∧
    mm_do_map pf ctx.pgd vaddr pfn 0 flags = ctx.pgd ∧
    mm_do_unmap pf ctx.pgd pmm vaddr 0 true = Run.ret (ctx.pgd, pmm) ∧
    mm_do_flag pf ctx.pgd vaddr 0 flags = ctx.pgd := by
  refine ⟨?_, ?_, ?_, rfl, rfl, rfl⟩
  · unfold mm_map_pages_locked
    cases ctx.mm_lock <;> simp
  · simp [mm_unmap_pages]
  · simp [mm_flag_pages_locked]

/-- C20 fails as stated: on the scenario address space, with the lock held,
`mm_map_pages_locked`, `mm_unmap_pages` and `mm_flag_pages_locked` called with
`npages = 0` do not return: each ends in a failed assertion. -/
theorem zero_length_range_does_not_return :
    ctx_one_region.mm_lock = true ∧
    mm_map_pages_locked x86_32 ctx_one_region 0x1000 7 0 3 = Run.assert_fail ∧
    mm_unmap_pages x86_32 pmm_frame5_twice ctx_one_region 0x1000 0 = Run.assert_fail ∧
    mm_flag_pages_locked x86_32 ctx_one_region 0x1000 0 3 = Run.assert_fail :=
  ⟨rfl, rfl, rfl, rfl⟩

/-! ### Region lookup -/

theorem is_mapped_scan_eq_true_iff (pf : Platform) (vaddr : Nat) (l : List vmap_t) :
    is_mapped_scan pf vaddr l = true ↔ ∃ r ∈ l, r.vaddr ≤ vaddr ∧ vaddr < vmap_end pf r := by
  induction l with
  | nil => simp [is_mapped_scan]
  | cons m rest ih =>
    by_cases h : m.vaddr ≤ vaddr ∧ vaddr < vmap_end pf m
    · simp only [is_mapped_scan, h, and_self, if_true, true_iff]
      exact ⟨m, List.mem_cons_self _ _, h⟩
    · simp only [is_mapped_scan, h, if_false, ih, List.mem_cons]
      constructor
      · rintro ⟨x, hx, hx2⟩
        exact ⟨x, Or.inr hx, hx2⟩
      · rintro ⟨x, hx | hx, hx2⟩
        · subst hx
          exact absurd hx2 h
        · exact ⟨x, hx, hx2⟩

/-- The lookup sees the regions as a set: lists with the same members give the
same answer. -/
theorem is_mapped_scan_congr (pf : Platform) (vaddr : Nat) (l1 l2 : List vmap_t)
    (h : ∀ r, r ∈ l1 ↔ r ∈ l2) : is_mapped_scan pf vaddr l1 = is_mapped_scan pf vaddr l2 := by
  rw [Bool.eq_iff_iff, is_mapped_scan_eq_true_iff, is_mapped_scan_eq_true_iff]
  constructor
  · rintro ⟨r, hr, hr2⟩
    exact ⟨r, (h r).mp hr, hr2⟩
  · rintro ⟨r, hr, hr2⟩
    exact ⟨r, (h r).mpr hr, hr2⟩

/-! ### C15 -/

/-- C15, as the code has it: `mm_get_is_mapped_locked(mmctx, vaddr)`, called with
the lock held as it asserts, returns a truth value and nothing else. It is true
if and only if some region `r` of `mmctx` satisfies `r.vaddr <= vaddr` and
`vaddr < r.vaddr + r.npages * MOS_PAGE_SIZE` with that sum taken in `ptr_t`
arithmetic; when no region end wraps around the word width this is the condition
`r.vaddr <= vaddr < r.vaddr + r.npages * MOS_PAGE_SIZE` on the true sum. The
answer is the same for every page table and every order of the region list. -/
theorem is_mapped_pure_region_lookup (pf : Platform) (mmctx : mm_context_t) (vaddr : Nat)
    (hlock : mmctx.mm_lock = true) :
    (∃ b, mm_get_is_mapped_locked pf mmctx vaddr = Run.ret b ∧
      (b = true ↔ ∃ r ∈ mmctx.mmaps, r.vaddr ≤ vaddr ∧ vaddr < vmap_end pf r) ∧
      ((∀ r ∈ mmctx.mmaps, r.true_end pf < 2 ^ pf.ptr_bits) →
        (b = true ↔ ∃ r ∈ mmctx.mmaps,
          r.vaddr ≤ vaddr ∧ vaddr < r.vaddr + r.npages * pf.MOS_PAGE_SIZE))) ∧
    (∀ ctx2 : mm_context_t, ctx2.mm_lock = true → ctx2.mmaps.Perm mmctx.mmaps →
      mm_get_is_mapped_locked pf ctx2 vaddr = mm_get_is_mapped_locked pf mmctx vaddr) := by
  have heq : ∀ c : mm_context_t, c.mm_lock = true →
      mm_get_is_mapped_locked pf c vaddr = Run.ret (is_mapped_scan pf vaddr c.mmaps) := by
    intro c hc
    simp [mm_get_is_mapped_locked, hc]
  refine ⟨⟨_, heq mmctx hlock, is_mapped_scan_eq_true_iff pf vaddr mmctx.mmaps, ?_⟩, ?_⟩
  · intro hnw
    rw [is_mapped_scan_eq_true_iff]
    constructor
    · rintro ⟨r, hr, h1, h2⟩
      rw [vmap_end_eq_of_lt pf (hnw r hr)] at h2
      exact ⟨r, hr, h1, h2⟩
    · rintro ⟨r, hr, h1, h2⟩
      refine ⟨r, hr, h1, ?_⟩
      rw [vmap_end_eq_of_lt pf (hnw r hr)]
      exact h2
  · intro ctx2 hl2 hperm
    rw [heq ctx2 hl2, heq mmctx hlock,
      is_mapped_scan_congr pf vaddr ctx2.mmaps mmctx.mmaps (fun r => hperm.mem_iff)]

/-- Witness of C15 on the scenario address space `[0x1000, 0x5000)`: the address
`0x2ABC` is mapped, whatever the page table. -/
theorem is_mapped_pure_region_lookup_witness :
    ctx_one_region.mm_lock = true ∧
    mm_get_is_mapped_locked x86_32 ctx_one_region 0x2ABC = Run.ret true ∧
    mm_get_is_mapped_locked x86_32 ⟨true, [⟨0x1000, 4, 3⟩], pgd_set pgd_empty 7 (some ⟨9, 1⟩)⟩
      0x2ABC = mm_get_is_mapped_locked x86_32 ctx_one_region 0x2ABC := by
  have key := is_mapped_pure_region_lookup x86_32 ctx_one_region 0x2ABC rfl
  obtain ⟨b, hb, hiff, -⟩ := key.1
  have hb2 : b = true := hiff.mpr ⟨⟨0x1000, 4, 3⟩, by decide, by decide, by decide⟩
  subst hb2
  exact ⟨rfl, hb, key.2 ⟨true, [⟨0x1000, 4, 3⟩], pgd_set pgd_empty 7 (some ⟨9, 1⟩)⟩ rfl
    (List.Perm.refl _)⟩

/-- C15 fails as stated: on the 32-bit layout the region `[0xBFFFF000, 2^32)`
satisfies `r.vaddr <= 0xBFFFF000 < r.vaddr + r.npages * MOS_PAGE_SIZE`, but its
end wraps to `0` in the code's comparison and `mm_get_is_mapped_locked` returns
`false` for `0xBFFFF000`. -/
theorem is_mapped_misses_top_region :
    ctx_top_region.mm_lock = true ∧
    (∃ r ∈ ctx_top_region.mmaps,
      r.vaddr ≤ 0xBFFFF000 ∧ 0xBFFFF000 < r.vaddr + r.npages * x86_32.MOS_PAGE_SIZE) ∧
    mm_get_is_mapped_locked x86_32 ctx_top_region 0xBFFFF000 = Run.ret false :=
  ⟨rfl, ⟨⟨0xBFFFF000, 0x40001, 3⟩, by decide, by decide, by decide⟩, rfl⟩

/-! ### C13 -/

/-- A call of `mm_get_free_vaddr_locked` that returns `NULL` leaves the address
space as it was. -/
theorem get_free_vaddr_none_unchanged (pf : Platform) (mmctx ctx2 : mm_context_t)
    (n_pages base_vaddr : Nat) (vflags : valloc_flags)
    (h : mm_get_free_vaddr_locked pf mmctx n_pages base_vaddr vflags = Run.ret (none, ctx2)) :
    ctx2 = mmctx := by
  unfold mm_get_free_vaddr_locked at h
  split at h
  · cases h
  · split at h
    · cases h
    · cases vflags with
      | VALLOC_EXACT =>
        simp only at h
        split at h
        · simp at h
        · simp only [Run.ret.injEq, Prod.mk.injEq, true_and] at h
          exact h.symm
      | VALLOC_DEFAULT =>
        simp only at h
        cases hscan : free_vaddr_default_scan pf n_pages base_vaddr mmctx.mmaps with
        | none =>
          rw [hscan] at h
          simp only [Run.ret.injEq, Prod.mk.injEq, true_and] at h
          exact h.symm
        | some a =>
          rw [hscan] at h
          simp at h

/-- C13: `mm_alloc_pages` (entered with `n_pages > 0`, as it asserts) is atomic
on failure. When the frame allocator cannot supply `n_pages` frames it returns
`NULL`, with region map, page table and frame state as they were. When the
frames were obtained and `mm_get_free_vaddr_locked` finds no virtual range, it
returns `NULL`, the address space is as it was, and the frame state is the one
after `mm_free_pages(frame, n_pages)` on the frames just obtained. Every `NULL`
return is one of these two: the region map and the page table are unchanged and
no frames are kept. -/
theorem alloc_pages_failure_atomic (pf : Platform) (fa : frame_allocator) (pmm : pmm_t)
    (mmctx : mm_context_t) (n_pages hint_vaddr : Nat) (vflags : valloc_flags) (flags : Nat)
    (hn : 0 < n_pages) :
    (fa.mm_get_free_pages pmm n_pages = none →
      ∃ ctx2, mm_alloc_pages pf fa pmm mmctx n_pages hint_vaddr vflags flags =
          Run.ret (none, ctx2, pmm) ∧
        ctx2.mmaps = mmctx.mmaps ∧ ctx2.pgd = mmctx.pgd) ∧
    (∀ (pfn : Nat) (pmm1 : pmm_t) (c : mm_context_t),
      fa.mm_get_free_pages pmm n_pages = some (pfn, pmm1) → mmctx.mm_lock = false →
      mm_get_free_vaddr_locked pf { mmctx with mm_lock := true } n_pages hint_vaddr vflags =
        Run.ret (none, c) →
      mm_alloc_pages pf fa pmm mmctx n_pages hint_vaddr vflags flags =
        Run.ret (none, mmctx, fa.mm_free_pages pmm1 pfn n_pages)) ∧
    (∀ (ctx2 : mm_context_t) (pmm2 : pmm_t),
      mm_alloc_pages pf fa pmm mmctx n_pages hint_vaddr vflags flags =
        Run.ret (none, ctx2, pmm2) →
      ctx2.mmaps = mmctx.mmaps ∧ ctx2.pgd = mmctx.pgd ∧
      ((fa.mm_get_free_pages pmm n_pages = none ∧ pmm2 = pmm) ∨
        ∃ pfn pmm1, fa.mm_get_free_pages pmm n_pages = some (pfn, pmm1) ∧
          pmm2 = fa.mm_free_pages pmm1 pfn n_pages)) := by
  have hn2 : ¬ ¬ n_pages > 0 := fun h => h hn
  refine ⟨?_, ?_, ?_⟩
  · intro hfa
    refine ⟨spinlock_release mmctx, ?_, rfl, rfl⟩
    unfold mm_alloc_pages
    simp only [hn2, if_false, hfa]
  · intro pfn pmm1 c hfa hlock hg
    have hc := get_free_vaddr_none_unchanged pf _ c n_pages hint_vaddr vflags hg
    subst hc
    unfold mm_alloc_pages
    simp only [hn2, if_false, hfa, spinlock_acquire, hlock, Bool.false_eq_true, Run.bind, hg,
      spinlock_release]
    congr
    obtain ⟨l, m, g⟩ := mmctx
    simp only at hlock
    subst hlock
    rfl
  · intro ctx2 pmm2 h
    unfold mm_alloc_pages at h
    simp only [hn2, if_false] at h
    cases hfa : fa.mm_get_free_pages pmm n_pages with
    | none =>
      rw [hfa] at h
      simp only [Run.ret.injEq, Prod.mk.injEq, true_and] at h
      obtain ⟨rfl, rfl⟩ := h
      exact ⟨rfl, rfl, Or.inl ⟨rfl, rfl⟩⟩
    | some fr =>
      obtain ⟨pfn, pmm1⟩ := fr
      rw [hfa] at h
      simp only at h
      rw [Run.bind_eq_ret] at h
      obtain ⟨c1, hc1, h⟩ := h
      rw [spinlock_acquire_eq_ret] at hc1
      obtain ⟨-, rfl⟩ := hc1
      rw [Run.bind_eq_ret] at h
      obtain ⟨⟨r2, c2⟩, hg, h⟩ := h
      cases r2 with
      | none =>
        have hc := get_free_vaddr_none_unchanged pf _ c2 n_pages hint_vaddr vflags hg
        subst hc
        simp only [Run.ret.injEq, Prod.mk.injEq, true_and] at h
        obtain ⟨rfl, rfl⟩ := h
        exact ⟨rfl, rfl, Or.inr ⟨pfn, pmm1, rfl, rfl⟩⟩
      | some v =>
        simp at h

/-- Witness of C13 on the scenario address space (lock free): with an exhausted
allocator, and with frames at hand but the exact range `0x1000` occupied,
`mm_alloc_pages` returns `NULL` and the address space is as before. -/
theorem alloc_pages_failure_atomic_witness :
    (∃ ctx2, mm_alloc_pages x86_32 fa_exhausted pmm_frame5_twice ctx_one_region_free 2 0x1000
        valloc_flags.VALLOC_DEFAULT 3 = Run.ret (none, ctx2, pmm_frame5_twice) ∧
      ctx2.mmaps = ctx_one_region_free.mmaps ∧ ctx2.pgd = ctx_one_region_free.pgd) ∧
    mm_alloc_pages x86_32 fa_from_16 pmm_frame5_twice ctx_one_region_free 2 0x1000
        valloc_flags.VALLOC_EXACT 3 =
      Run.ret (none, ctx_one_region_free, fa_from_16.mm_free_pages pmm_frame5_twice 16 2) :=
  ⟨(alloc_pages_failure_atomic x86_32 fa_exhausted pmm_frame5_twice ctx_one_region_free 2
      0x1000 valloc_flags.VALLOC_DEFAULT 3 (by decide)).1 rfl,
   (alloc_pages_failure_atomic x86_32 fa_from_16 pmm_frame5_twice ctx_one_region_free 2
      0x1000 valloc_flags.VALLOC_EXACT 3 (by decide)).2.1 16 pmm_frame5_twice
      ⟨true, [⟨0x1000, 4, 3⟩], pgd_empty⟩ rfl rfl rfl⟩

/-! ### Leaf entries written by the walker -/

theorem not_in_range_pages_step (pf : Platform) (vaddr n p : Nat)
    (h : ¬ in_range_pages pf vaddr (n + 1) p) :
    p ≠ pf.vpn vaddr ∧ ¬ in_range_pages pf (pf.wrap (vaddr + pf.MOS_PAGE_SIZE)) n p := by
  constructor
  · rintro rfl
    exact h ((in_range_pages_succ pf vaddr n _).mpr (Or.inl rfl))
  · intro h2
    exact h ((in_range_pages_succ pf vaddr n p).mpr (Or.inr h2))

/-- The pages `mm_do_map` leaves alone: every page that is not a page of the range. -/
theorem mm_do_map_outside (pf : Platform) (flags p : Nat) :
    ∀ (n : Nat) (pgd : pgd_t) (vaddr pfn : Nat), ¬ in_range_pages pf vaddr n p →
      mm_do_map pf pgd vaddr pfn n flags p = pgd p := by
  intro n
  induction n with
  | zero =>
    intro pgd vaddr pfn _
    rfl
  | succ n ih =>
    intro pgd vaddr pfn h
    obtain ⟨h1, h2⟩ := not_in_range_pages_step pf vaddr n p h
    rw [mm_do_map, ih _ _ _ h2]
    simp [pgd_set, h1]

/-- Every page of the range has a leaf entry with the given flags after `mm_do_map`. -/
theorem mm_do_map_inside (pf : Platform) (flags p : Nat) :
    ∀ (n : Nat) (pgd : pgd_t) (vaddr pfn : Nat), in_range_pages pf vaddr n p →
      ∃ e, mm_do_map pf pgd vaddr pfn n flags p = some e ∧ e.flags = flags := by
  intro n
  induction n with
  | zero =>
    rintro pgd vaddr pfn ⟨k, hk, -⟩
    omega
  | succ n ih =>
    intro pgd vaddr pfn h
    rw [mm_do_map]
    by_cases h2 : in_range_pages pf (pf.wrap (vaddr + pf.MOS_PAGE_SIZE)) n p
    · exact ih _ _ _ h2
    · rw [mm_do_map_outside pf flags p n _ _ _ h2]
      rcases (in_range_pages_succ pf vaddr n p).mp h with hp | hp
      · exact ⟨⟨pfn, flags⟩, by simp [pgd_set, hp], rfl⟩
      · exact absurd hp h2

/-- The pages `mm_do_flag` leaves alone, and what it keeps everywhere: the
frame of every leaf entry. -/
theorem mm_do_flag_effect (pf : Platform) (flags p : Nat) :
    ∀ (n : Nat) (pgd : pgd_t) (vaddr : Nat),
      (¬ in_range_pages pf vaddr n p → mm_do_flag pf pgd vaddr n flags p = pgd p) ∧
      (mm_do_flag pf pgd vaddr n flags p).map pte_t.pfn = (pgd p).map pte_t.pfn := by
  intro n
  induction n with
  | zero =>
    intro pgd vaddr
    exact ⟨fun _ => rfl, rfl⟩
  | succ n ih =>
    intro pgd vaddr
    cases hq : pgd (pf.vpn vaddr) with
    | none =>
      have hstep : mm_do_flag pf pgd vaddr (n + 1) flags =
          mm_do_flag pf pgd (pf.wrap (vaddr + pf.MOS_PAGE_SIZE)) n flags := by
        rw [mm_do_flag]
        simp only [hq]
      rw [hstep]
      obtain ⟨ih1, ih2⟩ := ih pgd (pf.wrap (vaddr + pf.MOS_PAGE_SIZE))
      exact ⟨fun h => ih1 (not_in_range_pages_step pf vaddr n p h).2, ih2⟩
    | some e =>
      have hstep : mm_do_flag pf pgd vaddr (n + 1) flags =
          mm_do_flag pf (pgd_set pgd (pf.vpn vaddr) (some ⟨e.pfn, flags⟩))
            (pf.wrap (vaddr + pf.MOS_PAGE_SIZE)) n flags := by
        rw [mm_do_flag]
        simp only [hq]
      rw [hstep]
      obtain ⟨ih1, ih2⟩ := ih (pgd_set pgd (pf.vpn vaddr) (some ⟨e.pfn, flags⟩))
        (pf.wrap (vaddr + pf.MOS_PAGE_SIZE))
      constructor
      · intro h
        obtain ⟨h1, h2⟩ := not_in_range_pages_step pf vaddr n p h
        rw [ih1 h2]
        simp [pgd_set, h1]
      · rw [ih2]
        by_cases hp : p = pf.vpn vaddr
        · subst hp
          simp [pgd_set, hq]
        · simp [pgd_set, hp]

/-- Without wrap-around, a page no address of which lies in
`[vaddr, vaddr + npages * MOS_PAGE_SIZE)` is not a page of the range. -/
theorem not_in_range_pages_of_outside (pf : Platform) (vaddr npages p : Nat)
    (hnw : vaddr + npages * pf.MOS_PAGE_SIZE ≤ 2 ^ pf.ptr_bits)
    (hout : ∀ x, x / pf.MOS_PAGE_SIZE = p →
      ¬ (vaddr ≤ x ∧ x < vaddr + npages * pf.MOS_PAGE_SIZE)) :
    ¬ in_range_pages pf vaddr npages p := by
  rintro ⟨k, hk, hp⟩
  have hP := pf.page_size_pos
  have hlt : vaddr + k * pf.MOS_PAGE_SIZE < vaddr + npages * pf.MOS_PAGE_SIZE := by
    have : k * pf.MOS_PAGE_SIZE < npages * pf.MOS_PAGE_SIZE := Nat.mul_lt_mul_of_pos_right hk hP
    omega
  apply hout (vaddr + k * pf.MOS_PAGE_SIZE)
  · unfold Platform.vpn at hp
    rw [wrap_eq_of_lt pf (lt_of_lt_of_le hlt hnw)] at hp
    exact hp
  · exact ⟨Nat.le_add_right _ _, hlt⟩

/-! ### C19 -/

/-- C19: `mm_map_pages_locked` and `mm_flag_pages_locked` touch only leaf entries
of the given range. Neither takes part in the frame state (reference counts are
neither read nor written), and after every returning call the region map and the
lock are as before and every page that is not a page of the range keeps its leaf
entry (mapping and flags); `mm_flag_pages_locked` moreover leaves the frame of
every page as it was. When the range does not wrap around, the pages that are
not pages of the range include every page no address of which lies in
`[vaddr, vaddr + npages * MOS_PAGE_SIZE)`. Both calls return when their
assertions hold (`npages > 0`, and the lock held for `mm_map_pages_locked`). -/
theorem map_and_flag_touch_only_range (pf : Platform) (ctx : mm_context_t)
    (vaddr pfn npages flags : Nat) :
    (∀ ctx2, mm_map_pages_locked pf ctx vaddr pfn npages flags = Run.ret ctx2 →
      ctx2.mmaps = ctx.mmaps ∧ ctx2.mm_lock = ctx.mm_lock ∧
      ∀ p, ¬ in_range_pages pf vaddr npages p → ctx2.pgd p = ctx.pgd p) ∧
    (∀ ctx2, mm_flag_pages_locked pf ctx vaddr npages flags = Run.ret ctx2 →
      ctx2.mmaps = ctx.mmaps ∧ ctx2.mm_lock = ctx.mm_lock ∧
      (∀ p, ¬ in_range_pages pf vaddr npages p → ctx2.pgd p = ctx.pgd p) ∧
      ∀ p, (ctx2.pgd p).map pte_t.pfn = (ctx.pgd p).map pte_t.pfn) ∧
    (ctx.mm_lock = true → 0 < npages →
      ∃ ctx2, mm_map_pages_locked pf ctx vaddr pfn npages flags = Run.ret ctx2) ∧
    (0 < npages → ∃ ctx2, mm_flag_pages_locked pf ctx vaddr npages flags = Run.ret ctx2) ∧
    (vaddr + npages * pf.MOS_PAGE_SIZE ≤ 2 ^ pf.ptr_bits →
      ∀ p, (∀ x, x / pf.MOS_PAGE_SIZE = p →
          ¬ (vaddr ≤ x ∧ x < vaddr + npages * pf.MOS_PAGE_SIZE)) →
        ¬ in_range_pages pf vaddr npages p) := by
  refine ⟨?_, ?_, ?_, ?_, fun hnw p hout => not_in_range_pages_of_outside pf vaddr npages p hnw hout⟩
  · intro ctx2 h
    unfold mm_map_pages_locked at h
    split at h
    · cases h
    · split at h
      · cases h
      · simp only [Run.ret.injEq] at h
        subst h
        exact ⟨rfl, rfl, fun p hp => mm_do_map_outside pf flags p npages _ _ _ hp⟩
  · intro ctx2 h
    unfold mm_flag_pages_locked at h
    split at h
    · cases h
    · simp only [Run.ret.injEq] at h
      subst h
      exact ⟨rfl, rfl, fun p hp => (mm_do_flag_effect pf flags p npages _ _).1 hp,
        fun p => (mm_do_flag_effect pf flags p npages _ _).2⟩
  · intro hlock hn
    have hn2 : ¬ ¬ npages > 0 := fun h => h hn
    refine ⟨⟨true, ctx.mmaps, mm_do_map pf ctx.pgd vaddr pfn npages flags⟩, ?_⟩
    simp [mm_map_pages_locked, hlock, hn2]
  · intro hn
    have hn2 : ¬ ¬ npages > 0 := fun h => h hn
    refine ⟨⟨ctx.mm_lock, ctx.mmaps, mm_do_flag pf ctx.pgd vaddr npages flags⟩, ?_⟩
    simp [mm_flag_pages_locked, hn2]

/-- Witness of C19 on the address space whose page `0x2000` is mapped to frame 5:
mapping frame 7 at `0x3000` leaves the entry of page 2 as it is, and flagging
page `0x2000` with flags 1 keeps its frame 5. -/
theorem map_and_flag_touch_only_range_witness :
    (∃ ctx2, mm_map_pages_locked x86_32 ctx_page_mapped 0x3000 7 1 3 = Run.ret ctx2 ∧
      ctx2.mmaps = ctx_page_mapped.mmaps ∧ ctx2.pgd 2 = ctx_page_mapped.pgd 2) ∧
    (∃ ctx2, mm_flag_pages_locked x86_32 ctx_page_mapped 0x2000 1 1 = Run.ret ctx2 ∧
      ctx2.mmaps = ctx_page_mapped.mmaps ∧ (ctx2.pgd 2).map pte_t.pfn = some 5) := by
  have key1 := map_and_flag_touch_only_range x86_32 ctx_page_mapped 0x3000 7 1 3
  have key2 := map_and_flag_touch_only_range x86_32 ctx_page_mapped 0x2000 7 1 1
  obtain ⟨c1, h1⟩ := key1.2.2.1 rfl (by decide)
  obtain ⟨c2, h2⟩ := key2.2.2.2.1 (by decide)
  obtain ⟨a1, -, a3⟩ := key1.1 c1 h1
  obtain ⟨b1, -, -, b4⟩ := key2.2.1 c2 h2
  refine ⟨⟨c1, h1, a1, a3 2 ?_⟩, ⟨c2, h2, b1, by rw [b4 2]; decide⟩⟩
  rintro ⟨k, hk, hp⟩
  have hk0 : k = 0 := by omega
  subst hk0
  revert hp
  decide

/-! ### C11 -/

/-- A successful search created a region with the requested page count and no
flags at some address, the requested one in exact mode, and changed nothing
else. -/
theorem get_free_vaddr_some_eq (pf : Platform) (mmctx c2 : mm_context_t)
    (n_pages base_vaddr : Nat) (vflags : valloc_flags) (i : Nat)
    (h : mm_get_free_vaddr_locked pf mmctx n_pages base_vaddr vflags = Run.ret (some i, c2)) :
    ∃ a, i = vmap_insert_pos a mmctx.mmaps ∧
      c2 = { mmctx with mmaps := vmap_insert ⟨a, n_pages, 0⟩ mmctx.mmaps } ∧
      (vflags = valloc_flags.VALLOC_EXACT → a = base_vaddr) := by
  unfold mm_get_free_vaddr_locked at h
  split at h
  · cases h
  · split at h
    · cases h
    · cases vflags with
      | VALLOC_EXACT =>
        simp only at h
        split at h
        · simp only [vmap_create, Run.ret.injEq, Prod.mk.injEq, Option.some.injEq] at h
          exact ⟨base_vaddr, h.1.symm, h.2.symm, fun _ => rfl⟩
        · simp only [Run.ret.injEq, Prod.mk.injEq] at h
          exact absurd h.1 (by simp)
      | VALLOC_DEFAULT =>
        simp only at h
        cases hscan : free_vaddr_default_scan pf n_pages base_vaddr mmctx.mmaps with
        | none =>
          rw [hscan] at h
          simp only [Run.ret.injEq, Prod.mk.injEq] at h
          exact absurd h.1 (by simp)
        | some a =>
          rw [hscan] at h
          simp only [vmap_create, Run.ret.injEq, Prod.mk.injEq, Option.some.injEq] at h
          exact ⟨a, h.1.symm, h.2.symm, fun hv => by cases hv⟩

theorem vmap_set_vmflags_insert (flags : Nat) (v : vmap_t) (l : List vmap_t) :
    vmap_set_vmflags flags (vmap_insert_pos v.vaddr l) (vmap_insert v l) =
      vmap_insert ⟨v.vaddr, v.npages, flags⟩ l := by
  induction l with
  | nil => rfl
  | cons m rest ih =>
    by_cases h : v.vaddr < m.vaddr
    · simp [vmap_insert, vmap_insert_pos, h, vmap_set_vmflags]
    · simp only [vmap_insert, vmap_insert_pos, h, if_false, vmap_set_vmflags]
      rw [ih]

/-- The state after a `mm_map_pages_to_user` that returns a region. -/
theorem mm_map_pages_to_user_some (pf : Platform) (mmctx ctx2 : mm_context_t)
    (vaddr pfn npages flags i : Nat)
    (h : mm_map_pages_to_user pf mmctx vaddr pfn npages flags = Run.ret (some i, ctx2)) :
    mmctx.mm_lock = false ∧ i = vmap_insert_pos vaddr mmctx.mmaps ∧
    ctx2 = ⟨false, vmap_insert ⟨vaddr, npages, flags⟩ mmctx.mmaps,
      mm_do_map pf mmctx.pgd vaddr pfn npages flags⟩ := by
  unfold mm_map_pages_to_user at h
  rw [Run.bind_eq_ret] at h
  obtain ⟨c1, hc1, h⟩ := h
  rw [spinlock_acquire_eq_ret] at hc1
  obtain ⟨hl, rfl⟩ := hc1
  rw [Run.bind_eq_ret] at h
  obtain ⟨⟨r2, c2⟩, hg, h⟩ := h
  cases r2 with
  | none =>
    simp only [Run.ret.injEq, Prod.mk.injEq] at h
    exact absurd h.1 (by simp)
  | some v =>
    simp only [Run.ret.injEq, Prod.mk.injEq, Option.some.injEq] at h
    obtain ⟨rfl, rfl⟩ := h
    obtain ⟨a, rfl, rfl, ha⟩ := get_free_vaddr_some_eq pf _ _ _ _ _ _ hg
    obtain rfl := ha rfl
    refine ⟨hl, rfl, ?_⟩
    have h1 := vmap_set_vmflags_insert flags ⟨a, npages, 0⟩ mmctx.mmaps
    have h2 := vmap_at_insert ⟨a, npages, flags⟩ mmctx.mmaps
    simp only at h1 h2
    simp only [spinlock_release, h1, h2]

/-- The state after a `mm_alloc_pages` that returns a region. -/
theorem mm_alloc_pages_some (pf : Platform) (fa : frame_allocator) (pmm pmm2 : pmm_t)
    (mmctx ctx2 : mm_context_t) (n_pages hint_vaddr : Nat) (vflags : valloc_flags)
    (flags i : Nat)
    (h : mm_alloc_pages pf fa pmm mmctx n_pages hint_vaddr vflags flags =
      Run.ret (some i, ctx2, pmm2)) :
    ∃ a pfn, fa.mm_get_free_pages pmm n_pages = some (pfn, pmm2) ∧
      mmctx.mm_lock = false ∧ i = vmap_insert_pos a mmctx.mmaps ∧
      ctx2 = ⟨false, vmap_insert ⟨a, n_pages, flags⟩ mmctx.mmaps,
        mm_do_map pf mmctx.pgd a pfn n_pages flags⟩ := by
  unfold mm_alloc_pages at h
  split at h
  · cases h
  · split at h
    · simp only [Run.ret.injEq, Prod.mk.injEq] at h
      exact absurd h.1 (by simp)
    · rename_i pfn pmm1 hfa
      rw [Run.bind_eq_ret] at h
      obtain ⟨c1, hc1, h⟩ := h
      rw [spinlock_acquire_eq_ret] at hc1
      obtain ⟨hl, rfl⟩ := hc1
      rw [Run.bind_eq_ret] at h
      obtain ⟨⟨r2, c2⟩, hg, h⟩ := h
      cases r2 with
      | none =>
        simp only [Run.ret.injEq, Prod.mk.injEq] at h
        exact absurd h.1 (by simp)
      | some v =>
        simp only [Run.ret.injEq, Prod.mk.injEq, Option.some.injEq] at h
        obtain ⟨rfl, rfl, rfl⟩ := h
        obtain ⟨a, rfl, rfl, -⟩ := get_free_vaddr_some_eq pf _ _ _ _ _ _ hg
        refine ⟨a, pfn, hfa, hl, rfl, ?_⟩
        have h1 := vmap_set_vmflags_insert flags ⟨a, n_pages, 0⟩ mmctx.mmaps
        have h2 := vmap_at_insert ⟨a, n_pages, flags⟩ mmctx.mmaps
        simp only at h1 h2
        simp only [spinlock_release, h1, h2]

/-- What a returning `mm_unmap_pages` did. -/
theorem mm_unmap_pages_eq_ret (pf : Platform) (pmm pmm2 : pmm_t) (ctx ctx2 : mm_context_t)
    (vaddr npages : Nat) :
    mm_unmap_pages pf pmm ctx vaddr npages = Run.ret (ctx2, pmm2) ↔
      0 < npages ∧ ctx.mm_lock = false ∧
      ∃ g, mm_do_unmap pf ctx.pgd pmm vaddr npages true = Run.ret (g, pmm2) ∧
        ctx2 = ⟨false, ctx.mmaps, g⟩ := by
  unfold mm_unmap_pages
  by_cases hn : 0 < npages
  · have hn2 : ¬ ¬ npages > 0 := fun h => h hn
    simp only [hn, not_true_eq_false, if_false, true_and]
    constructor
    · intro h
      rw [Run.bind_eq_ret] at h
      obtain ⟨c1, hc1, h⟩ := h
      rw [spinlock_acquire_eq_ret] at hc1
      obtain ⟨hl, rfl⟩ := hc1
      rw [Run.bind_eq_ret] at h
      obtain ⟨⟨g, q⟩, hu, h⟩ := h
      simp only [spinlock_release, Run.ret.injEq, Prod.mk.injEq] at h
      obtain ⟨rfl, rfl⟩ := h
      exact ⟨hl, g, hu, rfl⟩
    · rintro ⟨hl, g, hu, rfl⟩
      rw [Run.bind_eq_ret]
      refine ⟨{ ctx with mm_lock := true }, (spinlock_acquire_eq_ret _ _).mpr ⟨hl, rfl⟩, ?_⟩
      rw [Run.bind_eq_ret]
      exact ⟨(g, pmm2), hu, rfl⟩
  · have hn2 : ¬ npages > 0 := hn
    simp [hn2, hn]

/-! ### Unmapping a range -/

/-- The page table after a returning `mm_do_unmap`: the pages of the range have
no leaf entry, every other page has the entry it had. -/
theorem mm_do_unmap_pgd (pf : Platform) (p : Nat) (do_unref : Bool) :
    ∀ (n : Nat) (pgd : pgd_t) (pmm : pmm_t) (vaddr : Nat) (g : pgd_t) (pmm2 : pmm_t),
      mm_do_unmap pf pgd pmm vaddr n do_unref = Run.ret (g, pmm2) →
      (in_range_pages pf vaddr n p → g p = none) ∧
      (¬ in_range_pages pf vaddr n p → g p = pgd p) := by
  intro n
  induction n with
  | zero =>
    intro pgd pmm vaddr g pmm2 h
    simp only [mm_do_unmap, Run.ret.injEq, Prod.mk.injEq] at h
    obtain ⟨rfl, -⟩ := h
    refine ⟨?_, fun _ => rfl⟩
    rintro ⟨k, hk, -⟩
    omega
  | succ n ih =>
    intro pgd pmm vaddr g pmm2 h
    have key : ∀ (pgd1 : pgd_t) (pmm1 : pmm_t), pgd1 (pf.vpn vaddr) = none →
        (∀ q, q ≠ pf.vpn vaddr → pgd1 q = pgd q) →
        mm_do_unmap pf pgd1 pmm1 (pf.wrap (vaddr + pf.MOS_PAGE_SIZE)) n do_unref =
          Run.ret (g, pmm2) →
        (in_range_pages pf vaddr (n + 1) p → g p = none) ∧
        (¬ in_range_pages pf vaddr (n + 1) p → g p = pgd p) := by
      intro pgd1 pmm1 hnone hother hrec
      obtain ⟨ih1, ih2⟩ := ih pgd1 pmm1 _ g pmm2 hrec
      constructor
      · intro hin
        by_cases hin2 : in_range_pages pf (pf.wrap (vaddr + pf.MOS_PAGE_SIZE)) n p
        · exact ih1 hin2
        · rcases (in_range_pages_succ pf vaddr n p).mp hin with hp | hp
          · rw [ih2 hin2, ← hp, hnone]
          · exact absurd hp hin2
      · intro hout
        obtain ⟨h1, h2⟩ := not_in_range_pages_step pf vaddr n p hout
        rw [ih2 h2, hother p h1]
    rw [mm_do_unmap] at h
    cases hq : pgd (pf.vpn vaddr) with
    | none =>
      simp only [hq] at h
      exact key pgd pmm hq (fun _ _ => rfl) h
    | some e =>
      simp only [hq] at h
      cases do_unref with
      | false =>
        simp only [Bool.false_eq_true, if_false] at h
        exact key _ pmm (by simp [pgd_set]) (fun q hq2 => by simp [pgd_set, hq2]) h
      | true =>
        simp only [if_true] at h
        cases hu : pmm_unref_one pmm e.pfn with
        | ret pmm1 =>
          simp only [hu] at h
          exact key _ pmm1 (by simp [pgd_set]) (fun q hq2 => by simp [pgd_set, hq2]) h
        | assert_fail =>
          simp only [hu] at h
          cases h
        | spin =>
          simp only [hu] at h
          cases h

/-- The pages of a range that does not wrap around are pairwise distinct. -/
theorem pages_distinct_of_no_wrap (pf : Platform) (vaddr n : Nat)
    (hnw : vaddr + n * pf.MOS_PAGE_SIZE ≤ 2 ^ pf.ptr_bits) (j k : Nat) (hj : j < n) (hk : k < n)
    (h : pf.vpn (vaddr + j * pf.MOS_PAGE_SIZE) = pf.vpn (vaddr + k * pf.MOS_PAGE_SIZE)) :
    j = k := by
  have hP := pf.page_size_pos
  have hj2 : j * pf.MOS_PAGE_SIZE < n * pf.MOS_PAGE_SIZE := Nat.mul_lt_mul_of_pos_right hj hP
  have hk2 : k * pf.MOS_PAGE_SIZE < n * pf.MOS_PAGE_SIZE := Nat.mul_lt_mul_of_pos_right hk hP
  unfold Platform.vpn at h
  rw [wrap_eq_of_lt pf (show vaddr + j * pf.MOS_PAGE_SIZE < 2 ^ pf.ptr_bits by omega),
    wrap_eq_of_lt pf (show vaddr + k * pf.MOS_PAGE_SIZE < 2 ^ pf.ptr_bits by omega),
    Nat.add_mul_div_right _ _ hP, Nat.add_mul_div_right _ _ hP] at h
  omega

theorem pages_distinct_step (pf : Platform) (vaddr n : Nat)
    (hd : ∀ j k, j < n + 1 → k < n + 1 →
      pf.vpn (vaddr + j * pf.MOS_PAGE_SIZE) = pf.vpn (vaddr + k * pf.MOS_PAGE_SIZE) → j = k) :
    (¬ in_range_pages pf (pf.wrap (vaddr + pf.MOS_PAGE_SIZE)) n (pf.vpn vaddr)) ∧
    (∀ j k, j < n → k < n →
      pf.vpn (pf.wrap (vaddr + pf.MOS_PAGE_SIZE) + j * pf.MOS_PAGE_SIZE) =
        pf.vpn (pf.wrap (vaddr + pf.MOS_PAGE_SIZE) + k * pf.MOS_PAGE_SIZE) → j = k) := by
  constructor
  · rintro ⟨k, hk, hp⟩
    rw [vpn_wrap_step] at hp
    have := hd (k + 1) 0 (by omega) (by omega) (by simpa using hp)
    omega
  · intro j k hj hk h
    rw [vpn_wrap_step, vpn_wrap_step] at h
    have := hd (j + 1) (k + 1) (by omega) (by omega) h
    omega

/-- On a range of pairwise distinct pages, `mm_do_map` gives page `k` of the
range the frame `pfn + k`. -/
theorem mm_do_map_at (pf : Platform) (flags : Nat) :
    ∀ (n : Nat) (pgd : pgd_t) (vaddr pfn : Nat),
      (∀ j k, j < n → k < n →
        pf.vpn (vaddr + j * pf.MOS_PAGE_SIZE) = pf.vpn (vaddr + k * pf.MOS_PAGE_SIZE) → j = k) →
      ∀ k, k < n → mm_do_map pf pgd vaddr pfn n flags (pf.vpn (vaddr + k * pf.MOS_PAGE_SIZE)) =
        some ⟨pfn + k, flags⟩ := by
  intro n
  induction n with
  | zero =>
    intro pgd vaddr pfn _ k hk
    omega
  | succ n ih =>
    intro pgd vaddr pfn hd k hk
    obtain ⟨hd1, hd2⟩ := pages_distinct_step pf vaddr n hd
    rw [mm_do_map]
    cases k with
    | zero =>
      simp only [Nat.zero_mul, Nat.add_zero]
      rw [mm_do_map_outside pf flags _ n _ _ _ hd1]
      simp [pgd_set]
    | succ j =>
      rw [← vpn_wrap_step, ih _ _ _ hd2 j (by omega)]
      simp only [Option.some.injEq, pte_t.mk.injEq, and_true]
      omega

/-- Unmapping a range of pairwise distinct pages whose page `k` is mapped to
frame `pfn + k`: the walk returns exactly when each of these frames holds a
reference, and then each of them has one reference less and no other frame's
count changed. -/
theorem mm_do_unmap_refcount (pf : Platform) :
    ∀ (n : Nat) (pgd : pgd_t) (pmm : pmm_t) (vaddr pfn : Nat),
      (∀ j k, j < n → k < n →
        pf.vpn (vaddr + j * pf.MOS_PAGE_SIZE) = pf.vpn (vaddr + k * pf.MOS_PAGE_SIZE) → j = k) →
      (∀ k, k < n →
        (pgd (pf.vpn (vaddr + k * pf.MOS_PAGE_SIZE))).map pte_t.pfn = some (pfn + k)) →
      (∀ g pmm2, mm_do_unmap pf pgd pmm vaddr n true = Run.ret (g, pmm2) →
        (∀ k, k < n → 0 < pmm.refcount (pfn + k)) ∧
        ∀ f, pmm2.refcount f + (if pfn ≤ f ∧ f < pfn + n then 1 else 0) = pmm.refcount f) ∧
      ((∀ k, k < n → 0 < pmm.refcount (pfn + k)) →
        ∃ g pmm2, mm_do_unmap pf pgd pmm vaddr n true = Run.ret (g, pmm2)) := by
  intro n
  induction n with
  | zero =>
    intro pgd pmm vaddr pfn _ _
    refine ⟨?_, fun _ => ⟨pgd, pmm, rfl⟩⟩
    intro g pmm2 h
    simp only [mm_do_unmap, Run.ret.injEq, Prod.mk.injEq] at h
    obtain ⟨-, rfl⟩ := h
    refine ⟨fun k hk => by omega, fun f => ?_⟩
    have : ¬ (pfn ≤ f ∧ f < pfn + 0) := by omega
    simp [this]
  | succ n ih =>
    intro pgd pmm vaddr pfn hd hent
    obtain ⟨hd1, hd2⟩ := pages_distinct_step pf vaddr n hd
    have h0 := hent 0 (by omega)
    simp only [Nat.zero_mul, Nat.add_zero] at h0
    cases hq : pgd (pf.vpn vaddr) with
    | none =>
      rw [hq] at h0
      cases h0
    | some e =>
      rw [hq] at h0
      simp only [Option.map_some', Option.some.injEq] at h0
      have hent2 : ∀ (pmm1 : pmm_t) k, k < n →
          (pgd_set pgd (pf.vpn vaddr) none
            (pf.vpn (pf.wrap (vaddr + pf.MOS_PAGE_SIZE) + k * pf.MOS_PAGE_SIZE))).map pte_t.pfn =
            some (pfn + 1 + k) := by
        intro _ k hk
        have hne : pf.vpn (pf.wrap (vaddr + pf.MOS_PAGE_SIZE) + k * pf.MOS_PAGE_SIZE) ≠
            pf.vpn vaddr := fun hp => hd1 ⟨k, hk, hp⟩
        simp only [pgd_set, hne, if_false]
        rw [vpn_wrap_step, hent (k + 1) (by omega)]
        congr 1
        omega
      have hstep : mm_do_unmap pf pgd pmm vaddr (n + 1) true =
          match pmm_unref_one pmm pfn with
          | Run.ret pmm1 => mm_do_unmap pf (pgd_set pgd (pf.vpn vaddr) none) pmm1
              (pf.wrap (vaddr + pf.MOS_PAGE_SIZE)) n true
          | Run.assert_fail => Run.assert_fail
          | Run.spin => Run.spin := by
        rw [mm_do_unmap]
        simp only [hq, if_true, h0]
      rw [hstep]
      by_cases hz : pmm.refcount pfn = 0
      · have hu : pmm_unref_one pmm pfn = Run.assert_fail := by simp [pmm_unref_one, hz]
        rw [hu]
        constructor
        · intro g pmm2 h
          cases h
        · intro hall
          have := hall 0 (by omega)
          simp only [Nat.add_zero] at this
          omega
      · have hu : pmm_unref_one pmm pfn =
            Run.ret ⟨fun f => if f = pfn then pmm.refcount f - 1 else pmm.refcount f⟩ := by
          simp [pmm_unref_one, hz]
        rw [hu]
        obtain ⟨ihA, ihB⟩ := ih (pgd_set pgd (pf.vpn vaddr) none)
          ⟨fun f => if f = pfn then pmm.refcount f - 1 else pmm.refcount f⟩
          (pf.wrap (vaddr + pf.MOS_PAGE_SIZE)) (pfn + 1) hd2 (hent2 pmm)
        constructor
        · intro g pmm2 h
          obtain ⟨hpos, hcnt⟩ := ihA g pmm2 h
          constructor
          · intro k hk
            cases k with
            | zero =>
              simp only [Nat.add_zero]
              omega
            | succ j =>
              have := hpos j (by omega)
              have hne : ¬ pfn + 1 + j = pfn := by omega
              simp only [hne, if_false] at this
              have he : pfn + (j + 1) = pfn + 1 + j := by omega
              rw [he]
              exact this
          · intro f
            have := hcnt f
            simp only at this
            by_cases hf : f = pfn
            · subst hf
              have c1 : ¬ (f + 1 ≤ f ∧ f < f + 1 + n) := by omega
              have c2 : f ≤ f ∧ f < f + (n + 1) := by omega
              simp only [c1, if_false, if_true, Nat.add_zero] at this
              simp only [c2, and_self, if_true]
              omega
            · simp only [hf, if_false] at this
              by_cases c1 : pfn + 1 ≤ f ∧ f < pfn + 1 + n
              · have c2 : pfn ≤ f ∧ f < pfn + (n + 1) := by omega
                simp only [c1, and_self, if_true] at this
                simp only [c2, and_self, if_true]
                exact this
              · have c2 : ¬ (pfn ≤ f ∧ f < pfn + (n + 1)) := by omega
                simp only [c1, if_false] at this
                simp only [c2, if_false]
                exact this
        · intro hall
          apply ihB
          intro k hk
          have := hall (k + 1) (by omega)
          have hne : ¬ pfn + 1 + k = pfn := by omega
          simp only [hne, if_false]
          have he : pfn + (k + 1) = pfn + 1 + k := by omega
          rw [← he]
          exact this

/-! ### C14 -/

/-- Unmapping the range that was just mapped at `a` with the frames `pfn ..`:
the region stays in the list, so the lookup is still true on the range; the
leaf entries of the range are gone; each frame `pfn + k` lost one reference. -/
theorem unmap_after_map (pf : Platform) (pmm pmm3 : pmm_t) (mmctx ctx3 : mm_context_t)
    (a pfn npages flags : Nat) (hnw : a + npages * pf.MOS_PAGE_SIZE < 2 ^ pf.ptr_bits)
    (hun : mm_unmap_pages pf pmm
      ⟨false, vmap_insert ⟨a, npages, flags⟩ mmctx.mmaps,
        mm_do_map pf mmctx.pgd a pfn npages flags⟩ a npages = Run.ret (ctx3, pmm3)) :
    ctx3.mmaps = vmap_insert ⟨a, npages, flags⟩ mmctx.mmaps ∧
    (∀ x, a ≤ x → x < a + npages * pf.MOS_PAGE_SIZE →
      mm_get_is_mapped_locked pf { ctx3 with mm_lock := true } x = Run.ret true) ∧
    (∀ p, in_range_pages pf a npages p → ctx3.pgd p = none) ∧
    (∀ p, ¬ in_range_pages pf a npages p → ctx3.pgd p = mmctx.pgd p) ∧
    (∀ k, k < npages → 0 < pmm.refcount (pfn + k)) ∧
    (∀ f, pmm3.refcount f + (if pfn ≤ f ∧ f < pfn + npages then 1 else 0) = pmm.refcount f) := by
  rw [mm_unmap_pages_eq_ret] at hun
  obtain ⟨-, -, g, hu, rfl⟩ := hun
  simp only at hu
  have hd := pages_distinct_of_no_wrap pf a npages (le_of_lt hnw)
  have hent : ∀ k, k < npages →
      (mm_do_map pf mmctx.pgd a pfn npages flags
        (pf.vpn (a + k * pf.MOS_PAGE_SIZE))).map pte_t.pfn = some (pfn + k) := by
    intro k hk
    rw [mm_do_map_at pf flags npages mmctx.pgd a pfn hd k hk]
    rfl
  obtain ⟨hpos, hcnt⟩ := (mm_do_unmap_refcount pf npages _ pmm a pfn hd hent).1 g pmm3 hu
  refine ⟨rfl, ?_, ?_, ?_, hpos, hcnt⟩
  · intro x hx1 hx2
    have hscan : is_mapped_scan pf x (vmap_insert ⟨a, npages, flags⟩ mmctx.mmaps) = true := by
      rw [is_mapped_scan_eq_true_iff]
      refine ⟨⟨a, npages, flags⟩, (mem_vmap_insert _ _ _).mpr (Or.inl rfl), hx1, ?_⟩
      rw [vmap_end_eq_of_lt pf (by simpa [vmap_t.true_end] using hnw)]
      exact hx2
    simp [mm_get_is_mapped_locked, hscan]
  · intro p hp
    exact (mm_do_unmap_pgd pf p true npages _ pmm a g pmm3 hu).1 hp
  · intro p hp
    have hg := (mm_do_unmap_pgd pf p true npages _ pmm a g pmm3 hu).2 hp
    rw [mm_do_map_outside pf flags p npages _ _ _ hp] at hg
    exact hg

/-- The round trip C14 fails: in the empty address space one page is mapped at
`0x2000` to frame 5, whose reference count is 1, and the same range is unmapped
right away. The region is still in the list, so `mm_get_is_mapped_locked`
returns true for `0x2000`, and frame 5 is left with no reference instead of the
one it had before the mapping. -/
theorem map_unmap_keeps_region_drops_reference :
    ∃ ctx2 ctx3 pmm3,
      mm_map_pages_to_user x86_32 ctx_empty 0x2000 5 1 3 = Run.ret (some 0, ctx2) ∧
      mm_unmap_pages x86_32 pmm_frame5_once ctx2 0x2000 1 = Run.ret (ctx3, pmm3) ∧
      mm_get_is_mapped_locked x86_32 { ctx3 with mm_lock := true } 0x2000 = Run.ret true ∧
      pmm_frame5_once.refcount 5 = 1 ∧ pmm3.refcount 5 = 0 :=
  ⟨_, _, _, rfl, rfl, rfl, by decide, by decide⟩

/-- C14, as the code has it: `npages >= 1` pages are mapped at a range that does
not wrap around (a returning `mm_map_pages_to_user` at `vaddr`, or a returning
`mm_alloc_pages` at the start address of the region it yields) and
`mm_unmap_pages` is applied to the same range right away. The unmapping returns
exactly when every frame of the mapping holds at least one reference, and after
it: the region created by the mapping is still in the region list, so
`mm_get_is_mapped_locked` (called with the lock held) returns true for every
address of the range; no page of the range has a leaf entry, and every other
page has the leaf entry it had before the mapping; the reference count of each
frame of the mapping is lower by one than before the unmapping (the mapping
itself changes no reference count), and no other frame's count changed. -/
theorem map_unmap_round_trip (pf : Platform) (fa : frame_allocator) (pmm : pmm_t)
    (mmctx : mm_context_t) (npages flags : Nat) (hn : 1 ≤ npages) :
    (∀ vaddr pfn i ctx2, vaddr + npages * pf.MOS_PAGE_SIZE < 2 ^ pf.ptr_bits →
      mm_map_pages_to_user pf mmctx vaddr pfn npages flags = Run.ret (some i, ctx2) →
      ((∃ ctx3 pmm3, mm_unmap_pages pf pmm ctx2 vaddr npages = Run.ret (ctx3, pmm3)) ↔
        ∀ k, k < npages → 0 < pmm.refcount (pfn + k)) ∧
      ∀ ctx3 pmm3, mm_unmap_pages pf pmm ctx2 vaddr npages = Run.ret (ctx3, pmm3) →
        ctx3.mmaps = ctx2.mmaps ∧ vmap_at ctx3.mmaps i = ⟨vaddr, npages, flags⟩ ∧
        (∀ x, vaddr ≤ x → x < vaddr + npages * pf.MOS_PAGE_SIZE →
          mm_get_is_mapped_locked pf { ctx3 with mm_lock := true } x = Run.ret true) ∧
        (∀ p, in_range_pages pf vaddr npages p → ctx3.pgd p = none) ∧
        (∀ p, ¬ in_range_pages pf vaddr npages p → ctx3.pgd p = mmctx.pgd p) ∧
        (∀ f, pmm3.refcount f + (if pfn ≤ f ∧ f < pfn + npages then 1 else 0) =
          pmm.refcount f)) ∧
    (∀ hint vflags i ctx2 pmm2,
      mm_alloc_pages pf fa pmm mmctx npages hint vflags flags = Run.ret (some i, ctx2, pmm2) →
      (vmap_at ctx2.mmaps i).vaddr + npages * pf.MOS_PAGE_SIZE < 2 ^ pf.ptr_bits →
      ∃ pfn, fa.mm_get_free_pages pmm npages = some (pfn, pmm2) ∧
        ((∃ ctx3 pmm3, mm_unmap_pages pf pmm2 ctx2 (vmap_at ctx2.mmaps i).vaddr npages =
            Run.ret (ctx3, pmm3)) ↔
          ∀ k, k < npages → 0 < pmm2.refcount (pfn + k)) ∧
        ∀ ctx3 pmm3, mm_unmap_pages pf pmm2 ctx2 (vmap_at ctx2.mmaps i).vaddr npages =
            Run.ret (ctx3, pmm3) →
          ctx3.mmaps = ctx2.mmaps ∧
          (∀ x, (vmap_at ctx2.mmaps i).vaddr ≤ x →
            x < (vmap_at ctx2.mmaps i).vaddr + npages * pf.MOS_PAGE_SIZE →
            mm_get_is_mapped_locked pf { ctx3 with mm_lock := true } x = Run.ret true) ∧
          (∀ p, in_range_pages pf (vmap_at ctx2.mmaps i).vaddr npages p → ctx3.pgd p = none) ∧
          (∀ p, ¬ in_range_pages pf (vmap_at ctx2.mmaps i).vaddr npages p →
            ctx3.pgd p = mmctx.pgd p) ∧
          (∀ f, pmm3.refcount f + (if pfn ≤ f ∧ f < pfn + npages then 1 else 0) =
            pmm2.refcount f)) := by
  have hret : ∀ (q : pmm_t) (a pfn : Nat), a + npages * pf.MOS_PAGE_SIZE < 2 ^ pf.ptr_bits →
      (∀ k, k < npages → 0 < q.refcount (pfn + k)) →
      ∃ ctx3 pmm3, mm_unmap_pages pf q
        ⟨false, vmap_insert ⟨a, npages, flags⟩ mmctx.mmaps,
          mm_do_map pf mmctx.pgd a pfn npages flags⟩ a npages = Run.ret (ctx3, pmm3) := by
    intro q a pfn hnw hpos
    have hd := pages_distinct_of_no_wrap pf a npages (le_of_lt hnw)
    have hent : ∀ k, k < npages →
        (mm_do_map pf mmctx.pgd a pfn npages flags
          (pf.vpn (a + k * pf.MOS_PAGE_SIZE))).map pte_t.pfn = some (pfn + k) := by
      intro k hk
      rw [mm_do_map_at pf flags npages mmctx.pgd a pfn hd k hk]
      rfl
    obtain ⟨g, pmm3, hu⟩ := (mm_do_unmap_refcount pf npages _ q a pfn hd hent).2 hpos
    exact ⟨_, pmm3, (mm_unmap_pages_eq_ret pf q pmm3 _ _ a npages).mpr
      ⟨by omega, rfl, g, hu, rfl⟩⟩
  constructor
  · intro vaddr pfn i ctx2 hnw hmap
    obtain ⟨-, rfl, rfl⟩ := mm_map_pages_to_user_some pf mmctx ctx2 vaddr pfn npages flags i hmap
    constructor
    · constructor
      · rintro ⟨ctx3, pmm3, hun⟩
        exact (unmap_after_map pf pmm pmm3 mmctx ctx3 vaddr pfn npages flags hnw hun).2.2.2.2.1
      · exact hret pmm vaddr pfn hnw
    · intro ctx3 pmm3 hun
      obtain ⟨h1, h2, h3, h4, -, h6⟩ :=
        unmap_after_map pf pmm pmm3 mmctx ctx3 vaddr pfn npages flags hnw hun
      refine ⟨h1, ?_, h2, h3, h4, h6⟩
      rw [h1]
      exact vmap_at_insert ⟨vaddr, npages, flags⟩ mmctx.mmaps
  · intro hint vflags i ctx2 pmm2 hmap hnw
    obtain ⟨a, pfn, hfa, -, rfl, rfl⟩ :=
      mm_alloc_pages_some pf fa pmm pmm2 mmctx ctx2 npages hint vflags flags i hmap
    have hat : vmap_at (vmap_insert ⟨a, npages, flags⟩ mmctx.mmaps)
        (vmap_insert_pos a mmctx.mmaps) = ⟨a, npages, flags⟩ :=
      vmap_at_insert ⟨a, npages, flags⟩ mmctx.mmaps
    simp only [hat] at hnw ⊢
    refine ⟨pfn, hfa, ⟨?_, hret pmm2 a pfn hnw⟩, ?_⟩
    · rintro ⟨ctx3, pmm3, hun⟩
      exact (unmap_after_map pf pmm2 pmm3 mmctx ctx3 a pfn npages flags hnw hun).2.2.2.2.1
    · intro ctx3 pmm3 hun
      obtain ⟨h1, h2, h3, h4, -, h6⟩ :=
        unmap_after_map pf pmm2 pmm3 mmctx ctx3 a pfn npages flags hnw hun
      exact ⟨h1, h2, h3, h4, h6⟩

/-- Witness of C14: one page mapped at `0x2000` to frame 5 in the empty address
space and unmapped right away, frame 5 holding two references before. -/
theorem map_unmap_round_trip_witness :
    1 ≤ 1 ∧
    mm_map_pages_to_user x86_32 ctx_empty 0x2000 5 1 3 =
      Run.ret (some 0, ⟨false, [⟨0x2000, 1, 3⟩], pgd_set pgd_empty 2 (some ⟨5, 3⟩)⟩) ∧
    ∃ ctx3 pmm3,
      mm_unmap_pages x86_32 pmm_frame5_twice
        ⟨false, [⟨0x2000, 1, 3⟩], pgd_set pgd_empty 2 (some ⟨5, 3⟩)⟩ 0x2000 1 =
        Run.ret (ctx3, pmm3) ∧
      ctx3.mmaps = [⟨0x2000, 1, 3⟩] ∧ pmm3.refcount 5 + 1 = 2 :=
  have key := (map_unmap_round_trip x86_32 fa_from_16 pmm_frame5_twice ctx_empty 1 3
    (by decide)).1 0x2000 5 0 ⟨false, [⟨0x2000, 1, 3⟩], pgd_set pgd_empty 2 (some ⟨5, 3⟩)⟩
    (by decide) rfl
  have hex := key.1.mpr (fun k hk => by
    have hk0 : k = 0 := by omega
    subst hk0
    decide)
  ⟨by decide, rfl, hex.elim fun ctx3 h3 => h3.elim fun pmm3 hun =>
    ⟨ctx3, pmm3, hun, (key.2 ctx3 pmm3 hun).1, by
      have := (key.2 ctx3 pmm3 hun).2.2.2.2.2 5
      simpa [pmm_frame5_twice] using this⟩⟩

/-! ### C16 -/

theorem coverage_after_map (pf : Platform) (ctx : mm_context_t) (a pfn n flags : Nat)
    (hcov : coverage pf ctx) :
    coverage pf ⟨false, vmap_insert ⟨a, n, flags⟩ ctx.mmaps, mm_do_map pf ctx.pgd a pfn n flags⟩ := by
  intro p hp
  by_cases hin : in_range_pages pf a n p
  · exact ⟨⟨a, n, flags⟩, (mem_vmap_insert _ _ _).mpr (Or.inl rfl), hin⟩
  · simp only [mm_do_map_outside pf flags p n _ _ _ hin] at hp
    obtain ⟨r, hr, hr2⟩ := hcov p hp
    exact ⟨r, (mem_vmap_insert _ _ _).mpr (Or.inr hr), hr2⟩

theorem coverage_of_same (pf : Platform) (ctx ctx2 : mm_context_t) (hcov : coverage pf ctx)
    (hm : ctx2.mmaps = ctx.mmaps) (hp : ∀ p, ctx2.pgd p = ctx.pgd p ∨ ctx2.pgd p = none) :
    coverage pf ctx2 := by
  intro p hne
  rcases hp p with h | h
  · rw [h] at hne
    obtain ⟨r, hr, hr2⟩ := hcov p hne
    exact ⟨r, hm ▸ hr, hr2⟩
  · exact absurd h hne

/-- Every operation keeps the coverage invariant, provided the pages that
`mm_map_pages` and `mm_replace_page_locked` are told to write are pages of
regions of the address space. -/
theorem mm_apply_keeps_coverage (pf : Platform) (fa : frame_allocator)
    (s s2 : mm_context_t × pmm_t) (op : mm_op) (hcov : coverage pf s.1)
    (hop : op_target_covered pf s.1 op) (h : mm_apply pf fa s op = Run.ret s2) :
    coverage pf s2.1 := by
  obtain ⟨ctx, pmm⟩ := s
  obtain ⟨ctx2, pmm2⟩ := s2
  simp only at hcov hop ⊢
  cases op with
  | alloc_pages n_pages hint_vaddr vflags flags =>
    simp only [mm_apply] at h
    rw [Run.bind_eq_ret] at h
    obtain ⟨⟨r, c, q⟩, ha, h⟩ := h
    simp only [Run.ret.injEq, Prod.mk.injEq] at h
    obtain ⟨rfl, rfl⟩ := h
    cases r with
    | some i =>
      obtain ⟨a, pfn, -, -, -, rfl⟩ := mm_alloc_pages_some pf fa pmm _ ctx _ _ _ _ _ i ha
      exact coverage_after_map pf ctx a pfn n_pages flags hcov
    | none =>
      unfold mm_alloc_pages at ha
      split at ha
      · cases ha
      · split at ha
        · simp only [Run.ret.injEq, Prod.mk.injEq] at ha
          obtain ⟨-, rfl, -⟩ := ha
          exact coverage_of_same pf ctx _ hcov rfl (fun p => Or.inl rfl)
        · rw [Run.bind_eq_ret] at ha
          obtain ⟨c1, hc1, ha⟩ := ha
          rw [spinlock_acquire_eq_ret] at hc1
          obtain ⟨-, rfl⟩ := hc1
          rw [Run.bind_eq_ret] at ha
          obtain ⟨⟨r2, c2⟩, hg, ha⟩ := ha
          cases r2 with
          | none =>
            simp only [Run.ret.injEq, Prod.mk.injEq] at ha
            obtain ⟨-, rfl, -⟩ := ha
            obtain rfl := get_free_vaddr_none_unchanged pf _ _ _ _ _ hg
            exact coverage_of_same pf ctx _ hcov rfl (fun p => Or.inl rfl)
          | some v =>
            simp only [Run.ret.injEq, Prod.mk.injEq] at ha
            exact absurd ha.1 (by simp)
  | map_pages vaddr pfn npages flags =>
    simp only [mm_apply] at h
    rw [Run.bind_eq_ret] at h
    obtain ⟨c, hm, h⟩ := h
    simp only [Run.ret.injEq, Prod.mk.injEq] at h
    obtain ⟨rfl, rfl⟩ := h
    rw [mm_map_pages_eq_ret] at hm
    obtain ⟨-, -, rfl⟩ := hm
    intro p hp
    by_cases hin : in_range_pages pf vaddr npages p
    · exact hop p hin
    · simp only [mm_do_map_outside pf flags p npages _ _ _ hin] at hp
      exact hcov p hp
  | map_pages_to_user vaddr pfn npages flags =>
    simp only [mm_apply] at h
    rw [Run.bind_eq_ret] at h
    obtain ⟨⟨r, c⟩, hm, h⟩ := h
    simp only [Run.ret.injEq, Prod.mk.injEq] at h
    obtain ⟨rfl, rfl⟩ := h
    cases r with
    | some i =>
      obtain ⟨-, -, rfl⟩ := mm_map_pages_to_user_some pf ctx _ vaddr pfn npages flags i hm
      exact coverage_after_map pf ctx vaddr pfn npages flags hcov
    | none =>
      unfold mm_map_pages_to_user at hm
      rw [Run.bind_eq_ret] at hm
      obtain ⟨c1, hc1, hm⟩ := hm
      rw [spinlock_acquire_eq_ret] at hc1
      obtain ⟨-, rfl⟩ := hc1
      rw [Run.bind_eq_ret] at hm
      obtain ⟨⟨r2, c2⟩, hg, hm⟩ := hm
      cases r2 with
      | none =>
        simp only [Run.ret.injEq, Prod.mk.injEq] at hm
        obtain ⟨-, rfl⟩ := hm
        obtain rfl := get_free_vaddr_none_unchanged pf _ _ _ _ _ hg
        exact coverage_of_same pf ctx _ hcov rfl (fun p => Or.inl rfl)
      | some v =>
        simp only [Run.ret.injEq, Prod.mk.injEq] at hm
        exact absurd hm.1 (by simp)
  | unmap_pages vaddr npages =>
    simp only [mm_apply] at h
    rw [mm_unmap_pages_eq_ret] at h
    obtain ⟨-, -, g, hu, rfl⟩ := h
    refine coverage_of_same pf ctx _ hcov rfl ?_
    intro p
    by_cases hin : in_range_pages pf vaddr npages p
    · exact Or.inr ((mm_do_unmap_pgd pf p true npages _ _ _ _ _ hu).1 hin)
    · exact Or.inl ((mm_do_unmap_pgd pf p true npages _ _ _ _ _ hu).2 hin)
  | replace_page vaddr pfn flags =>
    simp only [mm_apply] at h
    unfold mm_replace_page_locked at h
    rw [Run.bind_eq_ret] at h
    obtain ⟨pmm1, -, h⟩ := h
    split at h
    · simp only [Run.ret.injEq, Prod.mk.injEq] at h
      obtain ⟨rfl, -⟩ := h
      exact hcov
    · simp only [Run.ret.injEq, Prod.mk.injEq, mm_do_map_one] at h
      obtain ⟨rfl, -⟩ := h
      intro p hp
      by_cases hpv : p = pf.vpn vaddr
      · subst hpv
        exact hop
      · simp only [pgd_set, hpv, if_false] at hp
        exact hcov p hp
  | clone_vmap_from src_ctx src_vmap =>
    simp only [mm_apply] at h
    rw [Run.bind_eq_ret] at h
    obtain ⟨⟨r, s2, d2, q⟩, hc, h⟩ := h
    simp only [Run.ret.injEq, Prod.mk.injEq] at h
    obtain ⟨rfl, rfl⟩ := h
    obtain ⟨-, -, -, c, hg, hcase⟩ := mm_clone_vmap_eq_ret pf pmm _ src_ctx ctx s2 _ src_vmap r hc
    rcases hcase with ⟨rfl, rfl, -⟩ | ⟨i, rfl, rfl, -⟩
    · obtain rfl := get_free_vaddr_none_unchanged pf _ _ _ _ _ hg
      exact coverage_of_same pf ctx _ hcov rfl (fun p => Or.inl rfl)
    · obtain ⟨a, -, rfl, ha⟩ := get_free_vaddr_some_eq pf _ _ _ _ _ _ hg
      obtain rfl := ha rfl
      intro p hp
      by_cases hin : in_range_pages pf src_vmap.vaddr src_vmap.npages p
      · exact ⟨⟨src_vmap.vaddr, src_vmap.npages, 0⟩, (mem_vmap_insert _ _ _).mpr (Or.inl rfl), hin⟩
      · simp only [(mm_do_copy_pgd pf src_ctx.pgd src_vmap.npages _ pmm src_vmap.vaddr).2 p
          (Or.inl hin)] at hp
        obtain ⟨r, hr, hr2⟩ := hcov p hp
        exact ⟨r, (mem_vmap_insert _ _ _).mpr (Or.inr hr), hr2⟩
  | clone_vmap_to src_vmap dst_ctx =>
    simp only [mm_apply] at h
    rw [Run.bind_eq_ret] at h
    obtain ⟨⟨r, s2, d2, q⟩, hc, h⟩ := h
    simp only [Run.ret.injEq, Prod.mk.injEq] at h
    obtain ⟨rfl, rfl⟩ := h
    obtain ⟨-, -, rfl, -⟩ := mm_clone_vmap_eq_ret pf pmm _ ctx dst_ctx _ d2 src_vmap r hc
    exact hcov

theorem mm_run_keeps_coverage (pf : Platform) (fa : frame_allocator) :
    ∀ (ops : List mm_op) (s s2 : mm_context_t × pmm_t),
      (∀ op ∈ ops, op.region_backed = true) → coverage pf s.1 →
      mm_run pf fa ops s = Run.ret s2 → coverage pf s2.1 := by
  intro ops
  induction ops with
  | nil =>
    intro s s2 _ hcov h
    simp only [mm_run, Run.ret.injEq] at h
    subst h
    exact hcov
  | cons op rest ih =>
    intro s s2 hops hcov h
    rw [mm_run, Run.bind_eq_ret] at h
    obtain ⟨s1, h1, h2⟩ := h
    have hb := hops op (List.mem_cons_self _ _)
    have hop : op_target_covered pf s.1 op := by
      cases op <;> trivial
    exact ih s1 s2 (fun o ho => hops o (List.mem_cons_of_mem _ ho))
      (mm_apply_keeps_coverage pf fa s s1 op hcov hop h1) h2

/-- The coverage invariant C16 fails for `mm_map_pages`: applied to the empty
address space it maps page `0x2000` to frame 5 and creates no region, so the
page has a leaf entry, the region list is empty and `mm_get_is_mapped_locked`
returns false for `0x2000`. -/
theorem map_pages_leaves_page_uncovered :
    ∃ ctx2 pmm2,
      mm_run x86_32 fa_from_16 [mm_op.map_pages 0x2000 5 1 3] (ctx_empty, pmm_frame5_once) =
        Run.ret (ctx2, pmm2) ∧
      ctx2.pgd 2 = some ⟨5, 3⟩ ∧ ctx2.mmaps = [] ∧
      mm_get_is_mapped_locked x86_32 { ctx2 with mm_lock := true } 0x2000 = Run.ret false :=
  ⟨_, _, rfl, by decide, rfl, rfl⟩

/-- C16, as the code has it: after every returning sequence of `mm_alloc_pages`,
`mm_map_pages_to_user`, `mm_unmap_pages` and `mm_clone_vmap` (in either
direction) on an address space that starts empty, every virtual page that has a
leaf entry is a page of some region of that address space. Each single
operation keeps this invariant, `mm_map_pages` and `mm_replace_page_locked`
only when the pages they are told to write are already pages of a region; they
create no region themselves. A page of a region whose end does not wrap around
lies at an address for which `mm_get_is_mapped_locked` (called with the lock
held) returns true. -/
theorem region_backed_ops_keep_coverage (pf : Platform) (fa : frame_allocator) :
    (∀ (ops : List mm_op) (pmm : pmm_t) (s2 : mm_context_t × pmm_t),
      (∀ op ∈ ops, op.region_backed = true) →
      mm_run pf fa ops (ctx_empty, pmm) = Run.ret s2 → coverage pf s2.1) ∧
    (∀ (s s2 : mm_context_t × pmm_t) (op : mm_op), coverage pf s.1 →
      op_target_covered pf s.1 op → mm_apply pf fa s op = Run.ret s2 → coverage pf s2.1) ∧
    (∀ ctx : mm_context_t, coverage pf ctx → ∀ p, ctx.pgd p ≠ none →
      ∃ r ∈ ctx.mmaps, ∃ k, k < r.npages ∧ pf.vpn (r.vaddr + k * pf.MOS_PAGE_SIZE) = p ∧
        (r.true_end pf < 2 ^ pf.ptr_bits →
          mm_get_is_mapped_locked pf { ctx with mm_lock := true }
            (r.vaddr + k * pf.MOS_PAGE_SIZE) = Run.ret true)) := by
  refine ⟨?_, ?_, ?_⟩
  · intro ops pmm s2 hops h
    refine mm_run_keeps_coverage pf fa ops (ctx_empty, pmm) s2 hops ?_ h
    intro p hp
    exact absurd rfl hp
  · intro s s2 op hcov hop h
    exact mm_apply_keeps_coverage pf fa s s2 op hcov hop h
  · intro ctx hcov p hp
    obtain ⟨r, hr, k, hk, hkp⟩ := hcov p hp
    refine ⟨r, hr, k, hk, hkp, ?_⟩
    intro hnw
    have hscan : is_mapped_scan pf (r.vaddr + k * pf.MOS_PAGE_SIZE) ctx.mmaps = true := by
      rw [is_mapped_scan_eq_true_iff]
      refine ⟨r, hr, Nat.le_add_right _ _, ?_⟩
      rw [vmap_end_eq_of_lt pf hnw]
      have := Nat.mul_lt_mul_of_pos_right hk pf.page_size_pos
      simp only [vmap_t.true_end]
      omega
    simp [mm_get_is_mapped_locked, hscan]

/-- Witness of C16: a page is mapped with `mm_map_pages_to_user` at `0x2000`, a
second range is allocated, and the first is unmapped again; the sequence
returns and the resulting address space satisfies the invariant. -/
theorem region_backed_ops_keep_coverage_witness :
    mm_run x86_32 fa_from_16
      [mm_op.map_pages_to_user 0x2000 5 1 3,
       mm_op.alloc_pages 2 0x2000 valloc_flags.VALLOC_DEFAULT 3,
       mm_op.unmap_pages 0x2000 1] (ctx_empty, pmm_frame5_once) =
      Run.ret (ctx_after_three_ops,
        ⟨fun f => if f = 5 then pmm_frame5_once.refcount f - 1
          else pmm_frame5_once.refcount f⟩) ∧
    coverage x86_32 ctx_after_three_ops :=
  ⟨rfl, (region_backed_ops_keep_coverage x86_32 fa_from_16).1
    [mm_op.map_pages_to_user 0x2000 5 1 3,
     mm_op.alloc_pages 2 0x2000 valloc_flags.VALLOC_DEFAULT 3,
     mm_op.unmap_pages 0x2000 1] pmm_frame5_once
    (ctx_after_three_ops,
      ⟨fun f => if f = 5 then pmm_frame5_once.refcount f - 1 else pmm_frame5_once.refcount f⟩)
    (by decide) rfl⟩

/-! ### C12 -/

/-- C21 fails as stated for `mm_flag_pages_locked` and `mm_replace_page_locked`:
called on an address space whose lock is not held, both return and change the
page table. The page `0x2000`, mapped to frame 5 with flags 3, has flags 1 after
the first call, and is mapped to frame 7 after the second. -/
theorem flag_and_replace_run_without_lock :
    ctx_page_mapped_free.mm_lock = false ∧ ctx_page_mapped_free.pgd 2 = some ⟨5, 3⟩ ∧
    (∃ ctx2, mm_flag_pages_locked x86_32 ctx_page_mapped_free 0x2000 1 1 = Run.ret ctx2 ∧
      ctx2.pgd 2 = some ⟨5, 1⟩) ∧
    (∃ ctx2 pmm2,
      mm_replace_page_locked x86_32 pmm_frame5_once ctx_page_mapped_free 0x2000 7 3 =
        Run.ret (ctx2, pmm2) ∧
      ctx2.pgd 2 = some ⟨7, 3⟩) :=
  ⟨rfl, by decide, ⟨_, rfl, by decide⟩, ⟨_, _, rfl, by decide⟩⟩

/-- C21, as the code has it: on an address space whose `mm_lock` is not held,
`mm_get_free_vaddr_locked`, `mm_map_pages_locked`, `mm_get_is_mapped_locked` and
`mm_clone_vmap_locked` (for its destination) end in a failed assertion, whatever
their other arguments; no state results from the call. `mm_flag_pages_locked`,
`mm_replace_page_locked` and `mm_clone_vmap_locked` with respect to its source
make no lock check: they do on an address space whose lock is not held what
they do when it is held. -/
theorem unlocked_call_asserts (pf : Platform) (pmm : pmm_t) (ctx other : mm_context_t)
    (hlock : ctx.mm_lock = false) :
    (∀ n_pages base_vaddr vflags,
      mm_get_free_vaddr_locked pf ctx n_pages base_vaddr vflags = Run.assert_fail) ∧
    (∀ vaddr pfn npages flags,
      mm_map_pages_locked pf ctx vaddr pfn npages flags = Run.assert_fail) ∧
    (∀ vaddr, mm_get_is_mapped_locked pf ctx vaddr = Run.assert_fail) ∧
    (∀ src_vmap, mm_clone_vmap_locked pf pmm other src_vmap ctx = Run.assert_fail) ∧
    (∀ vaddr npages flags, 0 < npages →
      mm_flag_pages_locked pf ctx vaddr npages flags =
        Run.ret ⟨false, ctx.mmaps, mm_do_flag pf ctx.pgd vaddr npages flags⟩) ∧
    (∀ vaddr pfn flags,
      mm_replace_page_locked pf pmm ctx vaddr pfn flags =
        (mm_replace_page_locked pf pmm { ctx with mm_lock := true } vaddr pfn flags).bind
          fun r => Run.ret ({ r.1 with mm_lock := false }, r.2)) ∧
    (∀ src_vmap,
      mm_clone_vmap_locked pf pmm ctx src_vmap other =
        mm_clone_vmap_locked pf pmm { ctx with mm_lock := true } src_vmap other) := by
  obtain ⟨l, m, g⟩ := ctx
  simp only at hlock
  subst hlock
  refine ⟨?_, ?_, ?_, ?_, ?_, ?_, ?_⟩
  · intro n_pages base_vaddr vflags
    simp [mm_get_free_vaddr_locked]
  · intro vaddr pfn npages flags
    simp [mm_map_pages_locked]
  · intro vaddr
    simp [mm_get_is_mapped_locked]
  · intro src_vmap
    simp [mm_clone_vmap_locked, mm_get_free_vaddr_locked, Run.bind]
  · intro vaddr npages flags hn
    have hn2 : ¬ ¬ npages > 0 := fun h => h hn
    simp [mm_flag_pages_locked, hn2]
  · intro vaddr pfn flags
    unfold mm_replace_page_locked
    simp only
    cases (if mm_do_get_pfn pf g vaddr ≠ 0 then pmm_unref_one pmm (mm_do_get_pfn pf g vaddr)
      else Run.ret pmm) with
    | ret pmm1 =>
      simp only [Run.bind]
      split <;> rfl
    | assert_fail => rfl
    | spin => rfl
  · intro src_vmap
    rfl

/-- Witness of C21 on the scenario address space with its lock free. -/
theorem unlocked_call_asserts_witness :
    ctx_one_region_free.mm_lock = false ∧
    mm_get_free_vaddr_locked x86_32 ctx_one_region_free 2 0x1000 valloc_flags.VALLOC_DEFAULT =
      Run.assert_fail ∧
    mm_map_pages_locked x86_32 ctx_one_region_free 0x1000 7 1 3 = Run.assert_fail ∧
    mm_get_is_mapped_locked x86_32 ctx_one_region_free 0x1000 = Run.assert_fail :=
  have key := unlocked_call_asserts x86_32 pmm_frame5_once ctx_one_region_free ctx_empty rfl
  ⟨rfl, key.1 2 0x1000 valloc_flags.VALLOC_DEFAULT, key.2.1 0x1000 7 1 3, key.2.2.1 0x1000⟩

/-! ### C22 -/

/-- C22 fails as stated: called on the scenario address space with its lock
held, `mm_map_pages` and `mm_unmap_pages` do not return, they wait for the lock
in `spinlock_acquire`; called with the lock free, `mm_map_pages` returns with the
lock free. -/
theorem map_pages_waits_for_held_lock :
    ctx_one_region.mm_lock = true ∧
    mm_map_pages x86_32 ctx_one_region 0x1000 7 1 3 = Run.spin ∧
    mm_unmap_pages x86_32 pmm_frame5_once ctx_one_region 0x1000 1 = Run.spin ∧
    (∃ ctx2, mm_map_pages x86_32 ctx_one_region_free 0x1000 7 1 3 = Run.ret ctx2 ∧
      ctx2.mm_lock = false) :=
  ⟨rfl, rfl, rfl, _, rfl, rfl⟩

/-- C22, as the code has it: `mm_map_pages` and `mm_unmap_pages` take the lock
themselves. Each acquires `mm_lock` and releases it before returning: every
returning call was entered with the lock free and leaves it free; `mm_map_pages`
entered with the lock free and `npages > 0` returns. A call entered with the
lock held does not return, it waits in `spinlock_acquire` (`mm_unmap_pages`
after its assertion `npages > 0`). -/
theorem map_unmap_take_lock_themselves (pf : Platform) (pmm : pmm_t) (ctx : mm_context_t)
    (vaddr pfn npages flags : Nat) :
    (ctx.mm_lock = true → mm_map_pages pf ctx vaddr pfn npages flags = Run.spin) ∧
    (ctx.mm_lock = true → 0 < npages → mm_unmap_pages pf pmm ctx vaddr npages = Run.spin) ∧
    (∀ ctx2, mm_map_pages pf ctx vaddr pfn npages flags = Run.ret ctx2 →
      ctx.mm_lock = false ∧ ctx2.mm_lock = false) ∧
    (∀ ctx2 pmm2, mm_unmap_pages pf pmm ctx vaddr npages = Run.ret (ctx2, pmm2) →
      ctx.mm_lock = false ∧ ctx2.mm_lock = false) ∧
    (ctx.mm_lock = false → 0 < npages →
      ∃ ctx2, mm_map_pages pf ctx vaddr pfn npages flags = Run.ret ctx2) := by
  refine ⟨?_, ?_, ?_, ?_, ?_⟩
  · intro hl
    simp [mm_map_pages, spinlock_acquire, hl, Run.bind]
  · intro hl hn
    have hn2 : ¬ ¬ npages > 0 := fun h => h hn
    simp [mm_unmap_pages, spinlock_acquire, hl, Run.bind, hn2]
  · intro ctx2 h
    rw [mm_map_pages_eq_ret] at h
    obtain ⟨hl, -, rfl⟩ := h
    exact ⟨hl, rfl⟩
  · intro ctx2 pmm2 h
    rw [mm_unmap_pages_eq_ret] at h
    obtain ⟨-, hl, g, -, rfl⟩ := h
    exact ⟨hl, rfl⟩
  · intro hl hn
    exact ⟨_, (mm_map_pages_eq_ret pf ctx _ vaddr pfn npages flags).mpr ⟨hl, hn, rfl⟩⟩

/-! ### C27 -/

/-- C27 fails on the allocation-failure path: `mm_alloc_pages`, entered on the
scenario address space while its lock is held and with a frame allocator that
has no frames left, calls `spinlock_release` without having acquired the lock
and returns `NULL` with the lock free. -/
theorem alloc_pages_releases_unacquired_lock :
    ctx_one_region.mm_lock = true ∧
    fa_exhausted.mm_get_free_pages pmm_frame5_once 1 = none ∧
    mm_alloc_pages x86_32 fa_exhausted pmm_frame5_once ctx_one_region 1 0x1000
      valloc_flags.VALLOC_DEFAULT 3 = Run.ret (none, ctx_one_region_free, pmm_frame5_once) ∧
    ctx_one_region_free.mm_lock = false :=
  ⟨rfl, rfl, rfl, rfl⟩

/-! ### C23 -/

/-- C23: the `VALLOC_DEFAULT` search depends on the order of the region list.
The regions `[0x5000, 0x6000)` and `[0x1000, 0x5000)` do not overlap and are
listed in descending order; a request of one page with hint `0x1000` succeeds
at `0x1000`, inside the second region, because the first region lies above the
candidate and ends the scan. With the same regions in ascending order the same
request is placed at `0x6000`, free of both. -/
theorem default_search_depends_on_order :
    ∃ (l : List vmap_t) (hint n_pages i : Nat) (ctx2 : mm_context_t),
      non_overlapping x86_32 l ∧ ¬ sorted_by_vaddr l ∧ 1 ≤ n_pages ∧
      mm_get_free_vaddr_locked x86_32 ⟨true, l, pgd_empty⟩ n_pages hint
        valloc_flags.VALLOC_DEFAULT = Run.ret (some i, ctx2) ∧
      (∃ m ∈ l, range_overlaps x86_32 (vmap_at ctx2.mmaps i).vaddr n_pages m) ∧
      ctx_unsorted = ⟨true, l, pgd_empty⟩ ∧
      mm_get_free_vaddr_locked x86_32 ctx_sorted n_pages hint valloc_flags.VALLOC_DEFAULT =
        Run.ret (some 2, ⟨true, [⟨0x1000, 4, 3⟩, ⟨0x5000, 1, 3⟩, ⟨0x6000, 1, 0⟩], pgd_empty⟩) :=
  ⟨[⟨0x5000, 1, 3⟩, ⟨0x1000, 4, 3⟩], 0x1000, 1, 0,
    ⟨true, [⟨0x1000, 1, 0⟩, ⟨0x5000, 1, 3⟩, ⟨0x1000, 4, 3⟩], pgd_empty⟩,
    by decide, by decide, by decide, rfl,
    ⟨⟨0x1000, 4, 3⟩, by decide, by decide, by decide⟩, rfl, rfl⟩

/-! ### C24 -/

/-- C24 fails as stated: on the 32-bit layout, a request of `0x100001` pages
from hint `0x1000` in an empty address space has `n_pages * MOS_PAGE_SIZE =
2^32 + 0x1000`, which overflows; the end of the candidate is computed as
`0x2000`, the boundary test passes and the call succeeds, while the true end
`0x1000 + n_pages * MOS_PAGE_SIZE` lies far above `MOS_KERNEL_START_VADDR`. -/
theorem kernel_boundary_bypassed_by_overflow :
    0x1000 < x86_32.MOS_KERNEL_START_VADDR ∧
    x86_32.wrap (0x1000 + 0x100001 * x86_32.MOS_PAGE_SIZE) = 0x2000 ∧
    mm_get_free_vaddr_locked x86_32 ctx_no_region 0x100001 0x1000 valloc_flags.VALLOC_DEFAULT =
      Run.ret (some 0, ⟨true, [⟨0x1000, 0x100001, 0⟩], pgd_empty⟩) ∧
    ¬ (0x1000 + 0x100001 * x86_32.MOS_PAGE_SIZE ≤ x86_32.MOS_KERNEL_START_VADDR) :=
  ⟨by decide, by decide, rfl, by decide⟩

/-- C24, as the code has it: the kernel-boundary check of the `VALLOC_DEFAULT`
search holds for the end as the code computes it, in `ptr_t` arithmetic modulo
`2 ^ ptr_bits`. For every region list, every hint and every `n_pages`, a
successful call creates a region of `n_pages` pages at an address `a` with
`(a + n_pages * MOS_PAGE_SIZE) mod 2 ^ ptr_bits <= MOS_KERNEL_START_VADDR`; the
true end `a + n_pages * MOS_PAGE_SIZE` is at most `MOS_KERNEL_START_VADDR`
exactly when it does not wrap around, that is when it is below
`2 ^ ptr_bits`. -/
theorem kernel_boundary_modulo_word (pf : Platform) (mmctx ctx2 : mm_context_t)
    (n_pages hint i : Nat)
    (h : mm_get_free_vaddr_locked pf mmctx n_pages hint valloc_flags.VALLOC_DEFAULT =
      Run.ret (some i, ctx2)) :
    hint < pf.MOS_KERNEL_START_VADDR ∧
    (vmap_at ctx2.mmaps i).npages = n_pages ∧
    ((vmap_at ctx2.mmaps i).vaddr + n_pages * pf.MOS_PAGE_SIZE) % 2 ^ pf.ptr_bits ≤
      pf.MOS_KERNEL_START_VADDR ∧
    ((vmap_at ctx2.mmaps i).vaddr + n_pages * pf.MOS_PAGE_SIZE ≤ pf.MOS_KERNEL_START_VADDR ↔
      (vmap_at ctx2.mmaps i).vaddr + n_pages * pf.MOS_PAGE_SIZE < 2 ^ pf.ptr_bits) := by
  obtain ⟨a, hscan, hat, -, -, hk⟩ := get_free_vaddr_default_some pf mmctx ctx2 n_pages hint i h
  have hw := default_scan_wrapped_end_le pf n_pages mmctx.mmaps hint a hscan
  rw [hat]
  refine ⟨hk, rfl, hw, ?_⟩
  constructor
  · intro hle
    exact lt_of_le_of_lt hle pf.kernel_start_lt
  · intro hlt
    rw [wrap_eq_of_lt pf hlt] at hw
    exact hw

/-- Witness of C24 on the scenario address space: two pages from hint `0x1000`
are placed at `0x5000`; the end `0x7000` does not wrap and lies below the
kernel start. -/
theorem kernel_boundary_modulo_word_witness :
    mm_get_free_vaddr_locked x86_32 ctx_one_region 2 0x1000 valloc_flags.VALLOC_DEFAULT =
      Run.ret (some 1, ctx_one_region_grown) ∧
    ((vmap_at ctx_one_region_grown.mmaps 1).vaddr + 2 * x86_32.MOS_PAGE_SIZE) %
      2 ^ x86_32.ptr_bits ≤ x86_32.MOS_KERNEL_START_VADDR :=
  ⟨rfl, (kernel_boundary_modulo_word x86_32 ctx_one_region ctx_one_region_grown 2 0x1000 1
    rfl).2.2.1⟩

/-! ### C25 -/

/-- C25: in exact mode `mm_get_free_vaddr_locked` decides on overlap alone. For
every `base_vaddr < MOS_KERNEL_START_VADDR` and every `n_pages` such that no
region overlaps `[base_vaddr, base_vaddr + n_pages * MOS_PAGE_SIZE)`, the call
(with the lock held, as it asserts) succeeds and creates the region with
`vaddr = base_vaddr` and `npages = n_pages`, also when
`base_vaddr + n_pages * MOS_PAGE_SIZE` exceeds `MOS_KERNEL_START_VADDR`: the
exact branch contains no test against the kernel start, whereas a successful
`VALLOC_DEFAULT` call always passed the test
`retry_addr + n_pages * MOS_PAGE_SIZE <= MOS_KERNEL_START_VADDR`. -/
theorem exact_mode_ignores_kernel_boundary (pf : Platform) (mmctx : mm_context_t)
    (n_pages base_vaddr : Nat) (hlock : mmctx.mm_lock = true)
    (hbase : base_vaddr < pf.MOS_KERNEL_START_VADDR)
    (hdis : ∀ m ∈ mmctx.mmaps, ¬ range_overlaps pf base_vaddr n_pages m) :
    mm_get_free_vaddr_locked pf mmctx n_pages base_vaddr valloc_flags.VALLOC_EXACT =
      Run.ret (some (vmap_insert_pos base_vaddr mmctx.mmaps),
        { mmctx with mmaps := vmap_insert ⟨base_vaddr, n_pages, 0⟩ mmctx.mmaps }) ∧
    vmap_at (vmap_insert ⟨base_vaddr, n_pages, 0⟩ mmctx.mmaps)
      (vmap_insert_pos base_vaddr mmctx.mmaps) = ⟨base_vaddr, n_pages, 0⟩ ∧
    (∀ i ctx2,
      mm_get_free_vaddr_locked pf mmctx n_pages base_vaddr valloc_flags.VALLOC_DEFAULT =
        Run.ret (some i, ctx2) →
      pf.wrap ((vmap_at ctx2.mmaps i).vaddr + n_pages * pf.MOS_PAGE_SIZE) ≤
        pf.MOS_KERNEL_START_VADDR) := by
  refine ⟨?_, vmap_at_insert ⟨base_vaddr, n_pages, 0⟩ mmctx.mmaps, ?_⟩
  · rw [get_free_vaddr_exact_eq pf mmctx n_pages base_vaddr hlock hbase,
      exact_scan_disjoint pf base_vaddr n_pages mmctx.mmaps hdis]
    rfl
  · intro i ctx2 h
    obtain ⟨a, hscan, hat, -, -, -⟩ :=
      get_free_vaddr_default_some pf mmctx ctx2 n_pages base_vaddr i h
    rw [hat]
    exact default_scan_wrapped_end_le pf n_pages mmctx.mmaps base_vaddr a hscan

/-- Witness of C25: in an address space without regions, two pages at
`0xBFFFF000` end at `0xC0001000`, above the kernel start `0xC0000000`; the exact
request succeeds, the same request in default mode returns `NULL`. -/
theorem exact_mode_ignores_kernel_boundary_witness :
    x86_32.MOS_KERNEL_START_VADDR < 0xBFFFF000 + 2 * x86_32.MOS_PAGE_SIZE ∧
    mm_get_free_vaddr_locked x86_32 ctx_no_region 2 0xBFFFF000 valloc_flags.VALLOC_EXACT =
      Run.ret (some 0, ⟨true, [⟨0xBFFFF000, 2, 0⟩], pgd_empty⟩) ∧
    mm_get_free_vaddr_locked x86_32 ctx_no_region 2 0xBFFFF000 valloc_flags.VALLOC_DEFAULT =
      Run.ret (none, ctx_no_region) :=
  ⟨by decide,
    (exact_mode_ignores_kernel_boundary x86_32 ctx_no_region 2 0xBFFFF000 rfl (by decide)
      (fun m hm => absurd hm (List.not_mem_nil m))).1,
    rfl⟩

/-! ### C26 -/

/-- C26 fails as stated for ranges of zero pages. A request of zero pages at
`0x2000`, inside the region `[0x1000, 0x5000)`, is refused by the exact search
although its range contains no address at all; and the region of zero pages at
`0x2000` makes the exact request `[0x1000, 0x3000)` fail although the lookup is
false for every address. -/
theorem exact_and_lookup_disagree_on_zero_pages :
    mm_get_free_vaddr_locked x86_32 ctx_one_region 0 0x2000 valloc_flags.VALLOC_EXACT =
      Run.ret (none, ctx_one_region) ∧
    (¬ ∃ x, 0x2000 ≤ x ∧ x < 0x2000 + 0 * x86_32.MOS_PAGE_SIZE ∧
      mm_get_is_mapped_locked x86_32 ctx_one_region x = Run.ret true) ∧
    mm_get_free_vaddr_locked x86_32 ctx_empty_region 2 0x1000 valloc_flags.VALLOC_EXACT =
      Run.ret (none, ctx_empty_region) ∧
    (¬ ∃ x, 0x1000 ≤ x ∧ x < 0x1000 + 2 * x86_32.MOS_PAGE_SIZE ∧
      mm_get_is_mapped_locked x86_32 ctx_empty_region x = Run.ret true) := by
  refine ⟨rfl, ?_, rfl, ?_⟩
  · rintro ⟨x, h1, h2, -⟩
    simp only [Nat.zero_mul, Nat.add_zero] at h2
    omega
  · rintro ⟨x, -, -, h3⟩
    have hs : is_mapped_scan x86_32 x ctx_empty_region.mmaps = true := by
      simpa [mm_get_is_mapped_locked, ctx_empty_region] using h3
    rw [is_mapped_scan_eq_true_iff] at hs
    obtain ⟨r, hr, hr1, hr2⟩ := hs
    simp only [ctx_empty_region, List.mem_singleton] at hr
    subst hr
    have : vmap_end x86_32 ⟨0x2000, 0, 3⟩ = 0x2000 := by decide
    rw [this] at hr2
    simp only at hr1
    omega

/-- C26, as the code has it: exact allocation and region lookup agree for
requests of at least one page whose end does not wrap around the word width and
for region lists in which every region is non-empty as the code computes its end
(`vaddr < vaddr + npages * MOS_PAGE_SIZE` in `ptr_t` arithmetic, which holds for
every region of at least one page whose end does not wrap around). Then
`mm_get_free_vaddr_locked` with `VALLOC_EXACT`, called with the lock held and
`base_vaddr < MOS_KERNEL_START_VADDR` as it asserts, returns `NULL` if and only
if `mm_get_is_mapped_locked` is true for some address in
`[base_vaddr, base_vaddr + n_pages * MOS_PAGE_SIZE)`. -/
theorem exact_fails_iff_lookup_hits (pf : Platform) (mmctx : mm_context_t)
    (n_pages base_vaddr : Nat) (hlock : mmctx.mm_lock = true)
    (hbase : base_vaddr < pf.MOS_KERNEL_START_VADDR) (hn : 1 ≤ n_pages)
    (hreq : base_vaddr + n_pages * pf.MOS_PAGE_SIZE < 2 ^ pf.ptr_bits)
    (hreg : ∀ m ∈ mmctx.mmaps, m.vaddr < vmap_end pf m) :
    ((∃ ctx2, mm_get_free_vaddr_locked pf mmctx n_pages base_vaddr valloc_flags.VALLOC_EXACT =
        Run.ret (none, ctx2)) ↔
      ∃ x, base_vaddr ≤ x ∧ x < base_vaddr + n_pages * pf.MOS_PAGE_SIZE ∧
        mm_get_is_mapped_locked pf mmctx x = Run.ret true) ∧
    (∀ m : vmap_t, 1 ≤ m.npages → m.true_end pf < 2 ^ pf.ptr_bits → m.vaddr < vmap_end pf m) := by
  have hP := pf.page_size_pos
  have hpos : 0 < n_pages * pf.MOS_PAGE_SIZE := Nat.mul_pos hn hP
  constructor
  · rw [get_free_vaddr_exact_eq pf mmctx n_pages base_vaddr hlock hbase, wrap_eq_of_lt pf hreq]
    have hmap : ∀ x, mm_get_is_mapped_locked pf mmctx x = Run.ret true ↔
        is_mapped_scan pf x mmctx.mmaps = true := by
      intro x
      simp [mm_get_is_mapped_locked, hlock]
    cases hscan : free_vaddr_exact_scan pf base_vaddr
        (base_vaddr + n_pages * pf.MOS_PAGE_SIZE) mmctx.mmaps with
    | true =>
      simp only [if_true, Run.ret.injEq, Prod.mk.injEq]
      rw [exact_scan_eq_true_iff] at hscan
      constructor
      · rintro ⟨ctx2, h1, -⟩
        cases h1
      · rintro ⟨x, hx1, hx2, hx3⟩
        rw [hmap, is_mapped_scan_eq_true_iff] at hx3
        obtain ⟨r, hr, hr1, hr2⟩ := hx3
        exact absurd (show r.vaddr < base_vaddr + n_pages * pf.MOS_PAGE_SIZE ∧
          vmap_end pf r > base_vaddr from ⟨by omega, by omega⟩) (hscan r hr)
    | false =>
      simp only [Bool.false_eq_true, if_false, Run.ret.injEq, Prod.mk.injEq, true_and,
        exists_eq', true_iff]
      rw [exact_scan_eq_false_iff] at hscan
      obtain ⟨m, hm, hm1, hm2⟩ := hscan
      have hne := hreg m hm
      refine ⟨max base_vaddr m.vaddr, le_max_left _ _, ?_, ?_⟩
      · rcases max_cases base_vaddr m.vaddr with ⟨h, -⟩ | ⟨h, -⟩ <;> omega
      · rw [hmap, is_mapped_scan_eq_true_iff]
        refine ⟨m, hm, le_max_right _ _, ?_⟩
        rcases max_cases base_vaddr m.vaddr with ⟨h, -⟩ | ⟨h, -⟩ <;> omega
  · intro m hm hend
    rw [vmap_end_eq_of_lt pf hend]
    have : 0 < m.npages * pf.MOS_PAGE_SIZE := Nat.mul_pos hm hP
    simp only [vmap_t.true_end]
    omega

/-- Witness of C26 on the scenario address space `[0x1000, 0x5000)`: the exact
request for two pages at `0x4000` fails and the lookup is true at `0x4000`; the
exact request for two pages at `0x5000` succeeds. -/
theorem exact_fails_iff_lookup_hits_witness :
    mm_get_free_vaddr_locked x86_32 ctx_one_region 2 0x4000 valloc_flags.VALLOC_EXACT =
      Run.ret (none, ctx_one_region) ∧
    (∃ x, 0x4000 ≤ x ∧ x < 0x4000 + 2 * x86_32.MOS_PAGE_SIZE ∧
      mm_get_is_mapped_locked x86_32 ctx_one_region x = Run.ret true) ∧
    mm_get_free_vaddr_locked x86_32 ctx_one_region 2 0x5000 valloc_flags.VALLOC_EXACT =
      Run.ret (some 1, ctx_one_region_grown) :=
  ⟨rfl,
    (exact_fails_iff_lookup_hits x86_32 ctx_one_region 2 0x4000 rfl (by decide) (by decide)
      (by decide) (by decide)).1.mp ⟨ctx_one_region, rfl⟩,
    rfl⟩

/-! ### C28 -/

/-- An `io_unref` that leaves references behind lowers the count by one and
closes nothing. -/
theorem io_unref_keeps_open (atomic_bits : Nat) (io : io_t) (h2 : 2 ≤ io.refcount)
    (hfit : io.refcount < 2 ^ atomic_bits) :
    io_unref atomic_bits io = { io with refcount := io.refcount - 1 } := by
  have hdec : (io.refcount + (2 ^ atomic_bits - 1)) % 2 ^ atomic_bits = io.refcount - 1 := by
    have : io.refcount + (2 ^ atomic_bits - 1) = (io.refcount - 1) + 2 ^ atomic_bits := by omega
    rw [this, Nat.add_mod_right, Nat.mod_eq_of_lt (by omega)]
  have hpos : io.refcount - 1 > 0 := by omega
  simp [io_unref, refcount_dec, hdec, hpos]

/-- C28 fails on the last reference: `io_unref` on an open `io_t` with one
reference (64-bit counter) lowers the count to 0 and calls `io_close`, which
lowers it once more: the `io_t` is closed, `ops->close` was called once, the
warning "still has references" was given, and the count is `2^64 - 1`, wrapped
around, not 0. The same on a fresh `io_t` after two `io_ref` and two
`io_unref`. -/
theorem io_unref_last_reference_wraps :
    io_unref 64 io_one_ref = ⟨2 ^ 64 - 1, true, true, 1, 1⟩ ∧
    io_repeat (io_unref 64) 2 (io_repeat (io_ref 64) 2 io_fresh) =
      ⟨2 ^ 64 - 1, true, true, 1, 1⟩ ∧
    io_unref 64 ⟨2, false, true, 0, 0⟩ = ⟨1, false, true, 0, 0⟩ := by
  refine ⟨by decide, by decide, by decide⟩

/-! ### The command-line parser terminates -/

theorem scan_arg_name_length (s : List Char) : (scan_arg_name s).2.length ≤ s.length := by
  induction s with
  | nil => simp [scan_arg_name]
  | cons c rest ih =>
    by_cases h : c = ' ' ∨ c = '='
    · simp [scan_arg_name, h]
    · simp only [scan_arg_name, h, if_false, List.length_cons]
      omega

theorem scan_param_string_length (s : List Char) :
    (scan_param_string s).2.length ≤ s.length := by
  induction s with
  | nil => simp [scan_param_string]
  | cons c rest ih =>
    by_cases h : c = ' ' ∨ c = ','
    · simp [scan_param_string, h]
    · simp only [scan_param_string, h, if_false, List.length_cons]
      omega

/-- A string parameter ends at `' '`, at `','` or at the end of the line. -/
theorem scan_param_string_stops (s : List Char) (d : Char) (rest : List Char)
    (h : (scan_param_string s).2 = d :: rest) : d = ' ' ∨ d = ',' := by
  induction s with
  | nil => simp [scan_param_string] at h
  | cons c t ih =>
    by_cases hc : c = ' ' ∨ c = ','
    · simp only [scan_param_string, hc, if_true, List.cons.injEq] at h
      rw [← h.1]
      exact hc
    · simp only [scan_param_string, hc, if_false] at h
      exact ih h

theorem read_param_length (s : List Char) : (read_param s).2.length ≤ s.length := by
  unfold read_param
  split
  · simp
  · split
    · simp
    · exact scan_param_string_length s

/-- Reading a parameter that does not start with a delimiter moves the cursor. -/
theorem read_param_progress (c : Char) (t : List Char) (hc : ¬ (c = ' ' ∨ c = ',')) :
    (read_param (c :: t)).2.length < (c :: t).length := by
  unfold read_param
  split
  · simp only [List.length_drop, List.length_cons]
    omega
  · split
    · simp only [List.length_drop, List.length_cons]
      omega
    · have := scan_param_string_length t
      simp only [scan_param_string, hc, if_false, List.length_cons]
      omega

/-- A parameter that starts with `','` is the empty string; the cursor stays. -/
theorem read_param_comma (t : List Char) :
    read_param (',' :: t) = (cmdline_param_t.string [], ',' :: t) := by
  have h4 : ¬ (',' :: t).take 4 = ['t', 'r', 'u', 'e'] := by
    cases t with
    | nil => decide
    | cons a t2 =>
      intro h
      simp only [List.take_succ_cons, List.cons.injEq] at h
      exact absurd h.1 (by decide)
  have h5 : ¬ (',' :: t).take 5 = ['f', 'a', 'l', 's', 'e'] := by
    cases t with
    | nil => decide
    | cons a t2 =>
      intro h
      simp only [List.take_succ_cons, List.cons.injEq] at h
      exact absurd h.1 (by decide)
  simp [read_param, h4, h5, scan_param_string]

/-- The parameter loop ends within `length + 1` passes, and the cursor it leaves
is not in front of the one it started with. -/
theorem parse_params_terminates :
    ∀ (fuel : Nat) (s : List Char) (acc : List cmdline_param_t), s.length < fuel →
      ∃ r, parse_params fuel s acc = some r ∧
        ∀ ps s2, r = Run.ret (ps, s2) → s2.length ≤ s.length := by
  intro fuel
  induction fuel with
  | zero =>
    intro s acc h
    omega
  | succ fuel ih =>
    intro s acc hlen
    cases s with
    | nil =>
      refine ⟨_, rfl, ?_⟩
      intro ps s2 h
      simp only [Run.ret.injEq, Prod.mk.injEq] at h
      rw [← h.2]
    | cons c t =>
      rw [parse_params]
      by_cases hsp : c = ' '
      · simp only [hsp, if_true]
        refine ⟨_, rfl, ?_⟩
        intro ps s2 h
        simp only [Run.ret.injEq, Prod.mk.injEq] at h
        rw [← h.2]
      · simp only [hsp, if_false]
        have hrl := read_param_length (c :: t)
        cases hr : (read_param (c :: t)).2 with
        | nil =>
          refine ⟨_, rfl, ?_⟩
          intro ps s2 h
          simp only [Run.ret.injEq, Prod.mk.injEq] at h
          rw [← h.2]
          simp
        | cons d rest =>
          simp only
          rw [hr] at hrl
          by_cases hd : d = ' ' ∨ d = ','
          · simp only [hd, not_true_eq_false, if_false]
            have hs2 : (if d = ',' then rest else d :: rest).length < (c :: t).length := by
              by_cases hdc : d = ','
              · simp only [hdc, if_true]
                simp only [List.length_cons] at hrl ⊢
                omega
              · simp only [hdc, if_false]
                by_cases hcc : c = ','
                · subst hcc
                  rw [read_param_comma] at hr
                  simp only [List.cons.injEq] at hr
                  exact absurd hr.1.symm hdc
                · have := read_param_progress c t (by tauto)
                  rw [hr] at this
                  exact this
            cases hs2v : (if d = ',' then rest else d :: rest) with
            | nil =>
              refine ⟨_, rfl, ?_⟩
              intro ps s2 h
              simp only [Run.ret.injEq, Prod.mk.injEq] at h
              rw [← h.2]
              simp
            | cons e rest2 =>
              rw [hs2v] at hs2
              simp only
              by_cases he : e = ' '
              · simp only [he, if_true]
                refine ⟨_, rfl, ?_⟩
                intro ps s2 h
                simp only [Run.ret.injEq, Prod.mk.injEq] at h
                rw [← h.2]
                simp only [List.length_cons] at hs2 ⊢
                omega
              · simp only [he, if_false]
                obtain ⟨r, hr1, hr2⟩ := ih (e :: rest2) (acc ++ [(read_param (c :: t)).1])
                  (by simp only [List.length_cons] at hs2 hlen ⊢; omega)
                refine ⟨r, hr1, ?_⟩
                intro ps s2 h
                have := hr2 ps s2 h
                omega
          · simp only [hd, not_false_eq_true, if_true]
            exact ⟨_, rfl, fun ps s2 h => by cases h⟩

/-- The argument loop ends within `length + 1` passes. -/
theorem parse_args_terminates :
    ∀ (fuel : Nat) (s : List Char) (acc : List cmdline_arg_t), s.length < fuel →
      ∃ r, parse_args fuel s acc = some r := by
  intro fuel
  induction fuel with
  | zero =>
    intro s acc h
    omega
  | succ fuel ih =>
    intro s acc hlen
    cases s with
    | nil => exact ⟨_, rfl⟩
    | cons c t =>
      rw [parse_args]
      have hnl := scan_arg_name_length (c :: t)
      cases hn : (scan_arg_name (c :: t)).2 with
      | nil => exact ⟨_, rfl⟩
      | cons d rest =>
        simp only
        rw [hn] at hnl
        simp only [List.length_cons] at hnl hlen
        by_cases hd : d = '='
        · simp only [hd, ne_eq, not_true_eq_false, if_false]
          obtain ⟨r, hr1, hr2⟩ := parse_params_terminates (rest.length + 1) rest [] (by omega)
          rw [hr1]
          cases r with
          | ret v =>
            obtain ⟨ps, s2⟩ := v
            have := hr2 ps s2 rfl
            exact ih s2 _ (by omega)
          | assert_fail => exact ⟨_, rfl⟩
          | spin => exact ⟨_, rfl⟩
        · simp only [ne_eq, hd, not_false_eq_true, if_true]
          exact ih rest _ (by omega)

/-- The parser always comes to an end: the bound on the passes is never
reached. -/
theorem mos_cmdline_parse_terminates (cmdline : List Char) :
    ∃ r, mos_cmdline_parse cmdline = some r :=
  parse_args_terminates (cmdline.length + 1) cmdline [] (by omega)

/-! ### C29 -/

/-- C29 fails on a parameter that merely begins with `true`: on the command
line `a=truex` the comparison of the first four characters succeeds, the cursor
moves four characters on to `x`, and the assertion of line 64 fails. The same
happens for `a=falsely`. The command lines `a=true` and `a=tru,b c` are parsed. -/
theorem cmdline_true_prefix_fails_assertion :
    mos_cmdline_parse ['a', '=', 't', 'r', 'u', 'e', 'x'] = some Run.assert_fail ∧
    mos_cmdline_parse ['a', '=', 'f', 'a', 'l', 's', 'e', 'l', 'y'] = some Run.assert_fail ∧
    mos_cmdline_parse ['a', '=', 't', 'r', 'u', 'e'] =
      some (Run.ret [⟨['a'], [cmdline_param_t.boolean true]⟩]) ∧
    mos_cmdline_parse ['a', '=', 't', 'r', 'u', ',', 'b', ' ', 'c'] =
      some (Run.ret [⟨['a'], [cmdline_param_t.string ['t', 'r', 'u'],
        cmdline_param_t.string ['b']]⟩, ⟨['c'], []⟩]) :=
  ⟨rfl, rfl, rfl, rfl⟩

/-! ### C30 -/

theorem two_pow_eq_double (w : Nat) (hw : 1 ≤ w) : 2 ^ w = 2 * 2 ^ (w - 1) := by
  obtain ⟨k, rfl⟩ : ∃ k, w = k + 1 := ⟨w - 1, by omega⟩
  simp [pow_succ]
  ring

theorem to_size_t_of_nonneg (w : Nat) (x : Int) (h0 : 0 ≤ x) (h1 : x < 2 ^ w) :
    to_size_t w x = x.toNat := by
  unfold to_size_t
  rw [Int.emod_eq_of_lt h0 h1]

theorem to_size_t_of_neg (w : Nat) (x : Int) (h0 : x < 0) (h1 : -(2 ^ w) ≤ x) :
    to_size_t w x = (x + 2 ^ w).toNat := by
  unfold to_size_t
  rw [← Int.add_emod_self, Int.emod_eq_of_lt (by omega) (by omega)]

theorem to_off_t_of_lt (w : Nat) (n : Nat) (h : n < 2 ^ (w - 1)) : to_off_t w n = n := by
  have hle : 2 ^ (w - 1) ≤ 2 ^ w := Nat.pow_le_pow_right (by decide) (Nat.sub_le w 1)
  have hmod : n % 2 ^ w = n := Nat.mod_eq_of_lt (lt_of_lt_of_le h hle)
  simp [to_off_t, hmod, h]

/-- The generic seek path in terms of plain numbers, for a file whose size and
position are representable as `off_t`: `H` is `2 ^ (w - 1)`. -/
theorem vfs_io_ops_seek_eq (w : Nat) (file : file_t) (offset : Int)
    (whence : io_seek_whence_t) (hw : 1 ≤ w) (hlock : file.offset_lock = false)
    (hsize : file.size < 2 ^ (w - 1)) (hoff : file.offset < 2 ^ (w - 1))
    (hlo : -(2 ^ (w - 1) : Int) ≤ offset) (hhi : offset < (2 ^ (w - 1) : Int)) :
    vfs_io_ops_seek w none file offset whence =
      match whence with
      | io_seek_whence_t.IO_SEEK_SET =>
        if offset < 0 then Run.ret (0, file)
        else Run.ret (clamp_to_size file.size offset,
          { file with offset := (clamp_to_size file.size offset).toNat })
      | io_seek_whence_t.IO_SEEK_CURRENT =>
        Run.ret (seek_current_target file offset,
          { file with offset := (seek_current_target file offset).toNat })
      | io_seek_whence_t.IO_SEEK_END =>
        if offset < 0 then
          Run.ret (clamp_to_size file.size (file.size + offset),
            { file with offset := (clamp_to_size file.size (file.size + offset)).toNat })
        else Run.ret (0, { file with offset := 0 })
      | io_seek_whence_t.IO_SEEK_DATA => Run.ret (0, file)
      | io_seek_whence_t.IO_SEEK_HOLE => Run.ret (0, file) := by
  obtain ⟨fo, fsz, fl⟩ := file
  simp only at hlock hsize hoff
  subst hlock
  simp only
  have hW := two_pow_eq_double w hw
  have hWi : (2 ^ w : Int) = 2 * (2 ^ (w - 1) : Int) := by exact_mod_cast hW
  generalize hH : 2 ^ (w - 1) = H at hsize hoff hW
  have hHi : (2 ^ (w - 1) : Int) = (H : Int) := by exact_mod_cast hH
  rw [hHi] at hlo hhi hWi
  have hsz : ∀ x : Int, 0 ≤ x → x < 2 * (H : Int) → to_size_t w x = x.toNat := by
    intro x h0 h1
    exact to_size_t_of_nonneg w x h0 (by rw [hWi]; exact h1)
  have hszn : ∀ x : Int, x < 0 → -(2 * (H : Int)) ≤ x →
      to_size_t w x = (x + 2 * (H : Int)).toNat := by
    intro x h0 h1
    rw [to_size_t_of_neg w x h0 (by rw [hWi]; exact h1), hWi]
  have hof : ∀ n : Nat, n < H → to_off_t w n = n := by
    intro n hn
    exact to_off_t_of_lt w n (by rw [hH]; exact hn)
  have hfin : ∀ (r c : Int), r = c → 0 ≤ c → c < (H : Int) →
      (Run.ret (r, (⟨to_size_t w r, fsz, false⟩ : file_t)) : Run (Int × file_t)) =
        Run.ret (c, ⟨c.toNat, fsz, false⟩) := by
    intro r c hrc h0 h1
    subst hrc
    rw [hsz r h0 (by omega)]
  unfold vfs_io_ops_seek
  simp only [Bool.false_eq_true, if_false]
  cases whence with
  | IO_SEEK_SET =>
    simp only
    by_cases hneg : offset < 0
    · simp only [hneg, if_true]
    · simp only [hneg, if_false]
      apply hfin
      · rw [hsz offset (by omega) (by omega)]
        unfold clamp_to_size
        split
        · rw [hof fsz hsize]
          omega
        · omega
      · unfold clamp_to_size
        omega
      · unfold clamp_to_size
        omega
  | IO_SEEK_CURRENT =>
    simp only
    apply hfin
    · unfold seek_current_target
      simp only
      by_cases hneg : offset < 0
      · simp only [hneg, if_true]
        have h1 : to_size_t w (-offset) = (-offset).toNat := hsz (-offset) (by omega) (by omega)
        have h2 : to_size_t w offset = (offset + 2 * (H : Int)).toNat :=
          hszn offset hneg (by omega)
        rw [h1]
        split
        · omega
        · rename_i hge
          have hsum : fo + to_size_t w offset =
              (fo - (-offset).toNat) + 2 * H := by
            rw [h2]
            omega
          have hmod : (fo + to_size_t w offset) % 2 ^ w =
              fo - (-offset).toNat := by
            rw [hsum, hW, Nat.add_mod_right, Nat.mod_eq_of_lt (by omega)]
          have hto : to_off_t w (fo + to_size_t w offset) =
              ((fo - (-offset).toNat : Nat) : Int) := by
            unfold to_off_t
            rw [hmod, hH]
            have : fo - (-offset).toNat < H := by omega
            simp only [this, if_true]
          rw [hto]
          omega
      · simp only [hneg, if_false]
        have h2 : to_size_t w offset = offset.toNat := hsz offset (by omega) (by omega)
        have hmod : (fo + to_size_t w offset) % 2 ^ w = fo + offset.toNat := by
          rw [h2, hW, Nat.mod_eq_of_lt (by omega)]
        rw [hmod]
        split
        · rw [hof fsz hsize]
          omega
        · rw [h2, hof _ (by omega)]
          omega
    · unfold seek_current_target
      simp only
      split <;> omega
    · unfold seek_current_target
      simp only
      split <;> omega
  | IO_SEEK_END =>
    simp only
    by_cases hneg : offset < 0
    · simp only [hneg, if_true]
      apply hfin
      · unfold clamp_to_size
        have h1 : to_size_t w (-offset) = (-offset).toNat := hsz (-offset) (by omega) (by omega)
        have h2 : to_size_t w offset = (offset + 2 * (H : Int)).toNat :=
          hszn offset hneg (by omega)
        rw [h1]
        split
        · omega
        · rename_i hge
          have hsum : fsz + to_size_t w offset =
              (fsz - (-offset).toNat) + 2 * H := by
            rw [h2]
            omega
          have hmod : (fsz + to_size_t w offset) % 2 ^ w =
              fsz - (-offset).toNat := by
            rw [hsum, hW, Nat.add_mod_right, Nat.mod_eq_of_lt (by omega)]
          have hto : to_off_t w (fsz + to_size_t w offset) =
              ((fsz - (-offset).toNat : Nat) : Int) := by
            unfold to_off_t
            rw [hmod, hH]
            have : fsz - (-offset).toNat < H := by omega
            simp only [this, if_true]
          rw [hto]
          omega
      · unfold clamp_to_size
        omega
      · unfold clamp_to_size
        omega
    · simp only [hneg, if_false]
      have : to_size_t w 0 = 0 := by simp [to_size_t]
      rw [this]
  | IO_SEEK_DATA => rfl
  | IO_SEEK_HOLE => rfl

/-- C30 fails as stated for `IO_SEEK_END` with an offset that is not negative:
on a file of 100 bytes at position 40 (64-bit `off_t`), `IO_SEEK_END` with
offset 5 warns that seeking past the end is not supported and returns 0, and
the position becomes 0; the target `100 + 5` clamped to the size is 100. With
offset 0 the call returns 0 as well, not the file size. -/
theorem seek_end_returns_zero :
    vfs_io_ops_seek 64 none file_sample 5 io_seek_whence_t.IO_SEEK_END =
      Run.ret (0, ⟨0, 100, false⟩) ∧
    clamp_to_size file_sample.size (file_sample.size + 5) = 100 ∧
    vfs_io_ops_seek 64 none file_sample 0 io_seek_whence_t.IO_SEEK_END =
      Run.ret (0, ⟨0, 100, false⟩) :=
  ⟨rfl, by decide, rfl⟩

/-- C30, as the code has it: the generic path of `vfs_io_ops_seek` (no seek
routine of the filesystem, offset lock free) on a file whose size fits an
`off_t` and whose position is within the file. For `IO_SEEK_SET` with an offset
that is not negative, for `IO_SEEK_CURRENT` with any offset and for
`IO_SEEK_END` with a negative offset, the target position (`offset`,
`file->offset + offset`, `size + offset`) is clamped to `[0, size]`,
`file->offset` is set to the clamped value and the same value is returned.
`IO_SEEK_SET` with a negative offset returns the clamped value 0. `IO_SEEK_END`
with a positive offset is not supported: the call returns 0. -/
theorem seek_clamps_position (w : Nat) (file : file_t) (offset : Int)
    (hw : 1 ≤ w) (hlock : file.offset_lock = false)
    (hsize : file.size < 2 ^ (w - 1)) (hpos : file.offset ≤ file.size)
    (hlo : -(2 ^ (w - 1) : Int) ≤ offset) (hhi : offset < (2 ^ (w - 1) : Int)) :
    (0 ≤ offset →
      vfs_io_ops_seek w none file offset io_seek_whence_t.IO_SEEK_SET =
        Run.ret (clamp_to_size file.size offset,
          { file with offset := (clamp_to_size file.size offset).toNat })) ∧
    (offset < 0 →
      ∃ file2, vfs_io_ops_seek w none file offset io_seek_whence_t.IO_SEEK_SET =
        Run.ret (clamp_to_size file.size offset, file2)) ∧
    vfs_io_ops_seek w none file offset io_seek_whence_t.IO_SEEK_CURRENT =
      Run.ret (clamp_to_size file.size (file.offset + offset),
        { file with offset := (clamp_to_size file.size (file.offset + offset)).toNat }) ∧
    (offset < 0 →
      vfs_io_ops_seek w none file offset io_seek_whence_t.IO_SEEK_END =
        Run.ret (clamp_to_size file.size (file.size + offset),
          { file with offset := (clamp_to_size file.size (file.size + offset)).toNat })) ∧
    (0 < offset →
      ∃ file2, vfs_io_ops_seek w none file offset io_seek_whence_t.IO_SEEK_END =
        Run.ret (0, file2)) := by
  have hoff : file.offset < 2 ^ (w - 1) := lt_of_le_of_lt hpos hsize
  have key := fun whence => vfs_io_ops_seek_eq w file offset whence hw hlock hsize hoff hlo hhi
  refine ⟨?_, ?_, ?_, ?_, ?_⟩
  · intro h0
    have hn : ¬ offset < 0 := by omega
    rw [key]
    simp only [hn, if_false]
  · intro hneg
    refine ⟨file, ?_⟩
    rw [key]
    simp only [hneg, if_true]
    have : clamp_to_size file.size offset = 0 := by
      unfold clamp_to_size
      omega
    rw [this]
  · rw [key]
    have : seek_current_target file offset = clamp_to_size file.size (file.offset + offset) := by
      unfold seek_current_target clamp_to_size
      split <;> omega
    simp only [this]
  · intro hneg
    rw [key]
    simp only [hneg, if_true]
  · intro hpos2
    have hn : ¬ offset < 0 := by omega
    refine ⟨{ file with offset := 0 }, ?_⟩
    rw [key]
    simp only [hn, if_false]

/-- Witness of C30 on a file of 100 bytes at position 40 with a 64-bit `off_t`:
`IO_SEEK_CURRENT` by -10 gives position 30, by -50 position 0, and
`IO_SEEK_END` by -10 position 90. -/
theorem seek_clamps_position_witness :
    vfs_io_ops_seek 64 none file_sample (-10) io_seek_whence_t.IO_SEEK_CURRENT =
      Run.ret (clamp_to_size 100 (40 + -10), ⟨(clamp_to_size 100 (40 + -10)).toNat, 100, false⟩) ∧
    clamp_to_size 100 (40 + -10) = 30 ∧
    vfs_io_ops_seek 64 none file_sample (-10) io_seek_whence_t.IO_SEEK_END =
      Run.ret (clamp_to_size 100 (100 + -10),
        ⟨(clamp_to_size 100 (100 + -10)).toNat, 100, false⟩) ∧
    clamp_to_size 100 (100 + -10) = 90 :=
  have key := seek_clamps_position 64 file_sample (-10) (by decide) rfl (by decide) (by decide)
    (by decide) (by decide)
  ⟨key.2.2.1, by decide, key.2.2.2.1 (by decide), by decide⟩

end MOS
